import Mathlib

/-!
Verification of the sleep-stage consolidation pipeline of
`src/processing/consolidated_sleep_stages.py` (repository `sleep-profile`).

The pipeline turns a per-sample raw sleep-stage sequence (1 = Wake, 2 = NREM,
3 = REM) into a consolidated per-sample stage sequence.  It runs five stages:
`calculate_nrem_packets`, `calculate_rem_episodes`, `calculate_nrem_episodes`,
`calculate_wake_episodes`, `consolidate_sleep_stages`.

The embedding below represents a pandas column as a `List Nat` and translates
each Python function into a Lean function of the same name.  In-place
dataframe mutation becomes explicit construction of the new column values;
`df.loc[a:b, col] = v` becomes `markRange a b v`; a Python loop that both
appends to a run list and marks gap ranges becomes a recursion returning both
lists, with the marks applied afterwards (the marks are order-independent
writes of the constant 1, so this is behaviour-preserving).
`calculate_rem_episodes` indexes `rem_runs[0]` without an emptiness guard, so
its translation returns `Option`: `none` models the Python `IndexError` raised
when the sequence contains no REM sample.
-/

namespace SleepProfile

/-- Read position `i` of a column, defaulting to 0 out of range (all columns
in the pipeline have the length of the input, so in-range positions are the
ones that matter). -/
def at0 (xs : List Nat) (i : Nat) : Nat := xs.getD i 0

/-- The Python slice `xs[a : b+1]`: elements at positions `a`..`b`. -/
def sliceRange (a b : Nat) (xs : List Nat) : List Nat :=
  (xs.drop a).take (b + 1 - a)

/-- `df.loc[a:b, col] = v` on a column, tracking the current position `i`. -/
def markFrom (a b v : Nat) : Nat → List Nat → List Nat
  | _, [] => []
  | i, x :: xs => (if a ≤ i ∧ i ≤ b then v else x) :: markFrom a b v (i + 1) xs

/-- `df.loc[a:b, col] = v` on a column. -/
def markRange (a b v : Nat) (xs : List Nat) : List Nat := markFrom a b v 0 xs

/-- Apply `df.loc[r.1:r.2, col] = 1` for every interval in `runs`. -/
def markRuns (runs : List (Nat × Nat)) (xs : List Nat) : List Nat :=
  runs.foldl (fun fl r => markRange r.1 r.2 1 fl) xs

/-- The run-collection loop shared by the three scan functions of the source:
walk the column keeping `run_start`; on a `false` close the current run as the
closed interval `(run_start, i - 1)`; at the end of the column close a still
open run at the last index.  `i` is the current position, the `Option Nat` is
the `run_start` variable (`none` = no open run). -/
def brunsAux : List Bool → Nat → Option Nat → List (Nat × Nat)
  | [], _, none => []
  | [], i, some rs => [(rs, i - 1)]
  | b :: l, i, none =>
      if b then brunsAux l (i + 1) (some i) else brunsAux l (i + 1) none
  | b :: l, i, some rs =>
      if b then brunsAux l (i + 1) (some rs)
      else (rs, i - 1) :: brunsAux l (i + 1) none

/-- Maximal runs of `true` in a boolean column, as closed index intervals. -/
def bruns (l : List Bool) : List (Nat × Nat) := brunsAux l 0 none

/-- Shift both endpoints of every run by `k` (for reindexing lemmas). -/
def shiftRuns (k : Nat) (rs : List (Nat × Nat)) : List (Nat × Nat) :=
  rs.map (fun r => (r.1 + k, r.2 + k))

/-- Close the run open since `r` against the runs found from position `i`
onwards: if the first of those runs starts exactly at `i` it is glued to the
open run, otherwise the open run ends at `i - 1`.  (Bookkeeping helper for the
structural equations of `bruns`; not part of the source.) -/
def consRun (r i : Nat) (runs : List (Nat × Nat)) : List (Nat × Nat) :=
  match runs with
  | [] => [(r, i - 1)]
  | (a, b) :: rest =>
      if a = i then (r, b) :: rest else (r, i - 1) :: (a, b) :: rest

/-- The boolean column `df['sleepStage'] == v`. -/
def boolStage (v : Nat) (s : List Nat) : List Bool :=
  s.map (fun x => decide (x = v))

/-- `[a, b]` is a maximal run of `true` in the boolean column `l`: it is
non-empty, in range, all-`true`, and not extendable on either side. -/
def IsMaxRun (l : List Bool) (a b : Nat) : Prop :=
  a ≤ b ∧ b < l.length ∧ (∀ j, a ≤ j → j ≤ b → l.getD j false = true) ∧
  (a = 0 ∨ l.getD (a - 1) false = false) ∧
  (b + 1 = l.length ∨ l.getD (b + 1) false = false)

/-- `[a, b]` is a maximal run of raw stage `v` in the stage column `s`,
stated directly over the stage values. -/
def IsMaxStageRun (v : Nat) (s : List Nat) (a b : Nat) : Prop :=
  a ≤ b ∧ b < s.length ∧ (∀ j, a ≤ j → j ≤ b → at0 s j = v) ∧
  (a = 0 ∨ at0 s (a - 1) ≠ v) ∧ (b + 1 = s.length ∨ at0 s (b + 1) ≠ v)

/-- `calculate_nrem_packets` (flag part): mark each maximal run of raw stage 2
whose length is at least 20 samples; the `NREMpacket` column starts at all-0.
Source closes a run of length `i - run_start` and marks `run_start..i-1`; with
closed intervals `(a, e)` the length is `e + 1 - a`. -/
def calculate_nrem_packets (s : List Nat) : List Nat :=
  (bruns (boolStage 2 s)).foldl
    (fun fl r => if 20 ≤ r.2 + 1 - r.1 then markRange r.1 r.2 1 fl else fl)
    (List.replicate s.length 0)

/-- `(df['sleepStage'][gs:ge+1] == 2).any()`. -/
def hasStage2 (s : List Nat) (gs ge : Nat) : Bool :=
  (sliceRange gs ge s).any (fun x => decide (x = 2))

/-- The REM merge loop of `calculate_rem_episodes`: walk the remaining runs
with the accumulating `previous_run`; a gap shorter than 40 samples merges the
two runs unless it contains a raw NREM sample, in which case the whole gap is
recorded for `NREMepisode`-marking.  Returns (`merged_rem_runs`, gap marks).
Note `calculate_rem_episodes` only calls this on consecutive runs produced by
`bruns`, for which `prev.2 + 2 ≤ cur.1`, so the truncated `Nat` subtractions
agree with the Python integer arithmetic. -/
def remMergeAux (s : List Nat) : List (Nat × Nat) → Nat × Nat →
    List (Nat × Nat) × List (Nat × Nat)
  | [], prev => ([prev], [])
  | cur :: rest, prev =>
    let gs := prev.2 + 1
    let ge := cur.1 - 1
    if ge + 1 - gs < 40 then
      if hasStage2 s gs ge then
        let res := remMergeAux s rest cur
        (prev :: res.1, (gs, ge) :: res.2)
      else
        remMergeAux s rest (prev.1, cur.2)
    else
      let res := remMergeAux s rest cur
      (prev :: res.1, res.2)

/-- `calculate_rem_episodes`: returns the (`REMepisode`, `NREMepisode`)
columns, both initialised to all-0 by the source.  The source evaluates
`rem_runs[0]` before the merge loop, so an input with no REM run raises
`IndexError`: modelled by `none`. -/
def calculate_rem_episodes (s : List Nat) : Option (List Nat × List Nat) :=
  match bruns (boolStage 3 s) with
  | [] => none
  | r0 :: rest =>
    let mg := remMergeAux s rest r0
    some (markRuns mg.1 (List.replicate s.length 0),
          markRuns mg.2 (List.replicate s.length 0))

/-- `(df['REMepisode'][gs:ge+1] == 1).any()`. -/
def hasRem (rem : List Nat) (gs ge : Nat) : Bool :=
  (sliceRange gs ge rem).any (fun x => decide (x = 1))

/-- The NREM merge loop of `calculate_nrem_episodes`: same strategy as
`remMergeAux` but blocking on a `REMepisode` sample in the gap, and with no
side marking. -/
def nremMergeAux (rem : List Nat) : List (Nat × Nat) → Nat × Nat →
    List (Nat × Nat)
  | [], prev => [prev]
  | cur :: rest, prev =>
    let gs := prev.2 + 1
    let ge := cur.1 - 1
    if ge + 1 - gs < 40 then
      if hasRem rem gs ge then
        prev :: nremMergeAux rem rest cur
      else
        nremMergeAux rem rest (prev.1, cur.2)
    else
      prev :: nremMergeAux rem rest cur

/-- The pair of runs at positions `k` and `k + 1` of a run list ("two
consecutive runs"), if both exist. -/
def pairAt (l : List (Nat × Nat)) (k : Nat) :
    Option ((Nat × Nat) × (Nat × Nat)) :=
  match l.drop k with
  | u :: v :: _ => some (u, v)
  | _ => none

/-- The eligibility column of `calculate_nrem_episodes`:
`packet == 1 and eligible` where `eligible = (REMepisode == 0)`. -/
def eligibleNrem (packet rem : List Nat) : List Bool :=
  (packet.zip rem).map (fun p => decide (p.1 = 1 ∧ p.2 = 0))

/-- `calculate_nrem_episodes`: marks merged runs of eligible packet samples on
top of the existing `NREMepisode` column `nrem0`.  An empty run list leaves
the column unchanged (`previous_run = None`, nothing is appended or marked). -/
def calculate_nrem_episodes (packet rem nrem0 : List Nat) : List Nat :=
  match bruns (eligibleNrem packet rem) with
  | [] => nrem0
  | r0 :: rest => markRuns (nremMergeAux rem rest r0) nrem0

/-- `calculate_wake_episodes`:
`WAKEepisode = ((REMepisode == 0) & (NREMepisode == 0)).astype(int)`. -/
def calculate_wake_episodes (rem nrem : List Nat) : List Nat :=
  List.zipWith (fun r n => if r = 0 ∧ n = 0 then 1 else 0) rem nrem

/-- One masked assignment `df.loc[df[flag] == 1, 'sleepStageConsolidated'] = code`. -/
def applyFlag (flag : List Nat) (code : Nat) (out : List Nat) : List Nat :=
  List.zipWith (fun x f => if f = 1 then code else x) out flag

/-- `consolidate_sleep_stages` (column part): start from the all-0 column and
apply the three masked assignments in source order (WAKE → 1, NREM → 2,
REM → 3, later assignments overwriting earlier ones). -/
def consolidate_sleep_stages (rem nrem wake : List Nat) : List Nat :=
  applyFlag rem 3 (applyFlag nrem 2 (applyFlag wake 1
    (List.replicate wake.length 0)))

/-- The first four stages of the module-level pipeline, returning the
(`NREMpacket`, `REMepisode`, `NREMepisode`, `WAKEepisode`) columns. -/
def pipelineFlags (s : List Nat) :
    Option (List Nat × List Nat × List Nat × List Nat) :=
  let packet := calculate_nrem_packets s
  match calculate_rem_episodes s with
  | none => none
  | some rn =>
    let nrem := calculate_nrem_episodes packet rn.1 rn.2
    let wake := calculate_wake_episodes rn.1 nrem
    some (packet, rn.1, nrem, wake)

/-- The full module-level pipeline: the `sleepStageConsolidated` column. -/
def pipeline (s : List Nat) : Option (List Nat) :=
  match pipelineFlags s with
  | none => none
  | some pf => some (consolidate_sleep_stages pf.2.1 pf.2.2.1 pf.2.2.2)

/-- The dataframe threaded through the pipeline: the two input columns plus
the scratch columns added and removed by the stages (`none` = column absent).
Timestamps are represented as the abstract instants the `Timestamp` strings
parse to, so `pd.to_datetime` — a change of representation, not of instant —
is the identity at this level of abstraction. -/
structure Df where
  sleepStage : List Nat
  timestamp : List Nat
  nrempacket : Option (List Nat) := none
  remepisode : Option (List Nat) := none
  nremepisode : Option (List Nat) := none
  wakeepisode : Option (List Nat) := none
  consolidated : Option (List Nat) := none
  deriving DecidableEq

/-- `calculate_nrem_packets` at dataframe level: converts `Timestamp` with
`pd.to_datetime` (identity on instants) and adds the `NREMpacket` column. -/
def calculate_nrem_packets_df (df : Df) : Df :=
  { df with timestamp := df.timestamp,
            nrempacket := some (calculate_nrem_packets df.sleepStage) }

/-- `calculate_rem_episodes` at dataframe level. -/
def calculate_rem_episodes_df (df : Df) : Option Df :=
  match calculate_rem_episodes df.sleepStage with
  | none => none
  | some rn =>
      some { df with remepisode := some rn.1, nremepisode := some rn.2 }

/-- `calculate_nrem_episodes` at dataframe level.  In the pipeline the three
columns read here are always present; `getD []` is only a total-function
placeholder for the `KeyError` an out-of-order call would raise. -/
def calculate_nrem_episodes_df (df : Df) : Df :=
  { df with nremepisode := some (calculate_nrem_episodes
      (df.nrempacket.getD []) (df.remepisode.getD [])
      (df.nremepisode.getD [])) }

/-- `calculate_wake_episodes` at dataframe level. -/
def calculate_wake_episodes_df (df : Df) : Df :=
  { df with wakeepisode := some (calculate_wake_episodes
      (df.remepisode.getD []) (df.nremepisode.getD [])) }

/-- `consolidate_sleep_stages` at dataframe level: adds the consolidated
column and drops the four scratch columns. -/
def consolidate_sleep_stages_df (df : Df) : Df :=
  let cs := consolidate_sleep_stages (df.remepisode.getD [])
    (df.nremepisode.getD []) (df.wakeepisode.getD [])
  { df with consolidated := some cs, nrempacket := none, remepisode := none,
            nremepisode := none, wakeepisode := none }

/-- The module-level pipeline at dataframe level. -/
def pipeline_df (df : Df) : Option Df :=
  match calculate_rem_episodes_df (calculate_nrem_packets_df df) with
  | none => none
  | some d2 => some (consolidate_sleep_stages_df
      (calculate_wake_episodes_df (calculate_nrem_episodes_df d2)))

/-- The gaps recorded by a pass of the REM merge loop in which no pair
merges: one entry per adjacent pair whose gap is short and contains raw NREM.
(Bookkeeping for the idempotence proof; not part of the source.) -/
def gapsOf (t : List Nat) : List (Nat × Nat) → List (Nat × Nat)
  | u :: v :: rest =>
      if v.1 - 1 + 1 - (u.2 + 1) < 40 then
        if hasStage2 t (u.2 + 1) (v.1 - 1) then
          (u.2 + 1, v.1 - 1) :: gapsOf t (v :: rest)
        else gapsOf t (v :: rest)
      else gapsOf t (v :: rest)
  | _ => []

/-- Scenario C of the spec: two REM runs of length 5 separated by a 10-sample
gap whose third sample is raw NREM (stage 2), the rest Wake, flanked by
Wake. -/
def scenC : List Nat :=
  [1, 3, 3, 3, 3, 3, 1, 1, 2, 1, 1, 1, 1, 1, 1, 1, 3, 3, 3, 3, 3, 1]

/-- The pipeline output on `scenC`: the two REM runs stay separate and the
whole gap — its Wake samples included — is consolidated to NREM (2). -/
def scenCout : List Nat :=
  [1, 3, 3, 3, 3, 3, 2, 2, 2, 2, 2, 2, 2, 2, 2, 2, 3, 3, 3, 3, 3, 1]

/-- A one-sample REM dataframe, for exercising the dataframe pipeline. -/
def dfC10 : Df := { sleepStage := [3], timestamp := [7] }

/-- The dataframe pipeline output on `dfC10`. -/
def dfC10out : Df :=
  { sleepStage := [3], timestamp := [7], consolidated := some [3] }

/-! ### Pointwise lemmas for column access and marking -/

theorem at0_nil (j : Nat) : at0 [] j = 0 := by
  cases j <;> rfl

theorem at0_replicate (n j : Nat) : at0 (List.replicate n 0) j = 0 := by
  induction n generalizing j with
  | zero => exact at0_nil j
  | succ n ih =>
      cases j with
      | zero => rfl
      | succ j => exact ih j

theorem markFrom_length (a b v : Nat) :
    ∀ (i : Nat) (xs : List Nat), (markFrom a b v i xs).length = xs.length := by
  intro i xs
  induction xs generalizing i with
  | nil => rfl
  | cons x xs ih => simp [markFrom, ih]

theorem at0_markFrom (a b v : Nat) :
    ∀ (xs : List Nat) (i j : Nat),
      at0 (markFrom a b v i xs) j =
        if a ≤ i + j ∧ i + j ≤ b ∧ j < xs.length then v else at0 xs j := by
  intro xs
  induction xs with
  | nil =>
      intro i j
      simp [markFrom]
  | cons x xs ih =>
      intro i j
      cases j with
      | zero =>
          show (if a ≤ i ∧ i ≤ b then v else x) = _
          rw [show at0 (x :: xs) 0 = x from rfl]
          have hiff : (a ≤ i ∧ i ≤ b) ↔
              (a ≤ i + 0 ∧ i + 0 ≤ b ∧ 0 < (x :: xs).length) := by
            simp only [List.length_cons]
            omega
          exact if_congr hiff rfl rfl
      | succ j =>
          show at0 (markFrom a b v (i + 1) xs) j = _
          rw [ih (i + 1) j]
          rw [show at0 (x :: xs) (j + 1) = at0 xs j from rfl]
          have hiff : (a ≤ i + 1 + j ∧ i + 1 + j ≤ b ∧ j < xs.length) ↔
              (a ≤ i + (j + 1) ∧ i + (j + 1) ≤ b ∧ j + 1 < (x :: xs).length) := by
            simp only [List.length_cons]
            omega
          exact if_congr hiff rfl rfl

theorem at0_markRange (a b v : Nat) (xs : List Nat) (j : Nat) :
    at0 (markRange a b v xs) j =
      if a ≤ j ∧ j ≤ b ∧ j < xs.length then v else at0 xs j := by
  simpa using at0_markFrom a b v xs 0 j

theorem markRange_length (a b v : Nat) (xs : List Nat) :
    (markRange a b v xs).length = xs.length :=
  markFrom_length a b v 0 xs

theorem markRuns_nil (xs : List Nat) : markRuns [] xs = xs := rfl

theorem markRuns_cons (r : Nat × Nat) (runs : List (Nat × Nat)) (xs : List Nat) :
    markRuns (r :: runs) xs = markRuns runs (markRange r.1 r.2 1 xs) := rfl

theorem markRuns_length (runs : List (Nat × Nat)) (xs : List Nat) :
    (markRuns runs xs).length = xs.length := by
  induction runs generalizing xs with
  | nil => rfl
  | cons r rs ih => rw [markRuns_cons, ih, markRange_length]

/-- A position outside every run keeps its previous value. -/
theorem at0_markRuns_of_not_mem :
    ∀ (runs : List (Nat × Nat)) (xs : List Nat) (j : Nat),
      (∀ r ∈ runs, ¬(r.1 ≤ j ∧ j ≤ r.2)) →
      at0 (markRuns runs xs) j = at0 xs j := by
  intro runs
  induction runs with
  | nil => intro xs j _; rfl
  | cons q rs ih =>
      intro xs j h
      rw [markRuns_cons, ih _ j (fun r hr => h r (List.mem_cons_of_mem q hr)),
        at0_markRange, if_neg]
      intro hc
      exact h q (List.mem_cons_self q rs) ⟨hc.1, hc.2.1⟩

/-- A position inside one of the marked runs reads 1 afterwards. -/
theorem at0_markRuns_of_mem :
    ∀ (runs : List (Nat × Nat)) (xs : List Nat) (r : Nat × Nat) (j : Nat),
      r ∈ runs → r.1 ≤ j → j ≤ r.2 → j < xs.length →
      at0 (markRuns runs xs) j = 1 := by
  intro runs
  induction runs with
  | nil => intro xs r j hr _ _ _; cases hr
  | cons q rs ih =>
      intro xs r j hr h1 h2 hj
      rw [markRuns_cons]
      rcases List.mem_cons.mp hr with he | hm
      · by_cases hex : ∃ p ∈ rs, p.1 ≤ j ∧ j ≤ p.2
        · obtain ⟨p, hp, hp1, hp2⟩ := hex
          exact ih _ p j hp hp1 hp2 (by rw [markRange_length]; exact hj)
        · rw [at0_markRuns_of_not_mem rs _ j
            (fun p hp hc => absurd ⟨p, hp, hc⟩ hex), at0_markRange]
          cases he
          exact if_pos ⟨h1, h2, hj⟩
      · exact ih _ r j hm h1 h2 (by rw [markRange_length]; exact hj)

/-- Marking writes 1 or leaves the previous value. -/
theorem at0_markRuns_or (runs : List (Nat × Nat)) (xs : List Nat) (j : Nat) :
    at0 (markRuns runs xs) j = 1 ∨ at0 (markRuns runs xs) j = at0 xs j := by
  induction runs generalizing xs with
  | nil => exact Or.inr rfl
  | cons r rs ih =>
      rw [markRuns_cons]
      rcases ih (markRange r.1 r.2 1 xs) with h | h
      · exact Or.inl h
      · rw [h, at0_markRange]
        by_cases hc : r.1 ≤ j ∧ j ≤ r.2 ∧ j < xs.length
        · exact Or.inl (by rw [if_pos hc])
        · exact Or.inr (by rw [if_neg hc])

/-- A position reading 1 after marking was already 1 or lies in some run. -/
theorem at0_markRuns_inv (runs : List (Nat × Nat)) (xs : List Nat) (j : Nat)
    (h : at0 (markRuns runs xs) j = 1) :
    at0 xs j = 1 ∨ ∃ r ∈ runs, r.1 ≤ j ∧ j ≤ r.2 := by
  induction runs generalizing xs with
  | nil => exact Or.inl h
  | cons r rs ih =>
      rw [markRuns_cons] at h
      rcases ih _ h with h' | ⟨q, hq, hq1, hq2⟩
      · rw [at0_markRange] at h'
        by_cases hc : r.1 ≤ j ∧ j ≤ r.2 ∧ j < xs.length
        · exact Or.inr ⟨r, List.mem_cons_self r rs, hc.1, hc.2.1⟩
        · rw [if_neg hc] at h'
          exact Or.inl h'
      · exact Or.inr ⟨q, List.mem_cons_of_mem r hq, hq1, hq2⟩

/-- A fold applying `f` under a test equals the plain fold over the filtered list. -/
theorem foldl_if_filter {α β : Type} (p : α → Prop) [DecidablePred p]
    (f : β → α → β) :
    ∀ (l : List α) (init : β),
      l.foldl (fun acc r => if p r then f acc r else acc) init =
        (l.filter (fun r => decide (p r))).foldl f init := by
  intro l
  induction l with
  | nil => intro init; rfl
  | cons x xs ih =>
      intro init
      by_cases h : p x
      · simp only [List.foldl, List.filter_cons, decide_eq_true_eq, if_pos h, h]
        exact ih _
      · simp only [List.foldl, List.filter_cons, decide_eq_true_eq, if_neg h, h]
        exact ih _

theorem at0_zipWith (f : Nat → Nat → Nat) :
    ∀ (xs ys : List Nat) (j : Nat), j < xs.length → j < ys.length →
      at0 (List.zipWith f xs ys) j = f (at0 xs j) (at0 ys j) := by
  intro xs
  induction xs with
  | nil => intro ys j h _; cases h
  | cons x xs ih =>
      intro ys j h1 h2
      cases ys with
      | nil => cases h2
      | cons y ys =>
          cases j with
          | zero => rfl
          | succ j =>
              exact ih ys j (Nat.lt_of_succ_lt_succ h1) (Nat.lt_of_succ_lt_succ h2)

/-! ### Structure of `bruns`: reindexing and structural equations -/

theorem brunsAux_start_ge :
    ∀ (l : List Bool) (i : Nat) (rs : Option Nat),
      (∀ r, rs = some r → r ≤ i) →
      ∀ x ∈ brunsAux l i rs, rs.getD i ≤ x.1 := by
  intro l
  induction l with
  | nil =>
      intro i rs h x hx
      cases rs with
      | none => cases hx
      | some r =>
          simp only [brunsAux, List.mem_singleton] at hx
          subst hx
          simp
  | cons b l ih =>
      intro i rs h x hx
      cases rs with
      | none =>
          cases b with
          | false =>
              have hx' : x ∈ brunsAux l (i + 1) none := by simpa [brunsAux] using hx
              have := ih (i + 1) none (by intro r hr; cases hr) x hx'
              simp only [Option.getD_none] at this ⊢
              omega
          | true =>
              have hx' : x ∈ brunsAux l (i + 1) (some i) := by
                simpa [brunsAux] using hx
              have := ih (i + 1) (some i) (by intro r hr; cases hr; omega) x hx'
              simpa using this
      | some r =>
          have hri : r ≤ i := h r rfl
          cases b with
          | true =>
              have hx' : x ∈ brunsAux l (i + 1) (some r) := by
                simpa [brunsAux] using hx
              have := ih (i + 1) (some r)
                (by intro r' hr'; cases hr'; omega) x hx'
              simpa using this
          | false =>
              have hx' : x = (r, i - 1) ∨ x ∈ brunsAux l (i + 1) none := by
                simpa [brunsAux] using hx
              rcases hx' with he | hm
              · subst he; simp
              · have := ih (i + 1) none (by intro r' hr'; cases hr') x hm
                simp only [Option.getD_none, Option.getD_some] at this ⊢
                omega

theorem brunsAux_shift :
    ∀ (l : List Bool) (i k : Nat) (rs : Option Nat),
      (∀ r, rs = some r → 1 ≤ i) →
      brunsAux l (i + k) (rs.map (fun r => r + k)) =
        shiftRuns k (brunsAux l i rs) := by
  intro l
  induction l with
  | nil =>
      intro i k rs h
      cases rs with
      | none => rfl
      | some r =>
          have h1 : 1 ≤ i := h r rfl
          simp only [Option.map_some', brunsAux, shiftRuns, List.map_cons,
            List.map_nil]
          rw [show i + k - 1 = i - 1 + k from by omega]
  | cons b l ih =>
      intro i k rs h
      cases rs with
      | none =>
          cases b with
          | false =>
              have := ih (i + 1) k none (by intro r hr; cases hr)
              simp only [Option.map_none'] at this
              simp only [brunsAux, Option.map_none', if_neg Bool.false_ne_true]
              rw [show i + k + 1 = i + 1 + k from by omega]
              exact this
          | true =>
              have := ih (i + 1) k (some i) (by intro r hr; omega)
              simp only [Option.map_some'] at this
              simp only [brunsAux, Option.map_none', if_pos rfl]
              rw [show i + k + 1 = i + 1 + k from by omega]
              exact this
      | some r =>
          have h1 : 1 ≤ i := h r rfl
          cases b with
          | true =>
              have := ih (i + 1) k (some r) (by intro r' hr'; omega)
              simp only [Option.map_some'] at this
              simp only [brunsAux, Option.map_some', if_pos rfl]
              rw [show i + k + 1 = i + 1 + k from by omega]
              exact this
          | false =>
              have := ih (i + 1) k none (by intro r' hr'; cases hr')
              simp only [Option.map_none'] at this
              simp only [brunsAux, Option.map_some', if_neg Bool.false_ne_true,
                shiftRuns, List.map_cons]
              rw [show i + k + 1 = i + 1 + k from by omega]
              rw [show i + k - 1 = i - 1 + k from by omega]
              exact congrArg _ this

theorem brunsAux_none_eq_shift (l : List Bool) (i : Nat) :
    brunsAux l i none = shiftRuns i (bruns l) := by
  have := brunsAux_shift l 0 i none (by intro r hr; cases hr)
  simpa [bruns] using this

theorem brunsAux_some_eq :
    ∀ (l : List Bool) (i r : Nat), r < i →
      brunsAux l i (some r) = consRun r i (brunsAux l i none) := by
  intro l
  induction l with
  | nil => intro i r _; rfl
  | cons bb l ih =>
      intro i r h
      cases bb with
      | true =>
          have hL := ih (i + 1) r (by omega)
          have hR := ih (i + 1) i (by omega)
          show brunsAux l (i + 1) (some r) = consRun r i (brunsAux l (i + 1) (some i))
          rw [hL, hR]
          cases hnn : brunsAux l (i + 1) none with
          | nil => simp [consRun]
          | cons p rest =>
              obtain ⟨a, b⟩ := p
              by_cases ha : a = i + 1
              · simp [consRun, ha]
              · simp only [consRun, if_neg ha, Nat.add_sub_cancel]
                simp
      | false =>
          show (r, i - 1) :: brunsAux l (i + 1) none =
            consRun r i (brunsAux l (i + 1) none)
          cases hnn : brunsAux l (i + 1) none with
          | nil => rfl
          | cons p rest =>
              have hp1 : i + 1 ≤ p.1 := by
                have := brunsAux_start_ge l (i + 1) none
                  (by intro r' hr'; cases hr') p
                  (by rw [hnn]; exact List.mem_cons_self p rest)
                simpa using this
              obtain ⟨a, b⟩ := p
              simp only at hp1
              simp [consRun, show ¬(a = i) from by omega]

theorem bruns_nil : bruns [] = [] := rfl

theorem bruns_cons_false (l : List Bool) :
    bruns (false :: l) = shiftRuns 1 (bruns l) := by
  show brunsAux l 1 none = _
  exact brunsAux_none_eq_shift l 1

theorem bruns_cons_true (l : List Bool) :
    bruns (true :: l) = consRun 0 1 (shiftRuns 1 (bruns l)) := by
  show brunsAux l 1 (some 0) = _
  rw [brunsAux_some_eq l 1 0 (by omega), brunsAux_none_eq_shift l 1]

/-! ### `bruns` finds exactly the maximal true-runs -/

theorem mem_shiftRuns {k : Nat} {rs : List (Nat × Nat)} {x : Nat × Nat} :
    x ∈ shiftRuns k rs ↔ ∃ y ∈ rs, x = (y.1 + k, y.2 + k) := by
  simp only [shiftRuns, List.mem_map]
  constructor
  · rintro ⟨y, hy, he⟩; exact ⟨y, hy, he.symm⟩
  · rintro ⟨y, hy, he⟩; exact ⟨y, hy, he.symm⟩

theorem bruns_bounds :
    ∀ (l : List Bool), ∀ x ∈ bruns l, x.1 ≤ x.2 ∧ x.2 < l.length := by
  intro l
  induction l with
  | nil => intro x hx; cases hx
  | cons c l ih =>
      intro x hx
      cases c with
      | false =>
          rw [bruns_cons_false] at hx
          obtain ⟨y, hy, he⟩ := mem_shiftRuns.mp hx
          have := ih y hy
          subst he
          simp only [List.length_cons]
          omega
      | true =>
          rw [bruns_cons_true] at hx
          cases hb : bruns l with
          | nil =>
              rw [hb] at hx
              simp only [shiftRuns, List.map_nil, consRun, List.mem_singleton] at hx
              subst hx
              simp
          | cons p rest =>
              obtain ⟨a, b⟩ := p
              rw [hb] at hx
              simp only [shiftRuns, List.map_cons, consRun] at hx
              by_cases ha : a = 0
              · rw [if_pos (by omega)] at hx
                rcases List.mem_cons.mp hx with he | hm
                · have := ih (a, b) (by rw [hb]; exact List.mem_cons_self _ _)
                  subst he
                  simp only [List.length_cons]
                  simp only at this
                  omega
                · obtain ⟨y, hy, he⟩ := mem_shiftRuns.mp (by
                    simpa [shiftRuns] using hm)
                  have := ih y (by rw [hb]; exact List.mem_cons_of_mem _ hy)
                  subst he
                  simp only [List.length_cons]
                  omega
              · rw [if_neg (by omega)] at hx
                rcases List.mem_cons.mp hx with he | hm
                · subst he; simp
                · rcases List.mem_cons.mp hm with he | hm'
                  · have := ih (a, b) (by rw [hb]; exact List.mem_cons_self _ _)
                    subst he
                    simp only [List.length_cons]
                    simp only at this
                    omega
                  · obtain ⟨y, hy, he⟩ := mem_shiftRuns.mp (by
                      simpa [shiftRuns] using hm')
                    have := ih y (by rw [hb]; exact List.mem_cons_of_mem _ hy)
                    subst he
                    simp only [List.length_cons]
                    omega

theorem bruns_pairwise :
    ∀ (l : List Bool), List.Pairwise (fun x y => x.2 + 2 ≤ y.1) (bruns l) := by
  intro l
  induction l with
  | nil => exact List.Pairwise.nil
  | cons c l ih =>
      cases c with
      | false =>
          rw [bruns_cons_false]
          refine (List.pairwise_map).mpr ?_
          exact ih.imp (by intro a b h; simpa using by omega)
      | true =>
          rw [bruns_cons_true]
          cases hb : bruns l with
          | nil => simp [shiftRuns, consRun]
          | cons p rest =>
              obtain ⟨a, b⟩ := p
              have ihp := ih
              rw [hb] at ihp
              have hrel := List.pairwise_cons.mp ihp
              simp only [shiftRuns, List.map_cons, consRun]
              by_cases ha : a = 0
              · rw [if_pos (by omega)]
                refine List.pairwise_cons.mpr ⟨?_, ?_⟩
                · intro y hy
                  obtain ⟨z, hz, he⟩ := mem_shiftRuns.mp (by
                    simpa [shiftRuns] using hy)
                  have := hrel.1 z hz
                  subst he
                  simp only
                  omega
                · refine (List.pairwise_map).mpr ?_
                  exact hrel.2.imp (by intro u v h; simpa using by omega)
              · rw [if_neg (by omega)]
                refine List.pairwise_cons.mpr ⟨?_, ?_⟩
                · intro y hy
                  rcases List.mem_cons.mp hy with he | hm
                  · subst he; simp; omega
                  · obtain ⟨z, hz, he⟩ := mem_shiftRuns.mp (by
                      simpa [shiftRuns] using hm)
                    have := hrel.1 z hz
                    subst he
                    simp only
                    omega
                · refine List.pairwise_cons.mpr ⟨?_, ?_⟩
                  · intro y hy
                    obtain ⟨z, hz, he⟩ := mem_shiftRuns.mp (by
                      simpa [shiftRuns] using hy)
                    have := hrel.1 z hz
                    subst he
                    simp only
                    omega
                  · refine (List.pairwise_map).mpr ?_
                    exact hrel.2.imp (by intro u v h; simpa using by omega)

theorem bruns_cover :
    ∀ (l : List Bool) (j : Nat), j < l.length → l.getD j false = true →
      ∃ x ∈ bruns l, x.1 ≤ j ∧ j ≤ x.2 := by
  intro l
  induction l with
  | nil => intro j h; cases h
  | cons c l ih =>
      intro j hj hv
      cases j with
      | zero =>
          rw [List.getD_cons_zero] at hv
          subst hv
          rw [bruns_cons_true]
          cases hb : bruns l with
          | nil => exact ⟨(0, 0), by simp [shiftRuns, consRun], by omega, by omega⟩
          | cons p rest =>
              obtain ⟨a, b⟩ := p
              simp only [shiftRuns, List.map_cons, consRun]
              by_cases ha : a = 0
              · rw [if_pos (by omega)]
                exact ⟨(0, b + 1), List.mem_cons_self _ _, by omega, by omega⟩
              · rw [if_neg (by omega)]
                exact ⟨(0, 0), List.mem_cons_self _ _, by omega, by omega⟩
      | succ j =>
          rw [List.getD_cons_succ] at hv
          have hj' : j < l.length := by
            simp only [List.length_cons] at hj
            omega
          obtain ⟨x, hx, hx1, hx2⟩ := ih j hj' hv
          cases c with
          | false =>
              rw [bruns_cons_false]
              exact ⟨(x.1 + 1, x.2 + 1),
                mem_shiftRuns.mpr ⟨x, hx, rfl⟩, by omega, by omega⟩
          | true =>
              rw [bruns_cons_true]
              cases hb : bruns l with
              | nil => rw [hb] at hx; cases hx
              | cons p rest =>
                  obtain ⟨a, b⟩ := p
                  rw [hb] at hx
                  simp only [shiftRuns, List.map_cons, consRun]
                  by_cases ha : a = 0
                  · rw [if_pos (by omega)]
                    rcases List.mem_cons.mp hx with he | hm
                    · subst he
                      exact ⟨(0, b + 1), List.mem_cons_self _ _, by omega,
                        by simp only at hx2; omega⟩
                    · exact ⟨(x.1 + 1, x.2 + 1), List.mem_cons_of_mem _
                        (mem_shiftRuns.mpr ⟨x, hm, rfl⟩), by omega, by omega⟩
                  · rw [if_neg (by omega)]
                    refine ⟨(x.1 + 1, x.2 + 1), ?_, by omega, by omega⟩
                    refine List.mem_cons_of_mem _ ?_
                    show _ ∈ (a + 1, b + 1) :: shiftRuns 1 rest
                    rcases List.mem_cons.mp hx with he | hm
                    · subst he; exact List.mem_cons_self _ _
                    · exact List.mem_cons_of_mem _ (mem_shiftRuns.mpr ⟨x, hm, rfl⟩)

/-- If a boolean column has no runs at all, every in-range entry is `false`. -/
theorem bruns_eq_nil_all_false {l : List Bool} (h : bruns l = []) :
    ∀ j, j < l.length → l.getD j false = false := by
  intro j hj
  by_contra hne
  have hv : l.getD j false = true := by
    cases hb : l.getD j false
    · exact absurd hb hne
    · rfl
  obtain ⟨x, hx, _⟩ := bruns_cover l j hj hv
  rw [h] at hx
  cases hx

/-- Shifting a maximal run across a `cons` that cannot extend it. -/
theorem IsMaxRun.shift_cons {l : List Bool} {a b : Nat} (c : Bool)
    (h : IsMaxRun l a b) (hc : a = 0 → c = false) :
    IsMaxRun (c :: l) (a + 1) (b + 1) := by
  obtain ⟨hab, hblen, hint, hleft, hright⟩ := h
  refine ⟨by omega, by simp only [List.length_cons]; omega, ?_, ?_, ?_⟩
  · intro j hj1 hj2
    cases j with
    | zero => omega
    | succ j => rw [List.getD_cons_succ]; exact hint j (by omega) (by omega)
  · right
    rw [Nat.add_sub_cancel]
    by_cases ha : a = 0
    · subst ha
      rw [List.getD_cons_zero]
      exact hc rfl
    · rcases hleft with h0 | hf
      · exact absurd h0 ha
      · have ha' : a = (a - 1) + 1 := by omega
        rw [ha', List.getD_cons_succ]
        exact hf
  · rcases hright with h0 | hf
    · left; simp only [List.length_cons]; omega
    · right; rw [List.getD_cons_succ]; exact hf

theorem bruns_maxRun :
    ∀ (l : List Bool), ∀ x ∈ bruns l, IsMaxRun l x.1 x.2 := by
  intro l
  induction l with
  | nil => intro x hx; cases hx
  | cons c l ih =>
      intro x hx
      cases c with
      | false =>
          rw [bruns_cons_false] at hx
          obtain ⟨y, hy, he⟩ := mem_shiftRuns.mp hx
          subst he
          exact (ih y hy).shift_cons false (fun _ => rfl)
      | true =>
          rw [bruns_cons_true] at hx
          cases hb : bruns l with
          | nil =>
              rw [hb] at hx
              simp only [shiftRuns, List.map_nil, consRun,
                List.mem_singleton] at hx
              subst hx
              refine ⟨Nat.le_refl 0, by simp, ?_, Or.inl rfl, ?_⟩
              · intro j h1 h2
                have : j = 0 := by omega
                subst this
                rfl
              · cases l with
                | nil => left; rfl
                | cons d l' =>
                    right
                    rw [List.getD_cons_succ]
                    exact bruns_eq_nil_all_false hb 0 (by simp)
          | cons p rest =>
              obtain ⟨a, b⟩ := p
              rw [hb] at hx
              have hmax := ih (a, b) (by rw [hb]; exact List.mem_cons_self _ _)
              have hpair := bruns_pairwise l
              rw [hb] at hpair
              have hrel := (List.pairwise_cons.mp hpair).1
              simp only [shiftRuns, List.map_cons, consRun] at hx
              by_cases ha : a = 0
              · rw [if_pos (by omega)] at hx
                rcases List.mem_cons.mp hx with he | hm
                · subst he
                  obtain ⟨hab, hblen, hint, _, hright⟩ := hmax
                  simp only at hab hblen hint hright
                  refine ⟨by omega, by simp only [List.length_cons]; omega,
                    ?_, Or.inl rfl, ?_⟩
                  · intro j h1 h2
                    cases j with
                    | zero => rfl
                    | succ j =>
                        rw [List.getD_cons_succ]
                        exact hint j (by omega) (by omega)
                  · rcases hright with h0 | hf
                    · left; simp only [List.length_cons]; omega
                    · right; rw [List.getD_cons_succ]; exact hf
                · obtain ⟨y, hy, he⟩ := mem_shiftRuns.mp (by
                    simpa [shiftRuns] using hm)
                  subst he
                  have hymax := ih y (by rw [hb]; exact List.mem_cons_of_mem _ hy)
                  refine hymax.shift_cons true (fun h0 => ?_)
                  have := hrel y hy
                  simp only at this
                  omega
              · rw [if_neg (by omega)] at hx
                rcases List.mem_cons.mp hx with he | hm
                · subst he
                  refine ⟨Nat.le_refl 0, by simp, ?_, Or.inl rfl, ?_⟩
                  · intro j h1 h2
                    have : j = 0 := by omega
                    subst this
                    rfl
                  · right
                    rw [List.getD_cons_succ]
                    obtain ⟨hab, hblen, hint, hleft, _⟩ := hmax
                    simp only at hab hblen hint hleft
                    rcases hleft with h0 | hf
                    · omega
                    · cases a with
                      | zero => omega
                      | succ a' =>
                          cases a' with
                          | zero => simpa using hf
                          | succ a'' =>
                              by_contra hne
                              have hv : l.getD 0 false = true := by
                                cases hg : l.getD 0 false
                                · exact absurd hg hne
                                · rfl
                              obtain ⟨z, hz, hz1, hz2⟩ := bruns_cover l 0
                                (by omega) hv
                              rw [hb] at hz
                              rcases List.mem_cons.mp hz with hze | hzm
                              · subst hze; simp only at hz1; omega
                              · have := hrel z hzm
                                omega
                · rcases List.mem_cons.mp hm with he | hm'
                  · subst he
                    exact hmax.shift_cons true (fun h0 => absurd h0 ha)
                  · obtain ⟨y, hy, he⟩ := mem_shiftRuns.mp (by
                      simpa [shiftRuns] using hm')
                    subst he
                    have hymax := ih y (by rw [hb]; exact List.mem_cons_of_mem _ hy)
                    refine hymax.shift_cons true (fun h0 => ?_)
                    have := hrel y hy
                    simp only at this
                    omega

/-- Two maximal runs sharing a sample are equal. -/
theorem isMaxRun_eq {l : List Bool} {a b a' b' j : Nat}
    (h : IsMaxRun l a b) (h' : IsMaxRun l a' b')
    (h1 : a ≤ j) (h2 : j ≤ b) (h1' : a' ≤ j) (h2' : j ≤ b') :
    a = a' ∧ b = b' := by
  have key : ∀ {x y x' y' : Nat}, IsMaxRun l x y → IsMaxRun l x' y' →
      x ≤ j → j ≤ y → x' ≤ j → j ≤ y' → ¬ x < x' := by
    intro x y x' y' hm hm' hx hy hx' hy' hlt
    obtain ⟨_, _, hint, _, _⟩ := hm
    obtain ⟨_, _, _, hleft', _⟩ := hm'
    rcases hleft' with h0 | hf
    · omega
    · have : l.getD (x' - 1) false = true := hint (x' - 1) (by omega) (by omega)
      rw [hf] at this
      cases this
  have keyb : ∀ {x y x' y' : Nat}, IsMaxRun l x y → IsMaxRun l x' y' →
      x ≤ j → j ≤ y → x' ≤ j → j ≤ y' → ¬ y < y' := by
    intro x y x' y' hm hm' hx hy hx' hy' hlt
    obtain ⟨_, hlen, _, _, hright⟩ := hm
    obtain ⟨_, hlen', hint', _, _⟩ := hm'
    rcases hright with h0 | hf
    · omega
    · have : l.getD (y + 1) false = true := hint' (y + 1) (by omega) (by omega)
      rw [hf] at this
      cases this
  constructor
  · have hn1 := key h h' h1 h2 h1' h2'
    have hn2 := key h' h h1' h2' h1 h2
    omega
  · have hn1 := keyb h h' h1 h2 h1' h2'
    have hn2 := keyb h' h h1' h2' h1 h2
    omega

/-- Every maximal run is found by the scan. -/
theorem bruns_of_maxRun {l : List Bool} {a b : Nat} (h : IsMaxRun l a b) :
    (a, b) ∈ bruns l := by
  have hab : a ≤ b := h.1
  have hblen : b < l.length := h.2.1
  have hv : l.getD a false = true := h.2.2.1 a (Nat.le_refl a) hab
  obtain ⟨x, hx, hx1, hx2⟩ := bruns_cover l a (by omega) hv
  have hxmax := bruns_maxRun l x hx
  obtain ⟨he1, he2⟩ := isMaxRun_eq hxmax h hx1 hx2 (Nat.le_refl a) hab
  have hxe : x = (a, b) := by
    obtain ⟨x1, x2⟩ := x
    simp only at he1 he2
    simp [he1, he2]
  rw [hxe] at hx
  exact hx

/-! ### Bridges between boolean columns and stage columns -/

theorem length_boolStage (v : Nat) (s : List Nat) :
    (boolStage v s).length = s.length := by
  simp [boolStage]

theorem getD_boolStage (v : Nat) :
    ∀ (s : List Nat) (j : Nat), j < s.length →
      (boolStage v s).getD j false = decide (at0 s j = v) := by
  intro s
  induction s with
  | nil => intro j hj; cases hj
  | cons x s ih =>
      intro j hj
      cases j with
      | zero => rfl
      | succ j =>
          show (boolStage v s).getD j false = _
          rw [ih j (by simp only [List.length_cons] at hj; omega)]
          rfl

theorem at0_eq_getElem? (xs : List Nat) (j : Nat) : at0 xs j = (xs[j]?).getD 0 :=
  List.getD_eq_getElem?_getD xs j 0

theorem sliceRange_any_iff (f : Nat → Bool) (xs : List Nat) (a b : Nat) :
    (sliceRange a b xs).any f = true ↔
      ∃ j, a ≤ j ∧ j ≤ b ∧ j < xs.length ∧ f (at0 xs j) = true := by
  rw [List.any_eq_true]
  constructor
  · rintro ⟨x, hx, hfx⟩
    obtain ⟨k, hk⟩ := List.mem_iff_getElem?.mp hx
    have hkn : k < b + 1 - a := by
      by_contra hge
      have hnone : ((xs.drop a).take (b + 1 - a))[k]? = none := by
        apply List.getElem?_eq_none_iff.mpr
        rw [List.length_take]
        omega
      rw [sliceRange] at hk
      rw [hnone] at hk
      cases hk
    rw [sliceRange, List.getElem?_take_of_lt hkn, List.getElem?_drop] at hk
    refine ⟨a + k, by omega, by omega, ?_, ?_⟩
    · by_contra hge
      rw [List.getElem?_eq_none_iff.mpr (by omega)] at hk
      cases hk
    · rw [at0_eq_getElem?, hk]
      exact hfx
  · rintro ⟨j, hja, hjb, hjl, hf⟩
    refine ⟨at0 xs j, ?_, hf⟩
    apply List.mem_iff_getElem?.mpr
    refine ⟨j - a, ?_⟩
    rw [sliceRange, List.getElem?_take_of_lt (by omega), List.getElem?_drop,
      show a + (j - a) = j from by omega, at0_eq_getElem?]
    have : ∃ v, xs[j]? = some v := by
      rcases hx : xs[j]? with _ | v
      · rw [List.getElem?_eq_none_iff] at hx; omega
      · exact ⟨v, rfl⟩
    obtain ⟨v, hv⟩ := this
    rw [hv]
    rfl

theorem hasStage2_iff (s : List Nat) (gs ge : Nat) :
    hasStage2 s gs ge = true ↔
      ∃ j, gs ≤ j ∧ j ≤ ge ∧ j < s.length ∧ at0 s j = 2 := by
  rw [hasStage2, sliceRange_any_iff]
  simp

theorem hasRem_iff (rem : List Nat) (gs ge : Nat) :
    hasRem rem gs ge = true ↔
      ∃ j, gs ≤ j ∧ j ≤ ge ∧ j < rem.length ∧ at0 rem j = 1 := by
  rw [hasRem, sliceRange_any_iff]
  simp

theorem getD_eligibleNrem :
    ∀ (packet rem : List Nat) (j : Nat),
      (eligibleNrem packet rem).getD j false = true ↔
        j < packet.length ∧ j < rem.length ∧
          at0 packet j = 1 ∧ at0 rem j = 0 := by
  intro packet
  induction packet with
  | nil => intro rem j; simp [eligibleNrem]
  | cons p ps ih =>
      intro rem j
      cases rem with
      | nil => simp [eligibleNrem]
      | cons r rs =>
          cases j with
          | zero =>
              show decide (p = 1 ∧ r = 0) = true ↔ _
              simp [at0]
          | succ j =>
              show (eligibleNrem ps rs).getD j false = true ↔ _
              rw [ih rs j]
              simp only [List.length_cons]
              constructor
              · rintro ⟨h1, h2, h3, h4⟩
                exact ⟨by omega, by omega, h3, h4⟩
              · rintro ⟨h1, h2, h3, h4⟩
                exact ⟨by omega, by omega, h3, h4⟩

theorem isMaxStageRun_iff (v : Nat) (s : List Nat) (a b : Nat) :
    IsMaxStageRun v s a b ↔ IsMaxRun (boolStage v s) a b := by
  constructor
  · rintro ⟨hab, hblen, hint, hleft, hright⟩
    refine ⟨hab, by rw [length_boolStage]; exact hblen, ?_, ?_, ?_⟩
    · intro j h1 h2
      rw [getD_boolStage v s j (by omega)]
      simp [hint j h1 h2]
    · rcases hleft with h0 | hne
      · exact Or.inl h0
      · right
        rw [getD_boolStage v s (a - 1) (by omega)]
        simpa using hne
    · rcases hright with h0 | hne
      · left; rw [length_boolStage]; exact h0
      · by_cases hb1 : b + 1 < s.length
        · right
          rw [getD_boolStage v s (b + 1) hb1]
          simpa using hne
        · left; rw [length_boolStage]; omega
  · rintro ⟨hab, hblen, hint, hleft, hright⟩
    rw [length_boolStage] at hblen
    refine ⟨hab, hblen, ?_, ?_, ?_⟩
    · intro j h1 h2
      have := hint j h1 h2
      rw [getD_boolStage v s j (by omega)] at this
      simpa using this
    · rcases hleft with h0 | hf
      · exact Or.inl h0
      · right
        have := hf
        rw [getD_boolStage v s (a - 1) (by omega)] at this
        simpa using this
    · rcases hright with h0 | hf
      · left; rw [length_boolStage] at h0; exact h0
      · by_cases hb1 : b + 1 < s.length
        · right
          rw [getD_boolStage v s (b + 1) hb1] at hf
          simpa using hf
        · left; omega

/-! ### Shapes and lengths of the pipeline columns -/

theorem calculate_nrem_packets_eq (s : List Nat) :
    calculate_nrem_packets s =
      markRuns ((bruns (boolStage 2 s)).filter
        (fun r => decide (20 ≤ r.2 + 1 - r.1))) (List.replicate s.length 0) :=
  foldl_if_filter _ _ _ _

theorem length_calculate_nrem_packets (s : List Nat) :
    (calculate_nrem_packets s).length = s.length := by
  rw [calculate_nrem_packets_eq, markRuns_length, List.length_replicate]

theorem calculate_rem_episodes_eq {s : List Nat} {rem nrem0 : List Nat}
    (h : calculate_rem_episodes s = some (rem, nrem0)) :
    ∃ r0 rest, bruns (boolStage 3 s) = r0 :: rest ∧
      rem = markRuns (remMergeAux s rest r0).1 (List.replicate s.length 0) ∧
      nrem0 = markRuns (remMergeAux s rest r0).2 (List.replicate s.length 0) := by
  unfold calculate_rem_episodes at h
  cases hb : bruns (boolStage 3 s) with
  | nil => rw [hb] at h; cases h
  | cons r0 rest =>
      rw [hb] at h
      simp only [Option.some.injEq, Prod.mk.injEq] at h
      exact ⟨r0, rest, rfl, h.1.symm, h.2.symm⟩

theorem length_rem_of_episodes {s rem nrem0 : List Nat}
    (h : calculate_rem_episodes s = some (rem, nrem0)) :
    rem.length = s.length ∧ nrem0.length = s.length := by
  obtain ⟨r0, rest, _, hrem, hnrem⟩ := calculate_rem_episodes_eq h
  constructor
  · rw [hrem, markRuns_length, List.length_replicate]
  · rw [hnrem, markRuns_length, List.length_replicate]

theorem length_calculate_nrem_episodes (packet rem nrem0 : List Nat) :
    (calculate_nrem_episodes packet rem nrem0).length = nrem0.length := by
  unfold calculate_nrem_episodes
  cases bruns (eligibleNrem packet rem) with
  | nil => rfl
  | cons r0 rest => exact markRuns_length _ _

theorem length_calculate_wake_episodes (rem nrem : List Nat) :
    (calculate_wake_episodes rem nrem).length = min rem.length nrem.length := by
  simp [calculate_wake_episodes]

theorem length_applyFlag (flag : List Nat) (code : Nat) (out : List Nat) :
    (applyFlag flag code out).length = min out.length flag.length := by
  simp [applyFlag]

theorem at0_mem {s : List Nat} {j : Nat} (h : j < s.length) : at0 s j ∈ s := by
  rw [at0, List.getD_eq_getElem?_getD, List.getElem?_eq_getElem h]
  exact List.getElem_mem h

theorem at0_applyFlag (flag : List Nat) (code : Nat) (out : List Nat) (j : Nat)
    (h1 : j < out.length) (h2 : j < flag.length) :
    at0 (applyFlag flag code out) j =
      if at0 flag j = 1 then code else at0 out j :=
  at0_zipWith _ out flag j h1 h2

/-- Pointwise value of the consolidated column: the three masked assignments
WAKE → 1, NREM → 2, REM → 3 in source order, later writes winning, over the
all-0 initial column. -/
theorem at0_consolidate (rem nrem wake : List Nat) (j : Nat)
    (hr : rem.length = wake.length) (hn : nrem.length = wake.length)
    (hj : j < wake.length) :
    at0 (consolidate_sleep_stages rem nrem wake) j =
      if at0 rem j = 1 then 3 else if at0 nrem j = 1 then 2
      else if at0 wake j = 1 then 1 else 0 := by
  unfold consolidate_sleep_stages
  have l1 : (applyFlag wake 1 (List.replicate wake.length 0)).length =
      wake.length := by
    rw [length_applyFlag, List.length_replicate]
    omega
  have l2 : (applyFlag nrem 2 (applyFlag wake 1
      (List.replicate wake.length 0))).length = wake.length := by
    rw [length_applyFlag, l1]
    omega
  rw [at0_applyFlag rem 3 _ j (by omega) (by omega),
    at0_applyFlag nrem 2 _ j (by omega) (by omega),
    at0_applyFlag wake 1 _ j (by rw [List.length_replicate]; omega) (by omega),
    at0_replicate]

theorem at0_wake (rem nrem : List Nat) (j : Nat)
    (h1 : j < rem.length) (h2 : j < nrem.length) :
    at0 (calculate_wake_episodes rem nrem) j =
      if at0 rem j = 0 ∧ at0 nrem j = 0 then 1 else 0 :=
  at0_zipWith _ rem nrem j h1 h2

/-- A stage value absent from the input produces no runs. -/
theorem bruns_boolStage_nil {v : Nat} {s : List Nat}
    (h : ∀ x ∈ s, x ≠ v) : bruns (boolStage v s) = [] := by
  cases hb : bruns (boolStage v s) with
  | nil => rfl
  | cons r rest =>
      have hr := bruns_maxRun _ r (hb ▸ List.mem_cons_self r rest)
      obtain ⟨hab, hblen, hint, _, _⟩ := hr
      rw [length_boolStage] at hblen
      have hget := hint r.1 (Nat.le_refl _) hab
      rw [getD_boolStage v s r.1 (by omega)] at hget
      have hv : at0 s r.1 = v := by simpa using hget
      exact absurd hv (h _ (at0_mem (by omega)))

/-! ### Claims -/

/-- C1: the spec requires `calculate_rem_episodes` to return all-false flags
when the input contains no REM (stage 3) sample, but the source evaluates
`rem_runs[0]` unguarded, so it raises `IndexError` (modelled by `none`) on
every such input — unlike its NREM counterpart, which guards the empty case.
This theorem exhibits the error path: any non-empty stage sequence without a
stage-3 sample makes the function fail instead of returning columns. -/
theorem C1_rem_error_on_no_rem (s : List Nat) (hne : s ≠ [])
    (h3 : ∀ x ∈ s, x ≠ 3) : calculate_rem_episodes s = none := by
  have := hne
  unfold calculate_rem_episodes
  rw [bruns_boolStage_nil h3]

/-- C1 witness: the concrete failing input `[1, 2, 1]`. -/
theorem C1_rem_error_on_no_rem_witness :
    calculate_rem_episodes [1, 2, 1] = none :=
  C1_rem_error_on_no_rem [1, 2, 1] (by decide) (by decide)

/-- C9: when no sample is an eligible packet sample (`NREMpacket = 1` and
`REMepisode = 0`), `calculate_nrem_episodes` returns with the `NREMepisode`
column unchanged — no error, no additional flag. -/
theorem C9_nrem_episodes_noop (packet rem nrem0 : List Nat)
    (h : ∀ j, ¬(at0 packet j = 1 ∧ at0 rem j = 0)) :
    calculate_nrem_episodes packet rem nrem0 = nrem0 := by
  unfold calculate_nrem_episodes
  have hnil : bruns (eligibleNrem packet rem) = [] := by
    cases hb : bruns (eligibleNrem packet rem) with
    | nil => rfl
    | cons r rest =>
        have hr := bruns_maxRun _ r (hb ▸ List.mem_cons_self r rest)
        obtain ⟨hab, _, hint, _, _⟩ := hr
        have hget := (getD_eligibleNrem packet rem r.1).mp
          (hint r.1 (Nat.le_refl _) hab)
        exact absurd ⟨hget.2.2.1, hget.2.2.2⟩ (h r.1)
  rw [hnil]

/-- C9 witness: a packet column with no eligible sample leaves the episode
column `[3]` untouched. -/
theorem C9_nrem_episodes_noop_witness :
    calculate_nrem_episodes [0, 1] [0, 1] [3, 4] = [3, 4] :=
  C9_nrem_episodes_noop [0, 1] [0, 1] [3, 4] (by
    intro j
    match j with
    | 0 => decide
    | 1 => decide
    | (n + 2) => exact fun hc => by simp [at0, List.getD] at hc)

/-- C6: `calculate_nrem_packets` flags position `j` iff `j` lies in a maximal
run of raw stage 2 of length at least 20; qualifying runs are flagged in full
(every position of the run satisfies the right side), a run of length 19
never qualifies and one of length 20 always does (`20 ≤ b + 1 - a`), and a
run ending at the last sample is treated by the same rule (`IsMaxStageRun`
admits `b + 1 = s.length`). -/
theorem C6_packet_flag_iff (s : List Nat) (j : Nat) (hj : j < s.length) :
    at0 (calculate_nrem_packets s) j = 1 ↔
      ∃ a b, IsMaxStageRun 2 s a b ∧ a ≤ j ∧ j ≤ b ∧ 20 ≤ b + 1 - a := by
  rw [calculate_nrem_packets_eq]
  constructor
  · intro h
    rcases at0_markRuns_inv _ _ _ h with h0 | ⟨r, hr, h1, h2⟩
    · rw [at0_replicate] at h0; cases h0
    · have hrb : r ∈ bruns (boolStage 2 s) := List.mem_of_mem_filter hr
      have hlen : 20 ≤ r.2 + 1 - r.1 := by
        have := List.of_mem_filter hr
        simpa using this
      have hmax := bruns_maxRun _ r hrb
      exact ⟨r.1, r.2, (isMaxStageRun_iff 2 s r.1 r.2).mpr hmax, h1, h2, hlen⟩
  · rintro ⟨a, b, hmax, h1, h2, hlen⟩
    have hmem : (a, b) ∈ bruns (boolStage 2 s) :=
      bruns_of_maxRun ((isMaxStageRun_iff 2 s a b).mp hmax)
    have hf : (a, b) ∈ (bruns (boolStage 2 s)).filter
        (fun r => decide (20 ≤ r.2 + 1 - r.1)) :=
      List.mem_filter.mpr ⟨hmem, by simpa using hlen⟩
    exact at0_markRuns_of_mem _ _ (a, b) j hf h1 h2
      (by rw [List.length_replicate]; exact hj)

/-- C6 witness: the characterisation applied to a 20-sample NREM run followed
by Wake, at its first sample. -/
theorem C6_packet_flag_iff_witness :
    at0 (calculate_nrem_packets (List.replicate 20 2 ++ [1])) 0 = 1 ↔
      ∃ a b, IsMaxStageRun 2 (List.replicate 20 2 ++ [1]) a b ∧
        a ≤ 0 ∧ 0 ≤ b ∧ 20 ≤ b + 1 - a :=
  C6_packet_flag_iff (List.replicate 20 2 ++ [1]) 0 (by decide)

/-- C5 counterexample: `consolidate_sleep_stages` does not raise on a sample
matching none of the three episode flags — it silently produces the default
code 0 for that sample, contradicting the claim that such inputs are a fatal
error.  (The source has no assertion at all: three unconditional masked
assignments over an all-0 column.) -/
theorem C5_counterexample : consolidate_sleep_stages [0] [0] [0] = [0] := by
  decide

/-- C5 amended: `consolidate_sleep_stages` returns normally on every input;
a sample matching none of the flags is silently coerced to code 0, and a
sample matching several receives the code of the last assignment in source
order (REM 3 over NREM 2 over WAKE 1). -/
theorem C5_consolidate_is_silent_priority (rem nrem wake : List Nat) (j : Nat)
    (hr : rem.length = wake.length) (hn : nrem.length = wake.length)
    (hj : j < wake.length) :
    at0 (consolidate_sleep_stages rem nrem wake) j =
      if at0 rem j = 1 then 3 else if at0 nrem j = 1 then 2
      else if at0 wake j = 1 then 1 else 0 :=
  at0_consolidate rem nrem wake j hr hn hj

/-- C5 amended witness: a sample with all three flags 0 gets code 0; one with
two flags set gets the higher-priority code. -/
theorem C5_consolidate_is_silent_priority_witness :
    at0 (consolidate_sleep_stages [0, 1] [0, 1] [0, 0]) 0 =
      if at0 [0, 1] 0 = 1 then 3 else if at0 [0, 1] 0 = 1 then 2
      else if at0 [0, 0] 0 = 1 then 1 else 0 :=
  C5_consolidate_is_silent_priority [0, 1] [0, 1] [0, 0] 0 rfl rfl (by decide)

/-! ### The merge loops -/

theorem pairAt_zero (u v : Nat × Nat) (rest : List (Nat × Nat)) :
    pairAt (u :: v :: rest) 0 = some (u, v) := rfl

theorem pairAt_succ (x : Nat × Nat) (l : List (Nat × Nat)) (k : Nat) :
    pairAt (x :: l) (k + 1) = pairAt l k := rfl

theorem pairAt_singleton (x : Nat × Nat) (k : Nat) : pairAt [x] k = none := by
  cases k with
  | zero => rfl
  | succ k => simp [pairAt]

theorem pairAt_mem {l : List (Nat × Nat)} {k : Nat} {u v : Nat × Nat}
    (h : pairAt l k = some (u, v)) : u ∈ l ∧ v ∈ l := by
  unfold pairAt at h
  cases hd : l.drop k with
  | nil => rw [hd] at h; cases h
  | cons a t =>
      cases t with
      | nil => rw [hd] at h; cases h
      | cons b t' =>
          rw [hd] at h
          simp only [Option.some.injEq, Prod.mk.injEq] at h
          obtain ⟨hu, hv⟩ := h
          subst hu; subst hv
          constructor
          · exact List.mem_of_mem_drop (hd ▸ List.mem_cons_self _ _)
          · exact List.mem_of_mem_drop
              (hd ▸ List.mem_cons_of_mem _ (List.mem_cons_self _ _))

/-- The first run of an ordered non-empty run list starts leftmost. -/
theorem pairwise_first_le {c : Nat × Nat} {t : List (Nat × Nat)}
    (hpw : List.Pairwise (fun x y => x.2 + 2 ≤ y.1) (c :: t))
    (hb : ∀ x ∈ c :: t, x.1 ≤ x.2) :
    ∀ x ∈ c :: t, c.1 ≤ x.1 := by
  intro x hx
  rcases List.mem_cons.mp hx with he | hm
  · subst he; exact Nat.le_refl _
  · have h1 := (List.pairwise_cons.mp hpw).1 x hm
    have h2 := hb c (List.mem_cons_self _ _)
    omega

theorem remMergeAux_cons_block (s : List Nat) (rest : List (Nat × Nat))
    (prev cur : Nat × Nat) (hlen : cur.1 - 1 + 1 - (prev.2 + 1) < 40)
    (h2 : hasStage2 s (prev.2 + 1) (cur.1 - 1) = true) :
    remMergeAux s (cur :: rest) prev =
      (prev :: (remMergeAux s rest cur).1,
       (prev.2 + 1, cur.1 - 1) :: (remMergeAux s rest cur).2) := by
  show (if cur.1 - 1 + 1 - (prev.2 + 1) < 40 then
          if hasStage2 s (prev.2 + 1) (cur.1 - 1) then
            (prev :: (remMergeAux s rest cur).1,
             (prev.2 + 1, cur.1 - 1) :: (remMergeAux s rest cur).2)
          else remMergeAux s rest (prev.1, cur.2)
        else (prev :: (remMergeAux s rest cur).1,
              (remMergeAux s rest cur).2)) = _
  rw [if_pos hlen, if_pos h2]

theorem remMergeAux_cons_merge (s : List Nat) (rest : List (Nat × Nat))
    (prev cur : Nat × Nat) (hlen : cur.1 - 1 + 1 - (prev.2 + 1) < 40)
    (h2 : hasStage2 s (prev.2 + 1) (cur.1 - 1) = false) :
    remMergeAux s (cur :: rest) prev = remMergeAux s rest (prev.1, cur.2) := by
  show (if cur.1 - 1 + 1 - (prev.2 + 1) < 40 then
          if hasStage2 s (prev.2 + 1) (cur.1 - 1) then
            (prev :: (remMergeAux s rest cur).1,
             (prev.2 + 1, cur.1 - 1) :: (remMergeAux s rest cur).2)
          else remMergeAux s rest (prev.1, cur.2)
        else (prev :: (remMergeAux s rest cur).1,
              (remMergeAux s rest cur).2)) = _
  rw [if_pos hlen, if_neg (by rw [h2]; exact Bool.false_ne_true)]

theorem remMergeAux_cons_far (s : List Nat) (rest : List (Nat × Nat))
    (prev cur : Nat × Nat) (hlen : ¬ cur.1 - 1 + 1 - (prev.2 + 1) < 40) :
    remMergeAux s (cur :: rest) prev =
      (prev :: (remMergeAux s rest cur).1, (remMergeAux s rest cur).2) := by
  show (if cur.1 - 1 + 1 - (prev.2 + 1) < 40 then
          if hasStage2 s (prev.2 + 1) (cur.1 - 1) then
            (prev :: (remMergeAux s rest cur).1,
             (prev.2 + 1, cur.1 - 1) :: (remMergeAux s rest cur).2)
          else remMergeAux s rest (prev.1, cur.2)
        else (prev :: (remMergeAux s rest cur).1,
              (remMergeAux s rest cur).2)) = _
  rw [if_neg hlen]

theorem nremMergeAux_cons_block (rem : List Nat) (rest : List (Nat × Nat))
    (prev cur : Nat × Nat) (hlen : cur.1 - 1 + 1 - (prev.2 + 1) < 40)
    (h2 : hasRem rem (prev.2 + 1) (cur.1 - 1) = true) :
    nremMergeAux rem (cur :: rest) prev =
      prev :: nremMergeAux rem rest cur := by
  show (if cur.1 - 1 + 1 - (prev.2 + 1) < 40 then
          if hasRem rem (prev.2 + 1) (cur.1 - 1) then
            prev :: nremMergeAux rem rest cur
          else nremMergeAux rem rest (prev.1, cur.2)
        else prev :: nremMergeAux rem rest cur) = _
  rw [if_pos hlen, if_pos h2]

theorem nremMergeAux_cons_merge (rem : List Nat) (rest : List (Nat × Nat))
    (prev cur : Nat × Nat) (hlen : cur.1 - 1 + 1 - (prev.2 + 1) < 40)
    (h2 : hasRem rem (prev.2 + 1) (cur.1 - 1) = false) :
    nremMergeAux rem (cur :: rest) prev =
      nremMergeAux rem rest (prev.1, cur.2) := by
  show (if cur.1 - 1 + 1 - (prev.2 + 1) < 40 then
          if hasRem rem (prev.2 + 1) (cur.1 - 1) then
            prev :: nremMergeAux rem rest cur
          else nremMergeAux rem rest (prev.1, cur.2)
        else prev :: nremMergeAux rem rest cur) = _
  rw [if_pos hlen, if_neg (by rw [h2]; exact Bool.false_ne_true)]

theorem nremMergeAux_cons_far (rem : List Nat) (rest : List (Nat × Nat))
    (prev cur : Nat × Nat) (hlen : ¬ cur.1 - 1 + 1 - (prev.2 + 1) < 40) :
    nremMergeAux rem (cur :: rest) prev =
      prev :: nremMergeAux rem rest cur := by
  show (if cur.1 - 1 + 1 - (prev.2 + 1) < 40 then
          if hasRem rem (prev.2 + 1) (cur.1 - 1) then
            prev :: nremMergeAux rem rest cur
          else nremMergeAux rem rest (prev.1, cur.2)
        else prev :: nremMergeAux rem rest cur) = _
  rw [if_neg hlen]

/-- Invariant of the REM merge loop: merged runs are well-formed and start no
earlier than `previous_run`; recorded gaps lie strictly right of
`previous_run`; every recorded gap is disjoint from every merged run. -/
theorem remMerge_inv (s : List Nat) :
    ∀ (rest : List (Nat × Nat)) (prev : Nat × Nat),
      List.Pairwise (fun x y => x.2 + 2 ≤ y.1) (prev :: rest) →
      (∀ x ∈ prev :: rest, x.1 ≤ x.2) →
      (∀ m ∈ (remMergeAux s rest prev).1, m.1 ≤ m.2 ∧ prev.1 ≤ m.1) ∧
      (∀ g ∈ (remMergeAux s rest prev).2, prev.2 + 1 ≤ g.1) ∧
      (∀ m ∈ (remMergeAux s rest prev).1,
        ∀ g ∈ (remMergeAux s rest prev).2, g.2 < m.1 ∨ m.2 < g.1) := by
  intro rest
  induction rest with
  | nil =>
      intro prev hpw hb
      refine ⟨?_, ?_, ?_⟩
      · intro m hm
        have hm' : m = prev := by simpa [remMergeAux] using hm
        rw [hm']
        exact ⟨hb prev (List.mem_cons_self _ _), Nat.le_refl _⟩
      · intro g hg
        simp [remMergeAux] at hg
      · intro m _ g hg
        simp [remMergeAux] at hg
  | cons cur rest ih =>
      intro prev hpw hb
      have hpc : prev.2 + 2 ≤ cur.1 :=
        (List.pairwise_cons.mp hpw).1 cur (List.mem_cons_self _ _)
      have hpw' := (List.pairwise_cons.mp hpw).2
      have hb' : ∀ x ∈ cur :: rest, x.1 ≤ x.2 :=
        fun x hx => hb x (List.mem_cons_of_mem _ hx)
      have hprev : prev.1 ≤ prev.2 := hb prev (List.mem_cons_self _ _)
      have hcur : cur.1 ≤ cur.2 := hb' cur (List.mem_cons_self _ _)
      by_cases hlen : cur.1 - 1 + 1 - (prev.2 + 1) < 40
      · by_cases h2 : hasStage2 s (prev.2 + 1) (cur.1 - 1) = true
        · rw [remMergeAux_cons_block s rest prev cur hlen h2]
          obtain ⟨ihM, ihG, ihD⟩ := ih cur hpw' hb'
          refine ⟨?_, ?_, ?_⟩
          · intro m hm
            rcases List.mem_cons.mp hm with he | hm'
            · subst he; exact ⟨hprev, Nat.le_refl _⟩
            · obtain ⟨ha, hc⟩ := ihM m hm'
              exact ⟨ha, by omega⟩
          · intro g hg
            rcases List.mem_cons.mp hg with he | hg'
            · subst he; exact Nat.le_refl _
            · have := ihG g hg'
              omega
          · intro m hm g hg
            rcases List.mem_cons.mp hm with hem | hm' <;>
              rcases List.mem_cons.mp hg with heg | hg'
            · subst hem; subst heg
              right; simp
            · subst hem
              have := ihG g hg'
              right; omega
            · subst heg
              have := ihM m hm'
              left; simp; omega
            · exact ihD m hm' g hg'
        · have h2' : hasStage2 s (prev.2 + 1) (cur.1 - 1) = false := by
            cases hh : hasStage2 s (prev.2 + 1) (cur.1 - 1)
            · rfl
            · exact absurd hh h2
          rw [remMergeAux_cons_merge s rest prev cur hlen h2']
          have hpw2 : List.Pairwise (fun x y => x.2 + 2 ≤ y.1)
              ((prev.1, cur.2) :: rest) := by
            refine List.pairwise_cons.mpr
              ⟨?_, (List.pairwise_cons.mp hpw').2⟩
            intro x hx
            have := (List.pairwise_cons.mp hpw').1 x hx
            simpa using by omega
          have hb2 : ∀ x ∈ (prev.1, cur.2) :: rest, x.1 ≤ x.2 := by
            intro x hx
            rcases List.mem_cons.mp hx with he | hm
            · subst he; simp; omega
            · exact hb' x (List.mem_cons_of_mem _ hm)
          obtain ⟨ihM, ihG, ihD⟩ := ih (prev.1, cur.2) hpw2 hb2
          refine ⟨?_, ?_, ihD⟩
          · intro m hm
            exact ihM m hm
          · intro g hg
            have := ihG g hg
            simp only at this
            omega
      · rw [remMergeAux_cons_far s rest prev cur hlen]
        obtain ⟨ihM, ihG, ihD⟩ := ih cur hpw' hb'
        refine ⟨?_, ?_, ?_⟩
        · intro m hm
          rcases List.mem_cons.mp hm with he | hm'
          · subst he; exact ⟨hprev, Nat.le_refl _⟩
          · obtain ⟨ha, hc⟩ := ihM m hm'
            exact ⟨ha, by omega⟩
        · intro g hg
          have := ihG g hg
          omega
        · intro m hm g hg
          rcases List.mem_cons.mp hm with hem | hm'
          · subst hem
            have := ihG g hg
            right; omega
          · exact ihD m hm' g hg

/-- The accumulating run always ends up inside some merged run. -/
theorem remMerge_cover_prev (s : List Nat) :
    ∀ (rest : List (Nat × Nat)) (prev : Nat × Nat),
      List.Pairwise (fun x y => x.2 + 2 ≤ y.1) (prev :: rest) →
      (∀ x ∈ prev :: rest, x.1 ≤ x.2) →
      ∃ m ∈ (remMergeAux s rest prev).1, m.1 ≤ prev.1 ∧ prev.2 ≤ m.2 := by
  intro rest
  induction rest with
  | nil =>
      intro prev _ _
      exact ⟨prev, by simp [remMergeAux], Nat.le_refl _, Nat.le_refl _⟩
  | cons cur rest ih =>
      intro prev hpw hb
      have hpc : prev.2 + 2 ≤ cur.1 :=
        (List.pairwise_cons.mp hpw).1 cur (List.mem_cons_self _ _)
      have hpw' := (List.pairwise_cons.mp hpw).2
      have hb' : ∀ x ∈ cur :: rest, x.1 ≤ x.2 :=
        fun x hx => hb x (List.mem_cons_of_mem _ hx)
      have hcur : cur.1 ≤ cur.2 := hb' cur (List.mem_cons_self _ _)
      have hprev : prev.1 ≤ prev.2 := hb prev (List.mem_cons_self _ _)
      by_cases hlen : cur.1 - 1 + 1 - (prev.2 + 1) < 40
      · by_cases h2 : hasStage2 s (prev.2 + 1) (cur.1 - 1) = true
        · rw [remMergeAux_cons_block s rest prev cur hlen h2]
          exact ⟨prev, List.mem_cons_self _ _, Nat.le_refl _, Nat.le_refl _⟩
        · have h2' : hasStage2 s (prev.2 + 1) (cur.1 - 1) = false := by
            cases hh : hasStage2 s (prev.2 + 1) (cur.1 - 1)
            · rfl
            · exact absurd hh h2
          rw [remMergeAux_cons_merge s rest prev cur hlen h2']
          have hpw2 : List.Pairwise (fun x y => x.2 + 2 ≤ y.1)
              ((prev.1, cur.2) :: rest) := by
            refine List.pairwise_cons.mpr
              ⟨?_, (List.pairwise_cons.mp hpw').2⟩
            intro x hx
            have := (List.pairwise_cons.mp hpw').1 x hx
            simpa using by omega
          have hb2 : ∀ x ∈ (prev.1, cur.2) :: rest, x.1 ≤ x.2 := by
            intro x hx
            rcases List.mem_cons.mp hx with he | hm
            · subst he
              simp only
              omega
            · exact hb' x (List.mem_cons_of_mem _ hm)
          obtain ⟨m, hm, hm1, hm2⟩ := ih (prev.1, cur.2) hpw2 hb2
          simp only at hm1 hm2
          exact ⟨m, hm, hm1, by omega⟩
      · rw [remMergeAux_cons_far s rest prev cur hlen]
        exact ⟨prev, List.mem_cons_self _ _, Nat.le_refl _, Nat.le_refl _⟩

theorem at0_eq_zero_of_le {xs : List Nat} {j : Nat} (h : xs.length ≤ j) :
    at0 xs j = 0 := by
  rw [at0_eq_getElem?, List.getElem?_eq_none_iff.mpr h]
  rfl

theorem hasRem_false {rem : List Nat} {gs ge : Nat}
    (h : hasRem rem gs ge = false) :
    ∀ j, gs ≤ j → j ≤ ge → at0 rem j ≠ 1 := by
  intro j h1 h2 hc
  by_cases hj : j < rem.length
  · have : hasRem rem gs ge = true := (hasRem_iff _ _ _).mpr ⟨j, h1, h2, hj, hc⟩
    rw [h] at this
    cases this
  · rw [at0_eq_zero_of_le (by omega)] at hc
    cases hc

theorem hasStage2_false {s : List Nat} {gs ge : Nat}
    (h : hasStage2 s gs ge = false) :
    ∀ j, gs ≤ j → j ≤ ge → j < s.length → at0 s j ≠ 2 := by
  intro j h1 h2 hj hc
  have : hasStage2 s gs ge = true := (hasStage2_iff _ _ _).mpr ⟨j, h1, h2, hj, hc⟩
  rw [h] at this
  cases this

/-- A short gap containing NREM, between any two consecutive raw REM runs,
is recorded for `NREMepisode`-marking. -/
theorem remMerge_gap_mem (s : List Nat) :
    ∀ (rest : List (Nat × Nat)) (prev : Nat × Nat) (k : Nat) (u v : Nat × Nat),
      List.Pairwise (fun x y => x.2 + 2 ≤ y.1) (prev :: rest) →
      (∀ x ∈ prev :: rest, x.1 ≤ x.2) →
      pairAt (prev :: rest) k = some (u, v) →
      v.1 - 1 + 1 - (u.2 + 1) < 40 →
      hasStage2 s (u.2 + 1) (v.1 - 1) = true →
      (u.2 + 1, v.1 - 1) ∈ (remMergeAux s rest prev).2 := by
  intro rest
  induction rest with
  | nil =>
      intro prev k u v _ _ hp _ _
      rw [pairAt_singleton] at hp
      cases hp
  | cons cur rest ih =>
      intro prev k u v hpw hb hp hlen h2
      have hpc : prev.2 + 2 ≤ cur.1 :=
        (List.pairwise_cons.mp hpw).1 cur (List.mem_cons_self _ _)
      have hpw' := (List.pairwise_cons.mp hpw).2
      have hb' : ∀ x ∈ cur :: rest, x.1 ≤ x.2 :=
        fun x hx => hb x (List.mem_cons_of_mem _ hx)
      have hprev : prev.1 ≤ prev.2 := hb prev (List.mem_cons_self _ _)
      have hcur : cur.1 ≤ cur.2 := hb' cur (List.mem_cons_self _ _)
      cases k with
      | zero =>
          rw [pairAt_zero] at hp
          simp only [Option.some.injEq, Prod.mk.injEq] at hp
          obtain ⟨hu, hv⟩ := hp
          subst hu; subst hv
          rw [remMergeAux_cons_block s rest prev cur hlen h2]
          exact List.mem_cons_self _ _
      | succ k =>
          rw [pairAt_succ] at hp
          by_cases hlen2 : cur.1 - 1 + 1 - (prev.2 + 1) < 40
          · by_cases hs2 : hasStage2 s (prev.2 + 1) (cur.1 - 1) = true
            · rw [remMergeAux_cons_block s rest prev cur hlen2 hs2]
              exact List.mem_cons_of_mem _ (ih cur k u v hpw' hb' hp hlen h2)
            · have hs2' : hasStage2 s (prev.2 + 1) (cur.1 - 1) = false := by
                cases hh : hasStage2 s (prev.2 + 1) (cur.1 - 1)
                · rfl
                · exact absurd hh hs2
              rw [remMergeAux_cons_merge s rest prev cur hlen2 hs2']
              have hpw2 : List.Pairwise (fun x y => x.2 + 2 ≤ y.1)
                  ((prev.1, cur.2) :: rest) := by
                refine List.pairwise_cons.mpr
                  ⟨?_, (List.pairwise_cons.mp hpw').2⟩
                intro x hx
                have := (List.pairwise_cons.mp hpw').1 x hx
                simpa using by omega
              have hb2 : ∀ x ∈ (prev.1, cur.2) :: rest, x.1 ≤ x.2 := by
                intro x hx
                rcases List.mem_cons.mp hx with he | hm
                · rw [he]; simp only; omega
                · exact hb' x (List.mem_cons_of_mem _ hm)
              cases k with
              | zero =>
                  cases rest with
                  | nil => rw [pairAt_singleton] at hp; cases hp
                  | cons w t =>
                      rw [pairAt_zero] at hp
                      simp only [Option.some.injEq, Prod.mk.injEq] at hp
                      obtain ⟨hu, hv⟩ := hp
                      rw [← hu, ← hv] at hlen h2 ⊢
                      exact ih (prev.1, cur.2) 0 (prev.1, cur.2) w hpw2 hb2
                        (pairAt_zero _ _ _) hlen h2
              | succ k' =>
                  rw [pairAt_succ] at hp
                  exact ih (prev.1, cur.2) (k' + 1) u v hpw2 hb2
                    (by rw [pairAt_succ]; exact hp) hlen h2
          · rw [remMergeAux_cons_far s rest prev cur hlen2]
            exact ih cur k u v hpw' hb' hp hlen h2

/-- Two consecutive raw REM runs whose gap blocks merging (too long, or
containing NREM) are never spanned by one merged run. -/
theorem remMerge_no_cross (s : List Nat) :
    ∀ (rest : List (Nat × Nat)) (prev : Nat × Nat) (k : Nat) (u v : Nat × Nat),
      List.Pairwise (fun x y => x.2 + 2 ≤ y.1) (prev :: rest) →
      (∀ x ∈ prev :: rest, x.1 ≤ x.2) →
      pairAt (prev :: rest) k = some (u, v) →
      ¬(v.1 - 1 + 1 - (u.2 + 1) < 40 ∧
        hasStage2 s (u.2 + 1) (v.1 - 1) = false) →
      ∀ m ∈ (remMergeAux s rest prev).1, ¬(m.1 ≤ u.2 ∧ v.1 ≤ m.2) := by
  intro rest
  induction rest with
  | nil =>
      intro prev k u v _ _ hp _
      rw [pairAt_singleton] at hp
      cases hp
  | cons cur rest ih =>
      intro prev k u v hpw hb hp hbad
      have hpc : prev.2 + 2 ≤ cur.1 :=
        (List.pairwise_cons.mp hpw).1 cur (List.mem_cons_self _ _)
      have hpw' := (List.pairwise_cons.mp hpw).2
      have hb' : ∀ x ∈ cur :: rest, x.1 ≤ x.2 :=
        fun x hx => hb x (List.mem_cons_of_mem _ hx)
      have hprev : prev.1 ≤ prev.2 := hb prev (List.mem_cons_self _ _)
      have hcur : cur.1 ≤ cur.2 := hb' cur (List.mem_cons_self _ _)
      cases k with
      | zero =>
          rw [pairAt_zero] at hp
          simp only [Option.some.injEq, Prod.mk.injEq] at hp
          obtain ⟨hu, hv⟩ := hp
          subst hu; subst hv
          by_cases hlen2 : cur.1 - 1 + 1 - (prev.2 + 1) < 40
          · by_cases hs2 : hasStage2 s (prev.2 + 1) (cur.1 - 1) = true
            · rw [remMergeAux_cons_block s rest prev cur hlen2 hs2]
              intro m hm
              rcases List.mem_cons.mp hm with he | hm'
              · rw [he]
                rintro ⟨_, hc2⟩
                omega
              · have := (remMerge_inv s rest cur hpw' hb').1 m hm'
                rintro ⟨hc1, _⟩
                omega
            · have hs2' : hasStage2 s (prev.2 + 1) (cur.1 - 1) = false := by
                cases hh : hasStage2 s (prev.2 + 1) (cur.1 - 1)
                · rfl
                · exact absurd hh hs2
              exact absurd ⟨hlen2, hs2'⟩ hbad
          · rw [remMergeAux_cons_far s rest prev cur hlen2]
            intro m hm
            rcases List.mem_cons.mp hm with he | hm'
            · rw [he]
              rintro ⟨_, hc2⟩
              omega
            · have := (remMerge_inv s rest cur hpw' hb').1 m hm'
              rintro ⟨hc1, _⟩
              omega
      | succ k =>
          rw [pairAt_succ] at hp
          have hvmem : v ∈ cur :: rest := (pairAt_mem hp).2
          have humem : u ∈ cur :: rest := (pairAt_mem hp).1
          have hv1 : cur.1 ≤ v.1 := pairwise_first_le hpw' hb' v hvmem
          have hu1 : cur.1 ≤ u.1 := pairwise_first_le hpw' hb' u humem
          have hu2 : u.1 ≤ u.2 := hb' u humem
          by_cases hlen2 : cur.1 - 1 + 1 - (prev.2 + 1) < 40
          · by_cases hs2 : hasStage2 s (prev.2 + 1) (cur.1 - 1) = true
            · rw [remMergeAux_cons_block s rest prev cur hlen2 hs2]
              intro m hm
              rcases List.mem_cons.mp hm with he | hm'
              · rw [he]
                rintro ⟨_, hc2⟩
                omega
              · exact ih cur k u v hpw' hb' hp hbad m hm'
            · have hs2' : hasStage2 s (prev.2 + 1) (cur.1 - 1) = false := by
                cases hh : hasStage2 s (prev.2 + 1) (cur.1 - 1)
                · rfl
                · exact absurd hh hs2
              rw [remMergeAux_cons_merge s rest prev cur hlen2 hs2']
              have hpw2 : List.Pairwise (fun x y => x.2 + 2 ≤ y.1)
                  ((prev.1, cur.2) :: rest) := by
                refine List.pairwise_cons.mpr
                  ⟨?_, (List.pairwise_cons.mp hpw').2⟩
                intro x hx
                have := (List.pairwise_cons.mp hpw').1 x hx
                simpa using by omega
              have hb2 : ∀ x ∈ (prev.1, cur.2) :: rest, x.1 ≤ x.2 := by
                intro x hx
                rcases List.mem_cons.mp hx with he | hm
                · rw [he]; simp only; omega
                · exact hb' x (List.mem_cons_of_mem _ hm)
              cases k with
              | zero =>
                  cases rest with
                  | nil => rw [pairAt_singleton] at hp; cases hp
                  | cons w t =>
                      rw [pairAt_zero] at hp
                      simp only [Option.some.injEq, Prod.mk.injEq] at hp
                      obtain ⟨hu, hv⟩ := hp
                      rw [← hu, ← hv] at hbad ⊢
                      exact ih (prev.1, cur.2) 0 (prev.1, cur.2) w hpw2 hb2
                        (pairAt_zero _ _ _) hbad
              | succ k' =>
                  rw [pairAt_succ] at hp
                  exact ih (prev.1, cur.2) (k' + 1) u v hpw2 hb2
                    (by rw [pairAt_succ]; exact hp) hbad
          · rw [remMergeAux_cons_far s rest prev cur hlen2]
            intro m hm
            rcases List.mem_cons.mp hm with he | hm'
            · rw [he]
              rintro ⟨_, hc2⟩
              omega
            · exact ih cur k u v hpw' hb' hp hbad m hm'

/-- Two consecutive raw REM runs whose gap is short and NREM-free end up
inside one merged run covering both runs and the gap. -/
theorem remMerge_merged_pair (s : List Nat) :
    ∀ (rest : List (Nat × Nat)) (prev : Nat × Nat) (k : Nat) (u v : Nat × Nat),
      List.Pairwise (fun x y => x.2 + 2 ≤ y.1) (prev :: rest) →
      (∀ x ∈ prev :: rest, x.1 ≤ x.2) →
      pairAt (prev :: rest) k = some (u, v) →
      v.1 - 1 + 1 - (u.2 + 1) < 40 →
      hasStage2 s (u.2 + 1) (v.1 - 1) = false →
      ∃ m ∈ (remMergeAux s rest prev).1, m.1 ≤ u.1 ∧ v.2 ≤ m.2 := by
  intro rest
  induction rest with
  | nil =>
      intro prev k u v _ _ hp _ _
      rw [pairAt_singleton] at hp
      cases hp
  | cons cur rest ih =>
      intro prev k u v hpw hb hp hlen h2
      have hpc : prev.2 + 2 ≤ cur.1 :=
        (List.pairwise_cons.mp hpw).1 cur (List.mem_cons_self _ _)
      have hpw' := (List.pairwise_cons.mp hpw).2
      have hb' : ∀ x ∈ cur :: rest, x.1 ≤ x.2 :=
        fun x hx => hb x (List.mem_cons_of_mem _ hx)
      have hprev : prev.1 ≤ prev.2 := hb prev (List.mem_cons_self _ _)
      have hcur : cur.1 ≤ cur.2 := hb' cur (List.mem_cons_self _ _)
      have hpw2 : List.Pairwise (fun x y => x.2 + 2 ≤ y.1)
          ((prev.1, cur.2) :: rest) := by
        refine List.pairwise_cons.mpr ⟨?_, (List.pairwise_cons.mp hpw').2⟩
        intro x hx
        have := (List.pairwise_cons.mp hpw').1 x hx
        simpa using by omega
      have hb2 : ∀ x ∈ (prev.1, cur.2) :: rest, x.1 ≤ x.2 := by
        intro x hx
        rcases List.mem_cons.mp hx with he | hm
        · rw [he]; simp only; omega
        · exact hb' x (List.mem_cons_of_mem _ hm)
      cases k with
      | zero =>
          rw [pairAt_zero] at hp
          simp only [Option.some.injEq, Prod.mk.injEq] at hp
          obtain ⟨hu, hv⟩ := hp
          subst hu; subst hv
          rw [remMergeAux_cons_merge s rest prev cur hlen h2]
          obtain ⟨m, hm, hm1, hm2⟩ :=
            remMerge_cover_prev s rest (prev.1, cur.2) hpw2 hb2
          simp only at hm1 hm2
          exact ⟨m, hm, hm1, hm2⟩
      | succ k =>
          rw [pairAt_succ] at hp
          by_cases hlen2 : cur.1 - 1 + 1 - (prev.2 + 1) < 40
          · by_cases hs2 : hasStage2 s (prev.2 + 1) (cur.1 - 1) = true
            · rw [remMergeAux_cons_block s rest prev cur hlen2 hs2]
              obtain ⟨m, hm, hm1, hm2⟩ := ih cur k u v hpw' hb' hp hlen h2
              exact ⟨m, List.mem_cons_of_mem _ hm, hm1, hm2⟩
            · have hs2' : hasStage2 s (prev.2 + 1) (cur.1 - 1) = false := by
                cases hh : hasStage2 s (prev.2 + 1) (cur.1 - 1)
                · rfl
                · exact absurd hh hs2
              rw [remMergeAux_cons_merge s rest prev cur hlen2 hs2']
              cases k with
              | zero =>
                  cases rest with
                  | nil => rw [pairAt_singleton] at hp; cases hp
                  | cons w t =>
                      rw [pairAt_zero] at hp
                      simp only [Option.some.injEq, Prod.mk.injEq] at hp
                      obtain ⟨hu, hv⟩ := hp
                      rw [← hu, ← hv] at hlen h2 ⊢
                      obtain ⟨m, hm, hm1, hm2⟩ :=
                        ih (prev.1, cur.2) 0 (prev.1, cur.2) w hpw2 hb2
                          (pairAt_zero _ _ _) hlen h2
                      have hm1' : m.1 ≤ prev.1 := hm1
                      have hm2' : w.2 ≤ m.2 := hm2
                      exact ⟨m, hm, by omega, hm2'⟩
              | succ k' =>
                  rw [pairAt_succ] at hp
                  exact ih (prev.1, cur.2) (k' + 1) u v hpw2 hb2
                    (by rw [pairAt_succ]; exact hp) hlen h2
          · rw [remMergeAux_cons_far s rest prev cur hlen2]
            obtain ⟨m, hm, hm1, hm2⟩ := ih cur k u v hpw' hb' hp hlen h2
            exact ⟨m, List.mem_cons_of_mem _ hm, hm1, hm2⟩

/-- The NREM merge loop marks only positions whose `REMepisode` flag is 0,
provided the incoming runs are likewise REM-free. -/
theorem nremMerge_remfree (rem : List Nat) :
    ∀ (rest : List (Nat × Nat)) (prev : Nat × Nat),
      List.Pairwise (fun x y => x.2 + 2 ≤ y.1) (prev :: rest) →
      (∀ x ∈ prev :: rest, x.1 ≤ x.2) →
      (∀ x ∈ prev :: rest, ∀ j, x.1 ≤ j → j ≤ x.2 → at0 rem j ≠ 1) →
      ∀ t ∈ nremMergeAux rem rest prev,
        ∀ j, t.1 ≤ j → j ≤ t.2 → at0 rem j ≠ 1 := by
  intro rest
  induction rest with
  | nil =>
      intro prev _ _ hfree t ht
      have ht' : t = prev := by simpa [nremMergeAux] using ht
      rw [ht']
      exact hfree prev (List.mem_cons_self _ _)
  | cons cur rest ih =>
      intro prev hpw hb hfree
      have hpc : prev.2 + 2 ≤ cur.1 :=
        (List.pairwise_cons.mp hpw).1 cur (List.mem_cons_self _ _)
      have hpw' := (List.pairwise_cons.mp hpw).2
      have hb' : ∀ x ∈ cur :: rest, x.1 ≤ x.2 :=
        fun x hx => hb x (List.mem_cons_of_mem _ hx)
      have hfree' : ∀ x ∈ cur :: rest, ∀ j, x.1 ≤ j → j ≤ x.2 →
          at0 rem j ≠ 1 := fun x hx => hfree x (List.mem_cons_of_mem _ hx)
      have hprev : prev.1 ≤ prev.2 := hb prev (List.mem_cons_self _ _)
      have hcur : cur.1 ≤ cur.2 := hb' cur (List.mem_cons_self _ _)
      by_cases hlen : cur.1 - 1 + 1 - (prev.2 + 1) < 40
      · by_cases h2 : hasRem rem (prev.2 + 1) (cur.1 - 1) = true
        · rw [nremMergeAux_cons_block rem rest prev cur hlen h2]
          intro t ht
          rcases List.mem_cons.mp ht with he | ht'
          · rw [he]; exact hfree prev (List.mem_cons_self _ _)
          · exact ih cur hpw' hb' hfree' t ht'
        · have h2' : hasRem rem (prev.2 + 1) (cur.1 - 1) = false := by
            cases hh : hasRem rem (prev.2 + 1) (cur.1 - 1)
            · rfl
            · exact absurd hh h2
          rw [nremMergeAux_cons_merge rem rest prev cur hlen h2']
          have hpw2 : List.Pairwise (fun x y => x.2 + 2 ≤ y.1)
              ((prev.1, cur.2) :: rest) := by
            refine List.pairwise_cons.mpr
              ⟨?_, (List.pairwise_cons.mp hpw').2⟩
            intro x hx
            have := (List.pairwise_cons.mp hpw').1 x hx
            simpa using by omega
          have hb2 : ∀ x ∈ (prev.1, cur.2) :: rest, x.1 ≤ x.2 := by
            intro x hx
            rcases List.mem_cons.mp hx with he | hm
            · rw [he]; simp only; omega
            · exact hb' x (List.mem_cons_of_mem _ hm)
          have hfree2 : ∀ x ∈ (prev.1, cur.2) :: rest, ∀ j, x.1 ≤ j →
              j ≤ x.2 → at0 rem j ≠ 1 := by
            intro x hx j hj1 hj2
            rcases List.mem_cons.mp hx with he | hm
            · rw [he] at hj1 hj2
              simp only at hj1 hj2
              by_cases hjp : j ≤ prev.2
              · exact hfree prev (List.mem_cons_self _ _) j hj1 hjp
              · by_cases hjc : cur.1 ≤ j
                · exact hfree' cur (List.mem_cons_self _ _) j hjc hj2
                · exact hasRem_false h2' j (by omega) (by omega)
            · exact hfree' x (List.mem_cons_of_mem _ hm) j hj1 hj2
          exact ih (prev.1, cur.2) hpw2 hb2 hfree2
      · rw [nremMergeAux_cons_far rem rest prev cur hlen]
        intro t ht
        rcases List.mem_cons.mp ht with he | ht'
        · rw [he]; exact hfree prev (List.mem_cons_self _ _)
        · exact ih cur hpw' hb' hfree' t ht'

/-! ### Decomposition of the pipeline stages -/

theorem calculate_nrem_episodes_cases (packet rem nrem0 : List Nat) :
    (calculate_nrem_episodes packet rem nrem0 = nrem0 ∧
      bruns (eligibleNrem packet rem) = []) ∨
    ∃ t0 trest, bruns (eligibleNrem packet rem) = t0 :: trest ∧
      calculate_nrem_episodes packet rem nrem0 =
        markRuns (nremMergeAux rem trest t0) nrem0 := by
  unfold calculate_nrem_episodes
  cases hbe : bruns (eligibleNrem packet rem) with
  | nil => exact Or.inl ⟨rfl, rfl⟩
  | cons t0 trest => exact Or.inr ⟨t0, trest, rfl, rfl⟩

theorem pipelineFlags_eq {s : List Nat} {packet rem nrem wake : List Nat}
    (h : pipelineFlags s = some (packet, rem, nrem, wake)) :
    ∃ nrem0, calculate_rem_episodes s = some (rem, nrem0) ∧
      packet = calculate_nrem_packets s ∧
      nrem = calculate_nrem_episodes (calculate_nrem_packets s) rem nrem0 ∧
      wake = calculate_wake_episodes rem nrem := by
  unfold pipelineFlags at h
  cases hre : calculate_rem_episodes s with
  | none => rw [hre] at h; cases h
  | some rn =>
      rw [hre] at h
      simp only [Option.some.injEq, Prod.mk.injEq] at h
      obtain ⟨h1, h2, h3, h4⟩ := h
      refine ⟨rn.2, ?_, h1.symm, ?_, ?_⟩
      · rw [← h2]
      · rw [← h3, h2]
      · rw [← h4, h3, h2]

theorem pipeline_eq {s rem nrem0 : List Nat}
    (hre : calculate_rem_episodes s = some (rem, nrem0)) :
    pipeline s = some (consolidate_sleep_stages rem
      (calculate_nrem_episodes (calculate_nrem_packets s) rem nrem0)
      (calculate_wake_episodes rem
        (calculate_nrem_episodes (calculate_nrem_packets s) rem nrem0))) := by
  unfold pipeline pipelineFlags
  rw [hre]

/-- The `REMepisode` and phase-2 `NREMepisode` columns only hold 0 or 1. -/
theorem rem_episode_values {s rem nrem0 : List Nat}
    (h : calculate_rem_episodes s = some (rem, nrem0)) (j : Nat) :
    (at0 rem j = 0 ∨ at0 rem j = 1) ∧
    (at0 nrem0 j = 0 ∨ at0 nrem0 j = 1) := by
  obtain ⟨r0, rest, _, hrem, hnrem⟩ := calculate_rem_episodes_eq h
  constructor
  · rcases at0_markRuns_or (remMergeAux s rest r0).1
      (List.replicate s.length 0) j with h1 | h1
    · right; rw [hrem]; exact h1
    · left; rw [hrem, h1, at0_replicate]
  · rcases at0_markRuns_or (remMergeAux s rest r0).2
      (List.replicate s.length 0) j with h1 | h1
    · right; rw [hnrem]; exact h1
    · left; rw [hnrem, h1, at0_replicate]

theorem nrem_episode_values (packet rem nrem0 : List Nat) (j : Nat)
    (h0 : at0 nrem0 j = 0 ∨ at0 nrem0 j = 1) :
    at0 (calculate_nrem_episodes packet rem nrem0) j = 0 ∨
      at0 (calculate_nrem_episodes packet rem nrem0) j = 1 := by
  rcases calculate_nrem_episodes_cases packet rem nrem0 with
    ⟨he, _⟩ | ⟨t0, trest, _, he⟩
  · rw [he]; exact h0
  · rw [he]
    rcases at0_markRuns_or (nremMergeAux rem trest t0) nrem0 j with h1 | h1
    · right; exact h1
    · rw [h1]; exact h0

/-- NREM flags (phase-2 gap marks and phase-3 episode marks) never land on a
sample claimed by a REM episode. -/
theorem nrem_rem_exclusive {s rem nrem0 : List Nat}
    (h : calculate_rem_episodes s = some (rem, nrem0)) (j : Nat)
    (hn : at0 (calculate_nrem_episodes (calculate_nrem_packets s) rem nrem0) j
      = 1) : at0 rem j ≠ 1 := by
  intro hr
  obtain ⟨r0, rest, hb, hrem, hnrem⟩ := calculate_rem_episodes_eq h
  have hpw := bruns_pairwise (boolStage 3 s)
  rw [hb] at hpw
  have hbnd : ∀ x ∈ r0 :: rest, x.1 ≤ x.2 :=
    fun x hx => (bruns_bounds _ x (hb ▸ hx)).1
  have hrm : ∃ m ∈ (remMergeAux s rest r0).1, m.1 ≤ j ∧ j ≤ m.2 := by
    rw [hrem] at hr
    rcases at0_markRuns_inv _ _ _ hr with h0 | hex
    · rw [at0_replicate] at h0; cases h0
    · exact hex
  obtain ⟨m, hm, hmj1, hmj2⟩ := hrm
  have hgap : at0 nrem0 j ≠ 1 := by
    intro h0
    rw [hnrem] at h0
    rcases at0_markRuns_inv _ _ _ h0 with h00 | ⟨g, hg, hgj1, hgj2⟩
    · rw [at0_replicate] at h00; cases h00
    · have hdisj := (remMerge_inv s rest r0 hpw hbnd).2.2 m hm g hg
      omega
  rcases calculate_nrem_episodes_cases (calculate_nrem_packets s) rem nrem0
    with ⟨he, _⟩ | ⟨t0, trest, hbe, he⟩
  · rw [he] at hn
    exact hgap hn
  · rw [he] at hn
    rcases at0_markRuns_inv _ _ _ hn with h0 | ⟨t, ht, htj1, htj2⟩
    · exact hgap h0
    · have hpwE := bruns_pairwise
        (eligibleNrem (calculate_nrem_packets s) rem)
      rw [hbe] at hpwE
      have hbndE : ∀ x ∈ t0 :: trest, x.1 ≤ x.2 :=
        fun x hx => (bruns_bounds _ x (hbe ▸ hx)).1
      have hfreeE : ∀ x ∈ t0 :: trest, ∀ i, x.1 ≤ i → i ≤ x.2 →
          at0 rem i ≠ 1 := by
        intro x hx i hi1 hi2 hc
        have hmax := bruns_maxRun _ x (hbe ▸ hx)
        have hel := (getD_eligibleNrem _ _ i).mp (hmax.2.2.1 i hi1 hi2)
        rw [hel.2.2.2] at hc
        cases hc
      exact nremMerge_remfree rem trest t0 hpwE hbndE hfreeE t ht j htj1 htj2
        hr

/-- C2: after the three episode passes (whenever they complete, i.e. the REM
pass did not fail on an input without REM), every in-range sample has exactly
one of the flags REMepisode, NREMepisode, WAKEepisode equal to 1 and the other
two equal to 0; in particular REMepisode and NREMepisode are never both 1. -/
theorem C2_flags_exactly_one (s : List Nat)
    (packet rem nrem wake : List Nat)
    (h : pipelineFlags s = some (packet, rem, nrem, wake)) :
    ∀ j, j < s.length →
      (at0 rem j = 1 ∧ at0 nrem j = 0 ∧ at0 wake j = 0) ∨
      (at0 rem j = 0 ∧ at0 nrem j = 1 ∧ at0 wake j = 0) ∨
      (at0 rem j = 0 ∧ at0 nrem j = 0 ∧ at0 wake j = 1) := by
  obtain ⟨nrem0, hre, hpk, hnr, hwk⟩ := pipelineFlags_eq h
  intro j hj
  have hlr : rem.length = s.length := (length_rem_of_episodes hre).1
  have hln0 : nrem0.length = s.length := (length_rem_of_episodes hre).2
  have hln : nrem.length = s.length := by
    rw [hnr, length_calculate_nrem_episodes, hln0]
  have hwake : at0 wake j =
      if at0 rem j = 0 ∧ at0 nrem j = 0 then 1 else 0 := by
    rw [hwk]
    exact at0_wake rem nrem j (by omega) (by omega)
  have hremv := (rem_episode_values hre j).1
  have hnremv : at0 nrem j = 0 ∨ at0 nrem j = 1 := by
    rw [hnr]
    exact nrem_episode_values _ _ _ j (rem_episode_values hre j).2
  rcases hremv with hrem0 | hrem1
  · rcases hnremv with hnrem0 | hnrem1
    · right; right
      exact ⟨hrem0, hnrem0, by rw [hwake, if_pos ⟨hrem0, hnrem0⟩]⟩
    · right; left
      refine ⟨hrem0, hnrem1, ?_⟩
      rw [hwake, if_neg]
      rintro ⟨_, hc⟩
      omega
  · have hnrem0 : at0 nrem j = 0 := by
      rcases hnremv with h0 | h1
      · exact h0
      · exfalso
        have := nrem_rem_exclusive hre j (by rw [← hnr]; exact h1)
        exact this hrem1
    left
    refine ⟨hrem1, hnrem0, ?_⟩
    rw [hwake, if_neg]
    rintro ⟨hc, _⟩
    omega

/-- C2 witness: the single-sample REM input. -/
theorem C2_flags_exactly_one_witness :
    (at0 [1] 0 = 1 ∧ at0 [0] 0 = 0 ∧ at0 [0] 0 = 0) ∨
    (at0 [1] 0 = 0 ∧ at0 [0] 0 = 1 ∧ at0 [0] 0 = 0) ∨
    (at0 [1] 0 = 0 ∧ at0 [0] 0 = 0 ∧ at0 [0] 0 = 1) :=
  C2_flags_exactly_one [3] [0] [1] [0] [0] (by decide) 0 (by decide)

/-- C4: whenever two consecutive raw REM runs are separated by a gap of fewer
than 40 samples containing at least one raw NREM (stage 2) sample, every
sample of that gap — Wake samples included — is flagged `NREMepisode = 1` by
`calculate_rem_episodes`, and consequently receives consolidated stage code 2
in the pipeline output unless the sample is claimed by a REM episode. -/
theorem C4_short_nrem_gap_flagged (s : List Nat) (rem nrem0 : List Nat)
    (r0 : Nat × Nat) (rest : List (Nat × Nat)) (k : Nat) (u v : Nat × Nat)
    (hre : calculate_rem_episodes s = some (rem, nrem0))
    (hb : bruns (boolStage 3 s) = r0 :: rest)
    (hp : pairAt (r0 :: rest) k = some (u, v))
    (hlen : v.1 - u.2 - 1 < 40)
    (h2 : hasStage2 s (u.2 + 1) (v.1 - 1) = true) :
    ∀ j, u.2 + 1 ≤ j → j ≤ v.1 - 1 →
      at0 nrem0 j = 1 ∧
      ∀ out, pipeline s = some out → at0 rem j ≠ 1 → at0 out j = 2 := by
  intro j hj1 hj2
  have hpw := bruns_pairwise (boolStage 3 s)
  rw [hb] at hpw
  have hbnd : ∀ x ∈ r0 :: rest, x.1 ≤ x.2 :=
    fun x hx => (bruns_bounds _ x (hb ▸ hx)).1
  have hvmem : v ∈ r0 :: rest := (pairAt_mem hp).2
  have hvbd := bruns_bounds (boolStage 3 s) v (hb ▸ hvmem)
  rw [length_boolStage] at hvbd
  have humem : u ∈ r0 :: rest := (pairAt_mem hp).1
  have hjlen : j < s.length := by omega
  obtain ⟨r0', rest', hb', hrem, hnrem⟩ := calculate_rem_episodes_eq hre
  rw [hb] at hb'
  injection hb' with he1 he2
  subst he1
  subst he2
  have hg := remMerge_gap_mem s rest r0 k u v hpw hbnd hp (by omega) h2
  have hnrem0 : at0 nrem0 j = 1 := by
    rw [hnrem]
    exact at0_markRuns_of_mem _ _ (u.2 + 1, v.1 - 1) j hg hj1 hj2
      (by rw [List.length_replicate]; exact hjlen)
  refine ⟨hnrem0, ?_⟩
  intro out hout hrem1
  rw [pipeline_eq hre] at hout
  simp only [Option.some.injEq] at hout
  subst hout
  have hnrem1 : at0 (calculate_nrem_episodes
      (calculate_nrem_packets s) rem nrem0) j = 1 := by
    rcases calculate_nrem_episodes_cases (calculate_nrem_packets s) rem nrem0
      with ⟨he, _⟩ | ⟨t0, trest, _, he⟩
    · rw [he]; exact hnrem0
    · rw [he]
      rcases at0_markRuns_or (nremMergeAux rem trest t0) nrem0 j with h1 | h1
      · exact h1
      · rw [h1]; exact hnrem0
  have hlr : rem.length = s.length := (length_rem_of_episodes hre).1
  have hln0 : nrem0.length = s.length := (length_rem_of_episodes hre).2
  have hln : (calculate_nrem_episodes (calculate_nrem_packets s) rem
      nrem0).length = s.length := by
    rw [length_calculate_nrem_episodes, hln0]
  have hlw : (calculate_wake_episodes rem (calculate_nrem_episodes
      (calculate_nrem_packets s) rem nrem0)).length = s.length := by
    rw [length_calculate_wake_episodes, hlr, hln]
    omega
  rw [at0_consolidate _ _ _ j (by omega) (by omega) (by omega),
    if_neg hrem1, if_pos hnrem1]

/-- C4 witness: two length-2 REM runs with a 3-sample gap containing one NREM
sample; the Wake gap sample at position 2 is flagged and consolidated to 2. -/
theorem C4_short_nrem_gap_flagged_witness :
    at0 [0, 0, 1, 1, 1, 0, 0] 2 = 1 ∧
    ∀ out, pipeline [3, 3, 1, 2, 1, 3, 3] = some out →
      at0 [1, 1, 0, 0, 0, 1, 1] 2 ≠ 1 → at0 out 2 = 2 :=
  C4_short_nrem_gap_flagged [3, 3, 1, 2, 1, 3, 3]
    [1, 1, 0, 0, 0, 1, 1] [0, 0, 1, 1, 1, 0, 0]
    (0, 1) [(5, 6)] 0 (0, 1) (5, 6)
    (by decide) (by decide) rfl (by decide) (by decide) 2
    (by decide) (by decide)

/-- C7: two consecutive raw REM runs separated by a gap of exactly 40 samples
are never spanned by a single merged REM run (strict `<` semantics); two runs
separated by a gap of exactly 39 samples none of which is raw NREM are merged
into one run covering both runs and the gap. -/
theorem C7_merge_boundary (s : List Nat) (r0 : Nat × Nat)
    (rest : List (Nat × Nat)) (k : Nat) (u v : Nat × Nat)
    (hb : bruns (boolStage 3 s) = r0 :: rest)
    (hp : pairAt (r0 :: rest) k = some (u, v)) :
    (v.1 - u.2 - 1 = 40 →
      ∀ m ∈ (remMergeAux s rest r0).1, ¬(m.1 ≤ u.2 ∧ v.1 ≤ m.2)) ∧
    (v.1 - u.2 - 1 = 39 → hasStage2 s (u.2 + 1) (v.1 - 1) = false →
      ∃ m ∈ (remMergeAux s rest r0).1, m.1 ≤ u.1 ∧ v.2 ≤ m.2) := by
  have hpw := bruns_pairwise (boolStage 3 s)
  rw [hb] at hpw
  have hbnd : ∀ x ∈ r0 :: rest, x.1 ≤ x.2 :=
    fun x hx => (bruns_bounds _ x (hb ▸ hx)).1
  constructor
  · intro hgap
    exact remMerge_no_cross s rest r0 k u v hpw hbnd hp
      (by rintro ⟨hc, _⟩; omega)
  · intro hgap h2
    exact remMerge_merged_pair s rest r0 k u v hpw hbnd hp (by omega) h2

/-- C7 witness: the 40-sample gap stays two runs; the 39-sample NREM-free gap
is merged into one run covering positions 0 through 40. -/
theorem C7_merge_boundary_witness :
    (∀ m ∈ (remMergeAux ([3] ++ List.replicate 40 1 ++ [3])
        [(41, 41)] (0, 0)).1, ¬(m.1 ≤ 0 ∧ 41 ≤ m.2)) ∧
    (∃ m ∈ (remMergeAux ([3] ++ List.replicate 39 1 ++ [3])
        [(40, 40)] (0, 0)).1, m.1 ≤ 0 ∧ 40 ≤ m.2) := by
  constructor
  · exact (C7_merge_boundary ([3] ++ List.replicate 40 1 ++ [3])
      (0, 0) [(41, 41)] 0 (0, 0) (41, 41) (by decide) rfl).1 (by decide)
  · exact (C7_merge_boundary ([3] ++ List.replicate 39 1 ++ [3])
      (0, 0) [(40, 40)] 0 (0, 0) (40, 40) (by decide) rfl).2
      (by decide) (by decide)

/-- C3 counterexample: on the Scenario C input, the Wake gap sample at
position 6 receives consolidated stage code 2 (NREM), not 1 (Wake) as the
claim states — the whole short NREM-containing gap is marked `NREMepisode`
by `calculate_rem_episodes` (line 79 of the source). -/
theorem C3_counterexample :
    (pipeline scenC).map (fun out => at0 out 6) = some 2 := by
  decide

/-- C3 amended: on the Scenario C input the two REM runs are not merged and
remain two separate REM episodes, the single NREM sample is not a packet
(`NREMpacket` stays all-0), but every sample of the gap — positions 6
through 15 — receives consolidated stage code 2 (NREM), not Wake. -/
theorem C3_scenario_c :
    bruns (boolStage 3 scenC) = [(1, 5), (16, 20)] ∧
    remMergeAux scenC [(16, 20)] (1, 5) = ([(1, 5), (16, 20)], [(6, 15)]) ∧
    calculate_nrem_packets scenC = List.replicate 22 0 ∧
    pipeline scenC = some scenCout := by
  decide

theorem length_consolidate (rem nrem wake : List Nat)
    (hr : rem.length = wake.length) (hn : nrem.length = wake.length) :
    (consolidate_sleep_stages rem nrem wake).length = wake.length := by
  unfold consolidate_sleep_stages
  rw [length_applyFlag, length_applyFlag, length_applyFlag,
    List.length_replicate]
  omega

/-- C10: the dataframe pipeline, when it completes, returns the input table
with the `sleepStage` and `Timestamp` columns untouched, none of the four
scratch columns present, and exactly one added column
`sleepStageConsolidated` of the input's length whose values all lie in
{1, 2, 3}.  (Timestamps are modelled as the instants the strings parse to,
over which `pd.to_datetime` is the identity.) -/
theorem C10_output_frame (df out : Df) (h : pipeline_df df = some out) :
    out.sleepStage = df.sleepStage ∧ out.timestamp = df.timestamp ∧
    out.nrempacket = none ∧ out.remepisode = none ∧
    out.nremepisode = none ∧ out.wakeepisode = none ∧
    ∃ cs, out.consolidated = some cs ∧ cs.length = df.sleepStage.length ∧
      ∀ j, j < cs.length → at0 cs j = 1 ∨ at0 cs j = 2 ∨ at0 cs j = 3 := by
  have hsplit : ∃ rn : List Nat × List Nat,
      calculate_rem_episodes df.sleepStage = some rn ∧
      out = Df.mk df.sleepStage df.timestamp none none none none
              (some (consolidate_sleep_stages rn.1
                (calculate_nrem_episodes
                  (calculate_nrem_packets df.sleepStage) rn.1 rn.2)
                (calculate_wake_episodes rn.1
                  (calculate_nrem_episodes
                    (calculate_nrem_packets df.sleepStage) rn.1 rn.2)))) := by
    unfold pipeline_df calculate_rem_episodes_df at h
    cases hre : calculate_rem_episodes
        (calculate_nrem_packets_df df).sleepStage with
    | none => rw [hre] at h; cases h
    | some rn =>
        rw [hre] at h
        simp only [Option.some.injEq] at h
        refine ⟨rn, hre, ?_⟩
        rw [← h]
        rfl
  obtain ⟨rn, hre, hout⟩ := hsplit
  subst hout
  have hres : calculate_rem_episodes df.sleepStage = some (rn.1, rn.2) := hre
  set nrem := calculate_nrem_episodes
    (calculate_nrem_packets df.sleepStage) rn.1 rn.2 with hnremdef
  have hlr : rn.1.length = df.sleepStage.length :=
    (length_rem_of_episodes hres).1
  have hln0 : rn.2.length = df.sleepStage.length :=
    (length_rem_of_episodes hres).2
  have hln : nrem.length = df.sleepStage.length := by
    rw [hnremdef, length_calculate_nrem_episodes, hln0]
  have hlw : (calculate_wake_episodes rn.1 nrem).length =
      df.sleepStage.length := by
    rw [length_calculate_wake_episodes, hlr, hln]
    omega
  have hlc : (consolidate_sleep_stages rn.1 nrem
      (calculate_wake_episodes rn.1 nrem)).length = df.sleepStage.length := by
    rw [length_consolidate _ _ _ (by omega) (by omega), hlw]
  refine ⟨rfl, rfl, rfl, rfl, rfl, rfl, _, rfl, hlc, ?_⟩
  intro j hj
  rw [hlc] at hj
  have hcons := at0_consolidate rn.1 nrem (calculate_wake_episodes rn.1 nrem)
    j (by omega) (by omega) (by omega)
  have hwakev := at0_wake rn.1 nrem j (by omega) (by omega)
  have hremv := (rem_episode_values hres j).1
  have hnremv := nrem_episode_values (calculate_nrem_packets df.sleepStage)
    rn.1 rn.2 j (rem_episode_values hres j).2
  rw [← hnremdef] at hnremv
  rw [hcons]
  rcases hremv with h0 | h1
  · rcases hnremv with g0 | g1
    · left
      rw [if_neg (by omega), if_neg (by omega), if_pos]
      rw [hwakev, if_pos ⟨h0, g0⟩]
    · right; left
      rw [if_neg (by omega), if_pos g1]
  · right; right
    rw [if_pos h1]

/-- C10 witness: the one-sample REM dataframe. -/
theorem C10_output_frame_witness :
    dfC10out.sleepStage = dfC10.sleepStage ∧
    dfC10out.timestamp = dfC10.timestamp ∧
    dfC10out.nrempacket = none ∧ dfC10out.remepisode = none ∧
    dfC10out.nremepisode = none ∧ dfC10out.wakeepisode = none ∧
    ∃ cs, dfC10out.consolidated = some cs ∧
      cs.length = dfC10.sleepStage.length ∧
      ∀ j, j < cs.length → at0 cs j = 1 ∨ at0 cs j = 2 ∨ at0 cs j = 3 :=
  C10_output_frame dfC10 dfC10out (by decide)

/-! ### Order-theoretic toolkit for run lists (towards idempotence) -/

/-- Two members of a run list ordered by the separation relation are equal or
related one way or the other. -/
theorem pairwise_mem_rel {L : List (Nat × Nat)} {x y : Nat × Nat}
    (hpw : List.Pairwise (fun a b => a.2 + 2 ≤ b.1) L)
    (hx : x ∈ L) (hy : y ∈ L) :
    x = y ∨ x.2 + 2 ≤ y.1 ∨ y.2 + 2 ≤ x.1 := by
  rw [List.pairwise_iff_getElem] at hpw
  obtain ⟨i, hi, hxi⟩ := List.mem_iff_getElem.mp hx
  obtain ⟨j, hj, hyj⟩ := List.mem_iff_getElem.mp hy
  rcases Nat.lt_trichotomy i j with hij | hij | hij
  · right; left
    have := hpw i j hi hj hij
    rw [hxi, hyj] at this
    exact this
  · left
    subst hij
    rw [← hxi, ← hyj]
  · right; right
    have := hpw j i hj hi hij
    rw [hxi, hyj] at this
    exact this

/-- Strictly key-sorted lists with the same members are equal. -/
theorem sorted_mem_eq :
    ∀ (L1 L2 : List (Nat × Nat)),
      List.Pairwise (fun a b => a.1 < b.1) L1 →
      List.Pairwise (fun a b => a.1 < b.1) L2 →
      (∀ x, x ∈ L1 ↔ x ∈ L2) → L1 = L2 := by
  intro L1
  induction L1 with
  | nil =>
      intro L2 _ _ hm
      cases L2 with
      | nil => rfl
      | cons b t2 => exact absurd ((hm b).mpr (List.mem_cons_self _ _)) (by simp)
  | cons a t1 ih =>
      intro L2 hp1 hp2 hm
      cases L2 with
      | nil => exact absurd ((hm a).mp (List.mem_cons_self _ _)) (by simp)
      | cons b t2 =>
          have hrel1 := (List.pairwise_cons.mp hp1).1
          have hrel2 := (List.pairwise_cons.mp hp2).1
          have hab : a = b := by
            have haL2 := (hm a).mp (List.mem_cons_self _ _)
            have hbL1 := (hm b).mpr (List.mem_cons_self _ _)
            rcases List.mem_cons.mp haL2 with he | hat2
            · exact he
            · rcases List.mem_cons.mp hbL1 with he | hbt1
              · exact he.symm
              · have h1 := hrel1 b hbt1
                have h2 := hrel2 a hat2
                omega
          subst hab
          have hm' : ∀ x, x ∈ t1 ↔ x ∈ t2 := by
            intro x
            constructor
            · intro hx
              rcases List.mem_cons.mp ((hm x).mp
                (List.mem_cons_of_mem _ hx)) with he | h
              · subst he
                exact absurd (hrel1 x hx) (by omega)
              · exact h
            · intro hx
              rcases List.mem_cons.mp ((hm x).mpr
                (List.mem_cons_of_mem _ hx)) with he | h
              · subst he
                exact absurd (hrel2 x hx) (by omega)
              · exact h
          rw [ih t2 (List.pairwise_cons.mp hp1).2
            (List.pairwise_cons.mp hp2).2 hm']

/-- Separation plus non-degeneracy gives strict sorting by start index. -/
theorem pairwise_lt_of_sep {L : List (Nat × Nat)}
    (hpw : List.Pairwise (fun a b => a.2 + 2 ≤ b.1) L)
    (hb : ∀ x ∈ L, x.1 ≤ x.2) :
    List.Pairwise (fun a b => a.1 < b.1) L := by
  induction L with
  | nil => exact List.Pairwise.nil
  | cons a t ih =>
      refine List.pairwise_cons.mpr ⟨?_, ih (List.pairwise_cons.mp hpw).2
        (fun x hx => hb x (List.mem_cons_of_mem _ hx))⟩
      intro y hy
      have h1 := (List.pairwise_cons.mp hpw).1 y hy
      have h2 := hb a (List.mem_cons_self _ _)
      omega

/-- An all-true interval overlapping a maximal run lies inside it. -/
theorem maxrun_sup {l : List Bool} {a b c d j : Nat}
    (h : IsMaxRun l a b) (hall : ∀ i, c ≤ i → i ≤ d → l.getD i false = true)
    (_hcd : c ≤ d) (h1 : a ≤ j) (h2 : j ≤ b) (h3 : c ≤ j) (h4 : j ≤ d) :
    a ≤ c ∧ d ≤ b := by
  obtain ⟨hab, hblen, hint, hleft, hright⟩ := h
  constructor
  · by_contra hca
    have hc1 : c ≤ a - 1 := by omega
    have hc2 : a - 1 ≤ d := by omega
    have := hall (a - 1) hc1 hc2
    rcases hleft with h0 | hf
    · omega
    · rw [hf] at this; cases this
  · by_contra hdb
    have hc1 : c ≤ b + 1 := by omega
    have hc2 : b + 1 ≤ d := by omega
    have := hall (b + 1) hc1 hc2
    rcases hright with h0 | hf
    · have hfalse : l.getD (b + 1) false = false := by
        rw [List.getD_eq_getElem?_getD, List.getElem?_eq_none_iff.mpr (by omega)]
        rfl
      rw [hfalse] at this
      cases this
    · rw [hf] at this; cases this

/-- In a strictly sorted list, two members with no member starting strictly
between them are adjacent. -/
theorem adjacent_of_sorted :
    ∀ (L : List (Nat × Nat)) (x y : Nat × Nat),
      List.Pairwise (fun a b => a.1 < b.1) L →
      x ∈ L → y ∈ L → x.1 < y.1 →
      (∀ z ∈ L, ¬(x.1 < z.1 ∧ z.1 < y.1)) →
      ∃ k, pairAt L k = some (x, y) := by
  intro L
  induction L with
  | nil => intro x y _ hx; cases hx
  | cons a t ih =>
      intro x y hpw hx hy hxy hno
      have hrel := (List.pairwise_cons.mp hpw).1
      rcases List.mem_cons.mp hx with hex | hxt
      · subst hex
        have hyt : y ∈ t := by
          rcases List.mem_cons.mp hy with hey | h
          · subst hey; omega
          · exact h
        cases t with
        | nil => cases hyt
        | cons b t' =>
            have hby : b = y := by
              rcases List.mem_cons.mp hyt with heb | hbt'
              · exact heb.symm
              · have hb1 : x.1 < b.1 := hrel b (List.mem_cons_self _ _)
                have hb2 : b.1 < y.1 := by
                  have hpw' := (List.pairwise_cons.mp hpw).2
                  have := (List.pairwise_cons.mp hpw').1 y hbt'
                  exact this
                exact absurd ⟨hb1, hb2⟩
                  (hno b (List.mem_cons_of_mem _ (List.mem_cons_self _ _)))
            subst hby
            exact ⟨0, rfl⟩
      · have hyt : y ∈ t := by
          rcases List.mem_cons.mp hy with hey | h
          · subst hey
            have := hrel x hxt
            omega
          · exact h
        obtain ⟨k, hk⟩ := ih x y (List.pairwise_cons.mp hpw).2 hxt hyt hxy
          (fun z hz => hno z (List.mem_cons_of_mem _ hz))
        exact ⟨k + 1, by rw [pairAt_succ]; exact hk⟩

/-- No member of a strictly sorted list starts strictly between an adjacent
pair. -/
theorem pairAt_nobetween :
    ∀ (L : List (Nat × Nat)) (k : Nat) (x y : Nat × Nat),
      List.Pairwise (fun a b => a.1 < b.1) L →
      pairAt L k = some (x, y) →
      ∀ z ∈ L, ¬(x.1 < z.1 ∧ z.1 < y.1) := by
  intro L
  induction L with
  | nil => intro k x y _ hp; rw [show pairAt [] k = none from by cases k <;> rfl] at hp; cases hp
  | cons a t ih =>
      intro k x y hpw hp z hz
      have hrel := (List.pairwise_cons.mp hpw).1
      cases k with
      | zero =>
          cases t with
          | nil => rw [pairAt_singleton] at hp; cases hp
          | cons b t' =>
              rw [pairAt_zero] at hp
              simp only [Option.some.injEq, Prod.mk.injEq] at hp
              obtain ⟨hxa, hyb⟩ := hp
              subst hxa; subst hyb
              rcases List.mem_cons.mp hz with hez | hzt
              · subst hez; omega
              · rcases List.mem_cons.mp hzt with hez | hzt'
                · subst hez; omega
                · have hpw' := (List.pairwise_cons.mp hpw).2
                  have := (List.pairwise_cons.mp hpw').1 z hzt'
                  omega
      | succ k =>
          rw [pairAt_succ] at hp
          rcases List.mem_cons.mp hz with hez | hzt
          · subst hez
            have hxmem : x ∈ t := ((pairAt_mem hp).1)
            have := hrel x hxmem
            omega
          · exact ih k x y (List.pairwise_cons.mp hpw).2 hp z hzt

/-- `bruns` is the unique strictly sorted list of maximal runs covering all
true positions. -/
theorem runs_unique {l : List Bool} {L : List (Nat × Nat)}
    (hpw : List.Pairwise (fun a b => a.2 + 2 ≤ b.1) L)
    (hmax : ∀ x ∈ L, IsMaxRun l x.1 x.2)
    (hcov : ∀ j, j < l.length → l.getD j false = true →
      ∃ x ∈ L, x.1 ≤ j ∧ j ≤ x.2) :
    bruns l = L := by
  have hb : ∀ x ∈ L, x.1 ≤ x.2 := fun x hx => (hmax x hx).1
  apply sorted_mem_eq
  · exact pairwise_lt_of_sep (bruns_pairwise l)
      (fun x hx => (bruns_bounds l x hx).1)
  · exact pairwise_lt_of_sep hpw hb
  · intro x
    constructor
    · intro hx
      have hxmax := bruns_maxRun l x hx
      obtain ⟨hab, hblen, hint, _, _⟩ := hxmax
      obtain ⟨y, hy, hy1, hy2⟩ := hcov x.1 (by omega)
        (hint x.1 (Nat.le_refl _) hab)
      have hymax := hmax y hy
      obtain ⟨he1, he2⟩ := isMaxRun_eq (bruns_maxRun l x hx) hymax
        (Nat.le_refl _) hab hy1 hy2
      have : x = y := by
        obtain ⟨x1, x2⟩ := x
        obtain ⟨y1, y2⟩ := y
        simp only at he1 he2
        rw [he1, he2]
      rw [this]
      exact hy
    · intro hx
      have : (x.1, x.2) ∈ bruns l := bruns_of_maxRun (hmax x hx)
      simpa using this

/-! ### Further structure of the REM merge loop -/

theorem remMerge_pairwise (s : List Nat) :
    ∀ (rest : List (Nat × Nat)) (prev : Nat × Nat),
      List.Pairwise (fun x y => x.2 + 2 ≤ y.1) (prev :: rest) →
      (∀ x ∈ prev :: rest, x.1 ≤ x.2) →
      List.Pairwise (fun x y => x.2 + 2 ≤ y.1) (remMergeAux s rest prev).1 := by
  intro rest
  induction rest with
  | nil =>
      intro prev _ _
      simp [remMergeAux]
  | cons cur rest ih =>
      intro prev hpw hb
      have hpc : prev.2 + 2 ≤ cur.1 :=
        (List.pairwise_cons.mp hpw).1 cur (List.mem_cons_self _ _)
      have hpw' := (List.pairwise_cons.mp hpw).2
      have hb' : ∀ x ∈ cur :: rest, x.1 ≤ x.2 :=
        fun x hx => hb x (List.mem_cons_of_mem _ hx)
      have hprev : prev.1 ≤ prev.2 := hb prev (List.mem_cons_self _ _)
      have hcur : cur.1 ≤ cur.2 := hb' cur (List.mem_cons_self _ _)
      by_cases hlen : cur.1 - 1 + 1 - (prev.2 + 1) < 40
      · by_cases h2 : hasStage2 s (prev.2 + 1) (cur.1 - 1) = true
        · rw [remMergeAux_cons_block s rest prev cur hlen h2]
          refine List.pairwise_cons.mpr ⟨?_, ih cur hpw' hb'⟩
          intro m hm
          have := ((remMerge_inv s rest cur hpw' hb').1 m hm).2
          omega
        · have h2' : hasStage2 s (prev.2 + 1) (cur.1 - 1) = false := by
            cases hh : hasStage2 s (prev.2 + 1) (cur.1 - 1)
            · rfl
            · exact absurd hh h2
          rw [remMergeAux_cons_merge s rest prev cur hlen h2']
          have hpw2 : List.Pairwise (fun x y => x.2 + 2 ≤ y.1)
              ((prev.1, cur.2) :: rest) := by
            refine List.pairwise_cons.mpr
              ⟨?_, (List.pairwise_cons.mp hpw').2⟩
            intro x hx
            have := (List.pairwise_cons.mp hpw').1 x hx
            simpa using by omega
          have hb2 : ∀ x ∈ (prev.1, cur.2) :: rest, x.1 ≤ x.2 := by
            intro x hx
            rcases List.mem_cons.mp hx with he | hm
            · rw [he]; simp only; omega
            · exact hb' x (List.mem_cons_of_mem _ hm)
          exact ih (prev.1, cur.2) hpw2 hb2
      · rw [remMergeAux_cons_far s rest prev cur hlen]
        refine List.pairwise_cons.mpr ⟨?_, ih cur hpw' hb'⟩
        intro m hm
        have := ((remMerge_inv s rest cur hpw' hb').1 m hm).2
        omega

/-- Every merged run starts at some incoming run's start and ends at some
incoming run's end. -/
theorem remMerge_ends (s : List Nat) :
    ∀ (rest : List (Nat × Nat)) (prev : Nat × Nat),
      ∀ m ∈ (remMergeAux s rest prev).1,
        (∃ x ∈ prev :: rest, m.1 = x.1) ∧ ∃ x ∈ prev :: rest, m.2 = x.2 := by
  intro rest
  induction rest with
  | nil =>
      intro prev m hm
      have hm' : m = prev := by simpa [remMergeAux] using hm
      exact ⟨⟨prev, List.mem_cons_self _ _, by rw [hm']⟩,
        ⟨prev, List.mem_cons_self _ _, by rw [hm']⟩⟩
  | cons cur rest ih =>
      intro prev m hm
      by_cases hlen : cur.1 - 1 + 1 - (prev.2 + 1) < 40
      · by_cases h2 : hasStage2 s (prev.2 + 1) (cur.1 - 1) = true
        · rw [remMergeAux_cons_block s rest prev cur hlen h2] at hm
          rcases List.mem_cons.mp hm with he | hm'
          · exact ⟨⟨prev, List.mem_cons_self _ _, by rw [he]⟩,
              ⟨prev, List.mem_cons_self _ _, by rw [he]⟩⟩
          · obtain ⟨⟨x, hx, he1⟩, ⟨y, hy, he2⟩⟩ := ih cur m hm'
            exact ⟨⟨x, List.mem_cons_of_mem _ hx, he1⟩,
              ⟨y, List.mem_cons_of_mem _ hy, he2⟩⟩
        · have h2' : hasStage2 s (prev.2 + 1) (cur.1 - 1) = false := by
            cases hh : hasStage2 s (prev.2 + 1) (cur.1 - 1)
            · rfl
            · exact absurd hh h2
          rw [remMergeAux_cons_merge s rest prev cur hlen h2'] at hm
          obtain ⟨⟨x, hx, he1⟩, ⟨y, hy, he2⟩⟩ := ih (prev.1, cur.2) m hm
          constructor
          · rcases List.mem_cons.mp hx with hex | hxr
            · exact ⟨prev, List.mem_cons_self _ _, by rw [he1, hex]⟩
            · exact ⟨x, List.mem_cons_of_mem _ (List.mem_cons_of_mem _ hxr),
                he1⟩
          · rcases List.mem_cons.mp hy with hey | hyr
            · exact ⟨cur, List.mem_cons_of_mem _ (List.mem_cons_self _ _),
                by rw [he2, hey]⟩
            · exact ⟨y, List.mem_cons_of_mem _ (List.mem_cons_of_mem _ hyr),
                he2⟩
      · rw [remMergeAux_cons_far s rest prev cur hlen] at hm
        rcases List.mem_cons.mp hm with he | hm'
        · exact ⟨⟨prev, List.mem_cons_self _ _, by rw [he]⟩,
            ⟨prev, List.mem_cons_self _ _, by rw [he]⟩⟩
        · obtain ⟨⟨x, hx, he1⟩, ⟨y, hy, he2⟩⟩ := ih cur m hm'
          exact ⟨⟨x, List.mem_cons_of_mem _ hx, he1⟩,
            ⟨y, List.mem_cons_of_mem _ hy, he2⟩⟩

/-- Merged REM runs contain no raw NREM sample, provided the incoming runs
contain none. -/
theorem remMerge_not2 (s : List Nat) :
    ∀ (rest : List (Nat × Nat)) (prev : Nat × Nat),
      List.Pairwise (fun x y => x.2 + 2 ≤ y.1) (prev :: rest) →
      (∀ x ∈ prev :: rest, x.1 ≤ x.2) →
      (∀ x ∈ prev :: rest, ∀ j, x.1 ≤ j → j ≤ x.2 → at0 s j ≠ 2) →
      ∀ m ∈ (remMergeAux s rest prev).1,
        ∀ j, m.1 ≤ j → j ≤ m.2 → at0 s j ≠ 2 := by
  intro rest
  induction rest with
  | nil =>
      intro prev _ _ hfree m hm
      have hm' : m = prev := by simpa [remMergeAux] using hm
      rw [hm']
      exact hfree prev (List.mem_cons_self _ _)
  | cons cur rest ih =>
      intro prev hpw hb hfree
      have hpc : prev.2 + 2 ≤ cur.1 :=
        (List.pairwise_cons.mp hpw).1 cur (List.mem_cons_self _ _)
      have hpw' := (List.pairwise_cons.mp hpw).2
      have hb' : ∀ x ∈ cur :: rest, x.1 ≤ x.2 :=
        fun x hx => hb x (List.mem_cons_of_mem _ hx)
      have hfree' : ∀ x ∈ cur :: rest, ∀ j, x.1 ≤ j → j ≤ x.2 →
          at0 s j ≠ 2 := fun x hx => hfree x (List.mem_cons_of_mem _ hx)
      have hprev : prev.1 ≤ prev.2 := hb prev (List.mem_cons_self _ _)
      have hcur : cur.1 ≤ cur.2 := hb' cur (List.mem_cons_self _ _)
      by_cases hlen : cur.1 - 1 + 1 - (prev.2 + 1) < 40
      · by_cases h2 : hasStage2 s (prev.2 + 1) (cur.1 - 1) = true
        · rw [remMergeAux_cons_block s rest prev cur hlen h2]
          intro m hm
          rcases List.mem_cons.mp hm with he | hm'
          · rw [he]; exact hfree prev (List.mem_cons_self _ _)
          · exact ih cur hpw' hb' hfree' m hm'
        · have h2' : hasStage2 s (prev.2 + 1) (cur.1 - 1) = false := by
            cases hh : hasStage2 s (prev.2 + 1) (cur.1 - 1)
            · rfl
            · exact absurd hh h2
          rw [remMergeAux_cons_merge s rest prev cur hlen h2']
          have hpw2 : List.Pairwise (fun x y => x.2 + 2 ≤ y.1)
              ((prev.1, cur.2) :: rest) := by
            refine List.pairwise_cons.mpr
              ⟨?_, (List.pairwise_cons.mp hpw').2⟩
            intro x hx
            have := (List.pairwise_cons.mp hpw').1 x hx
            simpa using by omega
          have hb2 : ∀ x ∈ (prev.1, cur.2) :: rest, x.1 ≤ x.2 := by
            intro x hx
            rcases List.mem_cons.mp hx with he | hm
            · rw [he]; simp only; omega
            · exact hb' x (List.mem_cons_of_mem _ hm)
          have hfree2 : ∀ x ∈ (prev.1, cur.2) :: rest, ∀ j, x.1 ≤ j →
              j ≤ x.2 → at0 s j ≠ 2 := by
            intro x hx j hj1 hj2
            rcases List.mem_cons.mp hx with he | hm
            · rw [he] at hj1 hj2
              simp only at hj1 hj2
              by_cases hjp : j ≤ prev.2
              · exact hfree prev (List.mem_cons_self _ _) j hj1 hjp
              · by_cases hjc : cur.1 ≤ j
                · exact hfree' cur (List.mem_cons_self _ _) j hjc hj2
                · intro hc
                  by_cases hjl : j < s.length
                  · exact hasStage2_false h2' j (by omega) (by omega) hjl hc
                  · rw [at0_eq_zero_of_le (by omega)] at hc
                    cases hc
            · exact hfree' x (List.mem_cons_of_mem _ hm) j hj1 hj2
          exact ih (prev.1, cur.2) hpw2 hb2 hfree2
      · rw [remMergeAux_cons_far s rest prev cur hlen]
        intro m hm
        rcases List.mem_cons.mp hm with he | hm'
        · rw [he]; exact hfree prev (List.mem_cons_self _ _)
        · exact ih cur hpw' hb' hfree' m hm'

/-- Every incoming run is contained in some merged run. -/
theorem remMerge_runcover (s : List Nat) :
    ∀ (rest : List (Nat × Nat)) (prev : Nat × Nat),
      List.Pairwise (fun x y => x.2 + 2 ≤ y.1) (prev :: rest) →
      (∀ x ∈ prev :: rest, x.1 ≤ x.2) →
      ∀ x ∈ prev :: rest,
        ∃ m ∈ (remMergeAux s rest prev).1, m.1 ≤ x.1 ∧ x.2 ≤ m.2 := by
  intro rest
  induction rest with
  | nil =>
      intro prev _ _ x hx
      have hx' : x = prev := by simpa using hx
      exact ⟨prev, by simp [remMergeAux], by rw [hx'], by rw [hx']⟩
  | cons cur rest ih =>
      intro prev hpw hb x hx
      have hpc : prev.2 + 2 ≤ cur.1 :=
        (List.pairwise_cons.mp hpw).1 cur (List.mem_cons_self _ _)
      have hpw' := (List.pairwise_cons.mp hpw).2
      have hb' : ∀ x ∈ cur :: rest, x.1 ≤ x.2 :=
        fun x hx => hb x (List.mem_cons_of_mem _ hx)
      have hprev : prev.1 ≤ prev.2 := hb prev (List.mem_cons_self _ _)
      have hcur : cur.1 ≤ cur.2 := hb' cur (List.mem_cons_self _ _)
      by_cases hlen : cur.1 - 1 + 1 - (prev.2 + 1) < 40
      · by_cases h2 : hasStage2 s (prev.2 + 1) (cur.1 - 1) = true
        · rw [remMergeAux_cons_block s rest prev cur hlen h2]
          rcases List.mem_cons.mp hx with he | hx'
          · exact ⟨prev, List.mem_cons_self _ _, by rw [he],
              by rw [he]⟩
          · obtain ⟨m, hm, h1, h2'⟩ := ih cur hpw' hb' x hx'
            exact ⟨m, List.mem_cons_of_mem _ hm, h1, h2'⟩
        · have h2' : hasStage2 s (prev.2 + 1) (cur.1 - 1) = false := by
            cases hh : hasStage2 s (prev.2 + 1) (cur.1 - 1)
            · rfl
            · exact absurd hh h2
          rw [remMergeAux_cons_merge s rest prev cur hlen h2']
          have hpw2 : List.Pairwise (fun x y => x.2 + 2 ≤ y.1)
              ((prev.1, cur.2) :: rest) := by
            refine List.pairwise_cons.mpr
              ⟨?_, (List.pairwise_cons.mp hpw').2⟩
            intro z hz
            have := (List.pairwise_cons.mp hpw').1 z hz
            simpa using by omega
          have hb2 : ∀ z ∈ (prev.1, cur.2) :: rest, z.1 ≤ z.2 := by
            intro z hz
            rcases List.mem_cons.mp hz with he | hm
            · rw [he]; simp only; omega
            · exact hb' z (List.mem_cons_of_mem _ hm)
          obtain ⟨m, hm, h1, h2''⟩ := ih (prev.1, cur.2) hpw2 hb2
            (prev.1, cur.2) (List.mem_cons_self _ _)
          simp only at h1 h2''
          rcases List.mem_cons.mp hx with he | hx'
          · exact ⟨m, hm, by rw [he]; omega, by rw [he]; omega⟩
          · rcases List.mem_cons.mp hx' with he | hx''
            · exact ⟨m, hm, by rw [he]; omega, by rw [he]; omega⟩
            · obtain ⟨m', hm', h1', h2'''⟩ := ih (prev.1, cur.2) hpw2 hb2 x
                (List.mem_cons_of_mem _ hx'')
              exact ⟨m', hm', h1', h2'''⟩
      · rw [remMergeAux_cons_far s rest prev cur hlen]
        rcases List.mem_cons.mp hx with he | hx'
        · exact ⟨prev, List.mem_cons_self _ _, by rw [he], by rw [he]⟩
        · obtain ⟨m, hm, h1, h2'⟩ := ih cur hpw' hb' x hx'
          exact ⟨m, List.mem_cons_of_mem _ hm, h1, h2'⟩

/-- The merged list is non-empty and its head starts at `previous_run`'s
start. -/
theorem remMerge_headstart (s : List Nat) :
    ∀ (rest : List (Nat × Nat)) (prev : Nat × Nat),
      ∃ hd tl, (remMergeAux s rest prev).1 = hd :: tl ∧ hd.1 = prev.1 := by
  intro rest
  induction rest with
  | nil => intro prev; exact ⟨prev, [], rfl, rfl⟩
  | cons cur rest ih =>
      intro prev
      by_cases hlen : cur.1 - 1 + 1 - (prev.2 + 1) < 40
      · by_cases h2 : hasStage2 s (prev.2 + 1) (cur.1 - 1) = true
        · rw [remMergeAux_cons_block s rest prev cur hlen h2]
          exact ⟨prev, _, rfl, rfl⟩
        · have h2' : hasStage2 s (prev.2 + 1) (cur.1 - 1) = false := by
            cases hh : hasStage2 s (prev.2 + 1) (cur.1 - 1)
            · rfl
            · exact absurd hh h2
          rw [remMergeAux_cons_merge s rest prev cur hlen h2']
          obtain ⟨hd, tl, he, h1⟩ := ih (prev.1, cur.2)
          exact ⟨hd, tl, he, h1⟩
      · rw [remMergeAux_cons_far s rest prev cur hlen]
        exact ⟨prev, _, rfl, rfl⟩

/-- Adjacent merged runs correspond to an incoming adjacent pair with the
same boundary whose gap blocked merging. -/
theorem remMerge_adj (s : List Nat) :
    ∀ (rest : List (Nat × Nat)) (prev : Nat × Nat) (k' : Nat)
      (u' v' : Nat × Nat),
      List.Pairwise (fun x y => x.2 + 2 ≤ y.1) (prev :: rest) →
      (∀ x ∈ prev :: rest, x.1 ≤ x.2) →
      pairAt (remMergeAux s rest prev).1 k' = some (u', v') →
      ∃ k u v, pairAt (prev :: rest) k = some (u, v) ∧ u'.2 = u.2 ∧
        v'.1 = v.1 ∧
        ¬(v.1 - 1 + 1 - (u.2 + 1) < 40 ∧
          hasStage2 s (u.2 + 1) (v.1 - 1) = false) := by
  intro rest
  induction rest with
  | nil =>
      intro prev k' u' v' _ _ hp
      have : (remMergeAux s [] prev).1 = [prev] := rfl
      rw [this, pairAt_singleton] at hp
      cases hp
  | cons cur rest ih =>
      intro prev k' u' v' hpw hb hp
      have hpc : prev.2 + 2 ≤ cur.1 :=
        (List.pairwise_cons.mp hpw).1 cur (List.mem_cons_self _ _)
      have hpw' := (List.pairwise_cons.mp hpw).2
      have hb' : ∀ x ∈ cur :: rest, x.1 ≤ x.2 :=
        fun x hx => hb x (List.mem_cons_of_mem _ hx)
      have hprev : prev.1 ≤ prev.2 := hb prev (List.mem_cons_self _ _)
      have hcur : cur.1 ≤ cur.2 := hb' cur (List.mem_cons_self _ _)
      by_cases hlen : cur.1 - 1 + 1 - (prev.2 + 1) < 40
      · by_cases h2 : hasStage2 s (prev.2 + 1) (cur.1 - 1) = true
        · rw [remMergeAux_cons_block s rest prev cur hlen h2] at hp
          cases k' with
          | zero =>
              obtain ⟨hd, tl, hdeq, hd1⟩ := remMerge_headstart s rest cur
              rw [hdeq, pairAt_zero] at hp
              simp only [Option.some.injEq, Prod.mk.injEq] at hp
              obtain ⟨hu, hv⟩ := hp
              refine ⟨0, prev, cur, rfl, by rw [← hu], ?_, ?_⟩
              · rw [← hv, hd1]
              · rintro ⟨_, hc⟩
                rw [h2] at hc
                cases hc
          | succ k' =>
              rw [pairAt_succ] at hp
              obtain ⟨k, u, v, hpk, he1, he2, hbad⟩ := ih cur k' u' v'
                hpw' hb' hp
              exact ⟨k + 1, u, v, by rw [pairAt_succ]; exact hpk, he1, he2,
                hbad⟩
        · have h2' : hasStage2 s (prev.2 + 1) (cur.1 - 1) = false := by
            cases hh : hasStage2 s (prev.2 + 1) (cur.1 - 1)
            · rfl
            · exact absurd hh h2
          rw [remMergeAux_cons_merge s rest prev cur hlen h2'] at hp
          have hpw2 : List.Pairwise (fun x y => x.2 + 2 ≤ y.1)
              ((prev.1, cur.2) :: rest) := by
            refine List.pairwise_cons.mpr
              ⟨?_, (List.pairwise_cons.mp hpw').2⟩
            intro x hx
            have := (List.pairwise_cons.mp hpw').1 x hx
            simpa using by omega
          have hb2 : ∀ x ∈ (prev.1, cur.2) :: rest, x.1 ≤ x.2 := by
            intro x hx
            rcases List.mem_cons.mp hx with he | hm
            · rw [he]; simp only; omega
            · exact hb' x (List.mem_cons_of_mem _ hm)
          obtain ⟨k, u, v, hpk, he1, he2, hbad⟩ := ih (prev.1, cur.2) k'
            u' v' hpw2 hb2 hp
          cases k with
          | zero =>
              cases rest with
              | nil => rw [pairAt_singleton] at hpk; cases hpk
              | cons w t =>
                  rw [pairAt_zero] at hpk
                  simp only [Option.some.injEq, Prod.mk.injEq] at hpk
                  obtain ⟨hu, hv⟩ := hpk
                  refine ⟨1, cur, w, by rw [pairAt_succ, pairAt_zero],
                    ?_, ?_, ?_⟩
                  · rw [he1, ← hu]
                  · rw [he2, ← hv]
                  · rw [← hu, ← hv] at hbad
                    exact hbad
          | succ k =>
              rw [pairAt_succ] at hpk
              exact ⟨k + 2, u, v,
                by rw [pairAt_succ, pairAt_succ]; exact hpk, he1, he2, hbad⟩
      · rw [remMergeAux_cons_far s rest prev cur hlen] at hp
        cases k' with
        | zero =>
            obtain ⟨hd, tl, hdeq, hd1⟩ := remMerge_headstart s rest cur
            rw [hdeq, pairAt_zero] at hp
            simp only [Option.some.injEq, Prod.mk.injEq] at hp
            obtain ⟨hu, hv⟩ := hp
            refine ⟨0, prev, cur, rfl, by rw [← hu], ?_, ?_⟩
            · rw [← hv, hd1]
            · rintro ⟨hc, _⟩
              omega
        | succ k' =>
            rw [pairAt_succ] at hp
            obtain ⟨k, u, v, hpk, he1, he2, hbad⟩ := ih cur k' u' v'
              hpw' hb' hp
            exact ⟨k + 1, u, v, by rw [pairAt_succ]; exact hpk, he1, he2,
              hbad⟩

/-- An incoming adjacent pair whose gap blocks merging yields an adjacent
merged pair with the same boundary. -/
theorem remMerge_adj_conv (s : List Nat) :
    ∀ (rest : List (Nat × Nat)) (prev : Nat × Nat) (k : Nat)
      (u v : Nat × Nat),
      List.Pairwise (fun x y => x.2 + 2 ≤ y.1) (prev :: rest) →
      (∀ x ∈ prev :: rest, x.1 ≤ x.2) →
      pairAt (prev :: rest) k = some (u, v) →
      ¬(v.1 - 1 + 1 - (u.2 + 1) < 40 ∧
        hasStage2 s (u.2 + 1) (v.1 - 1) = false) →
      ∃ k' u' v', pairAt (remMergeAux s rest prev).1 k' = some (u', v') ∧
        u'.2 = u.2 ∧ v'.1 = v.1 := by
  intro rest
  induction rest with
  | nil =>
      intro prev k u v _ _ hp _
      rw [pairAt_singleton] at hp
      cases hp
  | cons cur rest ih =>
      intro prev k u v hpw hb hp hbad
      have hpc : prev.2 + 2 ≤ cur.1 :=
        (List.pairwise_cons.mp hpw).1 cur (List.mem_cons_self _ _)
      have hpw' := (List.pairwise_cons.mp hpw).2
      have hb' : ∀ x ∈ cur :: rest, x.1 ≤ x.2 :=
        fun x hx => hb x (List.mem_cons_of_mem _ hx)
      have hprev : prev.1 ≤ prev.2 := hb prev (List.mem_cons_self _ _)
      have hcur : cur.1 ≤ cur.2 := hb' cur (List.mem_cons_self _ _)
      cases k with
      | zero =>
          rw [pairAt_zero] at hp
          simp only [Option.some.injEq, Prod.mk.injEq] at hp
          obtain ⟨hu, hv⟩ := hp
          by_cases hlen : cur.1 - 1 + 1 - (prev.2 + 1) < 40
          · by_cases h2 : hasStage2 s (prev.2 + 1) (cur.1 - 1) = true
            · rw [remMergeAux_cons_block s rest prev cur hlen h2]
              obtain ⟨hd, tl, hdeq, hd1⟩ := remMerge_headstart s rest cur
              rw [hdeq]
              exact ⟨0, prev, hd, pairAt_zero _ _ _, by rw [← hu],
                by rw [hd1, ← hv]⟩
            · have h2' : hasStage2 s (prev.2 + 1) (cur.1 - 1) = false := by
                cases hh : hasStage2 s (prev.2 + 1) (cur.1 - 1)
                · rfl
                · exact absurd hh h2
              rw [← hu, ← hv] at hbad
              exact absurd ⟨hlen, h2'⟩ hbad
          · rw [remMergeAux_cons_far s rest prev cur hlen]
            obtain ⟨hd, tl, hdeq, hd1⟩ := remMerge_headstart s rest cur
            rw [hdeq]
            exact ⟨0, prev, hd, pairAt_zero _ _ _, by rw [← hu],
              by rw [hd1, ← hv]⟩
      | succ k =>
          rw [pairAt_succ] at hp
          by_cases hlen : cur.1 - 1 + 1 - (prev.2 + 1) < 40
          · by_cases h2 : hasStage2 s (prev.2 + 1) (cur.1 - 1) = true
            · rw [remMergeAux_cons_block s rest prev cur hlen h2]
              obtain ⟨k', u', v', hpk, he1, he2⟩ := ih cur k u v hpw' hb'
                hp hbad
              exact ⟨k' + 1, u', v',
                by rw [pairAt_succ]; exact hpk, he1, he2⟩
            · have h2' : hasStage2 s (prev.2 + 1) (cur.1 - 1) = false := by
                cases hh : hasStage2 s (prev.2 + 1) (cur.1 - 1)
                · rfl
                · exact absurd hh h2
              rw [remMergeAux_cons_merge s rest prev cur hlen h2']
              have hpw2 : List.Pairwise (fun x y => x.2 + 2 ≤ y.1)
                  ((prev.1, cur.2) :: rest) := by
                refine List.pairwise_cons.mpr
                  ⟨?_, (List.pairwise_cons.mp hpw').2⟩
                intro x hx
                have := (List.pairwise_cons.mp hpw').1 x hx
                simpa using by omega
              have hb2 : ∀ x ∈ (prev.1, cur.2) :: rest, x.1 ≤ x.2 := by
                intro x hx
                rcases List.mem_cons.mp hx with he | hm
                · rw [he]; simp only; omega
                · exact hb' x (List.mem_cons_of_mem _ hm)
              cases k with
              | zero =>
                  cases rest with
                  | nil => rw [pairAt_singleton] at hp; cases hp
                  | cons w t =>
                      rw [pairAt_zero] at hp
                      simp only [Option.some.injEq, Prod.mk.injEq] at hp
                      obtain ⟨hu, hv⟩ := hp
                      rw [← hu, ← hv] at hbad
                      obtain ⟨k', u', v', hpk, he1, he2⟩ :=
                        ih (prev.1, cur.2) 0 (prev.1, cur.2) w hpw2 hb2
                          (pairAt_zero _ _ _) hbad
                      exact ⟨k', u', v', hpk, by rw [he1, hu],
                        by rw [he2, hv]⟩
              | succ k =>
                  rw [pairAt_succ] at hp
                  obtain ⟨k', u', v', hpk, he1, he2⟩ :=
                    ih (prev.1, cur.2) (k + 1) u v hpw2 hb2
                      (by rw [pairAt_succ]; exact hp) hbad
                  exact ⟨k', u', v', hpk, he1, he2⟩
          · rw [remMergeAux_cons_far s rest prev cur hlen]
            obtain ⟨k', u', v', hpk, he1, he2⟩ := ih cur k u v hpw' hb'
              hp hbad
            exact ⟨k' + 1, u', v', by rw [pairAt_succ]; exact hpk, he1, he2⟩

theorem pairAt_nil (k : Nat) : pairAt ([] : List (Nat × Nat)) k = none := by
  cases k with
  | zero => rfl
  | succ k => simp [pairAt]

theorem gapsOf_cons_block (t : List Nat) (u v : Nat × Nat)
    (rest : List (Nat × Nat))
    (hlen : v.1 - 1 + 1 - (u.2 + 1) < 40)
    (h2 : hasStage2 t (u.2 + 1) (v.1 - 1) = true) :
    gapsOf t (u :: v :: rest) =
      (u.2 + 1, v.1 - 1) :: gapsOf t (v :: rest) := by
  show (if v.1 - 1 + 1 - (u.2 + 1) < 40 then
      if hasStage2 t (u.2 + 1) (v.1 - 1) then
        (u.2 + 1, v.1 - 1) :: gapsOf t (v :: rest)
      else gapsOf t (v :: rest)
    else gapsOf t (v :: rest)) = _
  rw [if_pos hlen, if_pos h2]

theorem gapsOf_cons_skip (t : List Nat) (u v : Nat × Nat)
    (rest : List (Nat × Nat))
    (hlen : v.1 - 1 + 1 - (u.2 + 1) < 40)
    (h2 : hasStage2 t (u.2 + 1) (v.1 - 1) = false) :
    gapsOf t (u :: v :: rest) = gapsOf t (v :: rest) := by
  show (if v.1 - 1 + 1 - (u.2 + 1) < 40 then
      if hasStage2 t (u.2 + 1) (v.1 - 1) then
        (u.2 + 1, v.1 - 1) :: gapsOf t (v :: rest)
      else gapsOf t (v :: rest)
    else gapsOf t (v :: rest)) = _
  rw [if_pos hlen, if_neg (by rw [h2]; exact Bool.false_ne_true)]

theorem gapsOf_cons_far (t : List Nat) (u v : Nat × Nat)
    (rest : List (Nat × Nat))
    (hlen : ¬ v.1 - 1 + 1 - (u.2 + 1) < 40) :
    gapsOf t (u :: v :: rest) = gapsOf t (v :: rest) := by
  show (if v.1 - 1 + 1 - (u.2 + 1) < 40 then
      if hasStage2 t (u.2 + 1) (v.1 - 1) then
        (u.2 + 1, v.1 - 1) :: gapsOf t (v :: rest)
      else gapsOf t (v :: rest)
    else gapsOf t (v :: rest)) = _
  rw [if_neg hlen]

/-- Membership characterization of `gapsOf`: the short stage-2-containing
gaps of adjacent pairs. -/
theorem gapsOf_mem (t : List Nat) :
    ∀ (L : List (Nat × Nat)) (g : Nat × Nat),
      g ∈ gapsOf t L ↔
        ∃ k u v, pairAt L k = some (u, v) ∧
          v.1 - 1 + 1 - (u.2 + 1) < 40 ∧
          hasStage2 t (u.2 + 1) (v.1 - 1) = true ∧
          g = (u.2 + 1, v.1 - 1) := by
  intro L
  induction L with
  | nil =>
      intro g
      constructor
      · intro h
        have he : gapsOf t [] = [] := rfl
        rw [he] at h
        cases h
      · rintro ⟨k, u, v, hp, -⟩
        rw [pairAt_nil] at hp
        cases hp
  | cons u L ih =>
      cases L with
      | nil =>
          intro g
          constructor
          · intro h
            have he : gapsOf t [u] = [] := rfl
            rw [he] at h
            cases h
          · rintro ⟨k, u', v', hp, -⟩
            rw [pairAt_singleton] at hp
            cases hp
      | cons v rest =>
          intro g
          constructor
          · intro h
            by_cases hlen : v.1 - 1 + 1 - (u.2 + 1) < 40
            · by_cases h2 : hasStage2 t (u.2 + 1) (v.1 - 1) = true
              · rw [gapsOf_cons_block t u v rest hlen h2] at h
                rcases List.mem_cons.mp h with he | hm
                · exact ⟨0, u, v, pairAt_zero _ _ _, hlen, h2, he⟩
                · obtain ⟨k, u', v', hp, hl, h2', he⟩ := (ih g).mp hm
                  exact ⟨k + 1, u', v', by rw [pairAt_succ]; exact hp,
                    hl, h2', he⟩
              · have h2' : hasStage2 t (u.2 + 1) (v.1 - 1) = false := by
                  cases hh : hasStage2 t (u.2 + 1) (v.1 - 1)
                  · rfl
                  · exact absurd hh h2
                rw [gapsOf_cons_skip t u v rest hlen h2'] at h
                obtain ⟨k, u', v', hp, hl, h2'', he⟩ := (ih g).mp h
                exact ⟨k + 1, u', v', by rw [pairAt_succ]; exact hp,
                  hl, h2'', he⟩
            · rw [gapsOf_cons_far t u v rest hlen] at h
              obtain ⟨k, u', v', hp, hl, h2'', he⟩ := (ih g).mp h
              exact ⟨k + 1, u', v', by rw [pairAt_succ]; exact hp,
                hl, h2'', he⟩
          · rintro ⟨k, u', v', hp, hl, h2, he⟩
            cases k with
            | zero =>
                rw [pairAt_zero] at hp
                simp only [Option.some.injEq, Prod.mk.injEq] at hp
                obtain ⟨hu, hv⟩ := hp
                rw [← hu, ← hv] at hl h2 he
                rw [gapsOf_cons_block t u v rest hl h2]
                exact List.mem_cons.mpr (Or.inl he)
            | succ k =>
                rw [pairAt_succ] at hp
                have hm := (ih g).mpr ⟨k, u', v', hp, hl, h2, he⟩
                by_cases hlen : v.1 - 1 + 1 - (u.2 + 1) < 40
                · by_cases hh2 : hasStage2 t (u.2 + 1) (v.1 - 1) = true
                  · rw [gapsOf_cons_block t u v rest hlen hh2]
                    exact List.mem_cons_of_mem _ hm
                  · have h2' : hasStage2 t (u.2 + 1) (v.1 - 1) = false := by
                      cases hh : hasStage2 t (u.2 + 1) (v.1 - 1)
                      · rfl
                      · exact absurd hh hh2
                    rw [gapsOf_cons_skip t u v rest hlen h2']
                    exact hm
                · rw [gapsOf_cons_far t u v rest hlen]
                  exact hm

/-- Every gap mark produced by the REM merge loop is the short
stage-2-containing gap of some adjacent incoming pair. -/
theorem remMerge_gaps_inv (s : List Nat) :
    ∀ (rest : List (Nat × Nat)) (prev : Nat × Nat),
      ∀ g ∈ (remMergeAux s rest prev).2,
        ∃ k u v, pairAt (prev :: rest) k = some (u, v) ∧
          v.1 - 1 + 1 - (u.2 + 1) < 40 ∧
          hasStage2 s (u.2 + 1) (v.1 - 1) = true ∧
          g = (u.2 + 1, v.1 - 1) := by
  intro rest
  induction rest with
  | nil =>
      intro prev g hg
      have he : (remMergeAux s [] prev).2 = [] := rfl
      rw [he] at hg
      cases hg
  | cons cur rest ih =>
      intro prev g hg
      by_cases hlen : cur.1 - 1 + 1 - (prev.2 + 1) < 40
      · by_cases h2 : hasStage2 s (prev.2 + 1) (cur.1 - 1) = true
        · rw [remMergeAux_cons_block s rest prev cur hlen h2] at hg
          rcases List.mem_cons.mp hg with he | hm
          · exact ⟨0, prev, cur, pairAt_zero _ _ _, hlen, h2, he⟩
          · obtain ⟨k, u, v, hp, hl, h2', he⟩ := ih cur g hm
            exact ⟨k + 1, u, v, by rw [pairAt_succ]; exact hp, hl, h2', he⟩
        · have h2' : hasStage2 s (prev.2 + 1) (cur.1 - 1) = false := by
            cases hh : hasStage2 s (prev.2 + 1) (cur.1 - 1)
            · rfl
            · exact absurd hh h2
          rw [remMergeAux_cons_merge s rest prev cur hlen h2'] at hg
          obtain ⟨k, u, v, hp, hl, h2'', he⟩ := ih (prev.1, cur.2) g hg
          cases k with
          | zero =>
              cases rest with
              | nil => rw [pairAt_singleton] at hp; cases hp
              | cons w t =>
                  rw [pairAt_zero] at hp
                  simp only [Option.some.injEq, Prod.mk.injEq] at hp
                  obtain ⟨hu, hv⟩ := hp
                  rw [← hu, ← hv] at hl h2'' he
                  exact ⟨1, cur, w, by rw [pairAt_succ, pairAt_zero],
                    hl, h2'', he⟩
          | succ k =>
              rw [pairAt_succ] at hp
              exact ⟨k + 2, u, v,
                by rw [pairAt_succ, pairAt_succ]; exact hp, hl, h2'', he⟩
      · rw [remMergeAux_cons_far s rest prev cur hlen] at hg
        obtain ⟨k, u, v, hp, hl, h2', he⟩ := ih cur g hg
        exact ⟨k + 1, u, v, by rw [pairAt_succ]; exact hp, hl, h2', he⟩

/-- If every adjacent pair of the incoming run list blocks merging, the REM
merge loop is the identity on runs and produces exactly the `gapsOf` marks. -/
theorem remMerge_ident (s : List Nat) :
    ∀ (rest : List (Nat × Nat)) (prev : Nat × Nat),
      (∀ k u v, pairAt (prev :: rest) k = some (u, v) →
        ¬(v.1 - 1 + 1 - (u.2 + 1) < 40 ∧
          hasStage2 s (u.2 + 1) (v.1 - 1) = false)) →
      remMergeAux s rest prev = (prev :: rest, gapsOf s (prev :: rest)) := by
  intro rest
  induction rest with
  | nil =>
      intro prev _
      have hg : gapsOf s [prev] = [] := rfl
      rw [hg]
      rfl
  | cons cur rest ih =>
      intro prev hbad
      have hbad0 := hbad 0 prev cur (pairAt_zero _ _ _)
      by_cases hlen : cur.1 - 1 + 1 - (prev.2 + 1) < 40
      · have h2 : hasStage2 s (prev.2 + 1) (cur.1 - 1) = true := by
          cases hh : hasStage2 s (prev.2 + 1) (cur.1 - 1)
          · exact absurd ⟨hlen, hh⟩ hbad0
          · rfl
        rw [remMergeAux_cons_block s rest prev cur hlen h2]
        have hrec := ih cur (fun k u v hp =>
          hbad (k + 1) u v (by rw [pairAt_succ]; exact hp))
        rw [hrec, gapsOf_cons_block s prev cur rest hlen h2]
      · rw [remMergeAux_cons_far s rest prev cur hlen]
        have hrec := ih cur (fun k u v hp =>
          hbad (k + 1) u v (by rw [pairAt_succ]; exact hp))
        rw [hrec, gapsOf_cons_far s prev cur rest hlen]

/-! ### Structure of the NREM merge loop, mirroring the REM loop -/

theorem nremMerge_inv (rem : List Nat) :
    ∀ (rest : List (Nat × Nat)) (prev : Nat × Nat),
      List.Pairwise (fun x y => x.2 + 2 ≤ y.1) (prev :: rest) →
      (∀ x ∈ prev :: rest, x.1 ≤ x.2) →
      ∀ t ∈ nremMergeAux rem rest prev, t.1 ≤ t.2 ∧ prev.1 ≤ t.1 := by
  intro rest
  induction rest with
  | nil =>
      intro prev _ hb t ht
      have ht' : t = prev := by simpa [nremMergeAux] using ht
      rw [ht']
      exact ⟨hb prev (List.mem_cons_self _ _), Nat.le_refl _⟩
  | cons cur rest ih =>
      intro prev hpw hb t ht
      have hpc : prev.2 + 2 ≤ cur.1 :=
        (List.pairwise_cons.mp hpw).1 cur (List.mem_cons_self _ _)
      have hpw' := (List.pairwise_cons.mp hpw).2
      have hb' : ∀ x ∈ cur :: rest, x.1 ≤ x.2 :=
        fun x hx => hb x (List.mem_cons_of_mem _ hx)
      have hprev : prev.1 ≤ prev.2 := hb prev (List.mem_cons_self _ _)
      have hcur : cur.1 ≤ cur.2 := hb' cur (List.mem_cons_self _ _)
      by_cases hlen : cur.1 - 1 + 1 - (prev.2 + 1) < 40
      · by_cases h2 : hasRem rem (prev.2 + 1) (cur.1 - 1) = true
        · rw [nremMergeAux_cons_block rem rest prev cur hlen h2] at ht
          rcases List.mem_cons.mp ht with he | hm
          · rw [he]; exact ⟨hprev, Nat.le_refl _⟩
          · have := ih cur hpw' hb' t hm
            exact ⟨this.1, by omega⟩
        · have h2' : hasRem rem (prev.2 + 1) (cur.1 - 1) = false := by
            cases hh : hasRem rem (prev.2 + 1) (cur.1 - 1)
            · rfl
            · exact absurd hh h2
          rw [nremMergeAux_cons_merge rem rest prev cur hlen h2'] at ht
          have hpw2 : List.Pairwise (fun x y => x.2 + 2 ≤ y.1)
              ((prev.1, cur.2) :: rest) := by
            refine List.pairwise_cons.mpr
              ⟨?_, (List.pairwise_cons.mp hpw').2⟩
            intro x hx
            have := (List.pairwise_cons.mp hpw').1 x hx
            simpa using by omega
          have hb2 : ∀ x ∈ (prev.1, cur.2) :: rest, x.1 ≤ x.2 := by
            intro x hx
            rcases List.mem_cons.mp hx with he | hm
            · rw [he]; simp only; omega
            · exact hb' x (List.mem_cons_of_mem _ hm)
          exact ih (prev.1, cur.2) hpw2 hb2 t ht
      · rw [nremMergeAux_cons_far rem rest prev cur hlen] at ht
        rcases List.mem_cons.mp ht with he | hm
        · rw [he]; exact ⟨hprev, Nat.le_refl _⟩
        · have := ih cur hpw' hb' t hm
          exact ⟨this.1, by omega⟩

theorem nremMerge_pairwise (rem : List Nat) :
    ∀ (rest : List (Nat × Nat)) (prev : Nat × Nat),
      List.Pairwise (fun x y => x.2 + 2 ≤ y.1) (prev :: rest) →
      (∀ x ∈ prev :: rest, x.1 ≤ x.2) →
      List.Pairwise (fun x y => x.2 + 2 ≤ y.1) (nremMergeAux rem rest prev) := by
  intro rest
  induction rest with
  | nil =>
      intro prev _ _
      simp [nremMergeAux]
  | cons cur rest ih =>
      intro prev hpw hb
      have hpc : prev.2 + 2 ≤ cur.1 :=
        (List.pairwise_cons.mp hpw).1 cur (List.mem_cons_self _ _)
      have hpw' := (List.pairwise_cons.mp hpw).2
      have hb' : ∀ x ∈ cur :: rest, x.1 ≤ x.2 :=
        fun x hx => hb x (List.mem_cons_of_mem _ hx)
      have hprev : prev.1 ≤ prev.2 := hb prev (List.mem_cons_self _ _)
      have hcur : cur.1 ≤ cur.2 := hb' cur (List.mem_cons_self _ _)
      by_cases hlen : cur.1 - 1 + 1 - (prev.2 + 1) < 40
      · by_cases h2 : hasRem rem (prev.2 + 1) (cur.1 - 1) = true
        · rw [nremMergeAux_cons_block rem rest prev cur hlen h2]
          refine List.pairwise_cons.mpr ⟨?_, ih cur hpw' hb'⟩
          intro t ht
          have := (nremMerge_inv rem rest cur hpw' hb' t ht).2
          omega
        · have h2' : hasRem rem (prev.2 + 1) (cur.1 - 1) = false := by
            cases hh : hasRem rem (prev.2 + 1) (cur.1 - 1)
            · rfl
            · exact absurd hh h2
          rw [nremMergeAux_cons_merge rem rest prev cur hlen h2']
          have hpw2 : List.Pairwise (fun x y => x.2 + 2 ≤ y.1)
              ((prev.1, cur.2) :: rest) := by
            refine List.pairwise_cons.mpr
              ⟨?_, (List.pairwise_cons.mp hpw').2⟩
            intro x hx
            have := (List.pairwise_cons.mp hpw').1 x hx
            simpa using by omega
          have hb2 : ∀ x ∈ (prev.1, cur.2) :: rest, x.1 ≤ x.2 := by
            intro x hx
            rcases List.mem_cons.mp hx with he | hm
            · rw [he]; simp only; omega
            · exact hb' x (List.mem_cons_of_mem _ hm)
          exact ih (prev.1, cur.2) hpw2 hb2
      · rw [nremMergeAux_cons_far rem rest prev cur hlen]
        refine List.pairwise_cons.mpr ⟨?_, ih cur hpw' hb'⟩
        intro t ht
        have := (nremMerge_inv rem rest cur hpw' hb' t ht).2
        omega

theorem nremMerge_ends (rem : List Nat) :
    ∀ (rest : List (Nat × Nat)) (prev : Nat × Nat),
      ∀ t ∈ nremMergeAux rem rest prev,
        (∃ x ∈ prev :: rest, t.1 = x.1) ∧ ∃ x ∈ prev :: rest, t.2 = x.2 := by
  intro rest
  induction rest with
  | nil =>
      intro prev t ht
      have ht' : t = prev := by simpa [nremMergeAux] using ht
      exact ⟨⟨prev, List.mem_cons_self _ _, by rw [ht']⟩,
        ⟨prev, List.mem_cons_self _ _, by rw [ht']⟩⟩
  | cons cur rest ih =>
      intro prev t ht
      by_cases hlen : cur.1 - 1 + 1 - (prev.2 + 1) < 40
      · by_cases h2 : hasRem rem (prev.2 + 1) (cur.1 - 1) = true
        · rw [nremMergeAux_cons_block rem rest prev cur hlen h2] at ht
          rcases List.mem_cons.mp ht with he | hm
          · exact ⟨⟨prev, List.mem_cons_self _ _, by rw [he]⟩,
              ⟨prev, List.mem_cons_self _ _, by rw [he]⟩⟩
          · obtain ⟨⟨x, hx, he1⟩, ⟨y, hy, he2⟩⟩ := ih cur t hm
            exact ⟨⟨x, List.mem_cons_of_mem _ hx, he1⟩,
              ⟨y, List.mem_cons_of_mem _ hy, he2⟩⟩
        · have h2' : hasRem rem (prev.2 + 1) (cur.1 - 1) = false := by
            cases hh : hasRem rem (prev.2 + 1) (cur.1 - 1)
            · rfl
            · exact absurd hh h2
          rw [nremMergeAux_cons_merge rem rest prev cur hlen h2'] at ht
          obtain ⟨⟨x, hx, he1⟩, ⟨y, hy, he2⟩⟩ := ih (prev.1, cur.2) t ht
          constructor
          · rcases List.mem_cons.mp hx with hex | hxr
            · exact ⟨prev, List.mem_cons_self _ _, by rw [he1, hex]⟩
            · exact ⟨x, List.mem_cons_of_mem _ (List.mem_cons_of_mem _ hxr),
                he1⟩
          · rcases List.mem_cons.mp hy with hey | hyr
            · exact ⟨cur, List.mem_cons_of_mem _ (List.mem_cons_self _ _),
                by rw [he2, hey]⟩
            · exact ⟨y, List.mem_cons_of_mem _ (List.mem_cons_of_mem _ hyr),
                he2⟩
      · rw [nremMergeAux_cons_far rem rest prev cur hlen] at ht
        rcases List.mem_cons.mp ht with he | hm
        · exact ⟨⟨prev, List.mem_cons_self _ _, by rw [he]⟩,
            ⟨prev, List.mem_cons_self _ _, by rw [he]⟩⟩
        · obtain ⟨⟨x, hx, he1⟩, ⟨y, hy, he2⟩⟩ := ih cur t hm
          exact ⟨⟨x, List.mem_cons_of_mem _ hx, he1⟩,
            ⟨y, List.mem_cons_of_mem _ hy, he2⟩⟩

theorem nremMerge_runcover (rem : List Nat) :
    ∀ (rest : List (Nat × Nat)) (prev : Nat × Nat),
      List.Pairwise (fun x y => x.2 + 2 ≤ y.1) (prev :: rest) →
      (∀ x ∈ prev :: rest, x.1 ≤ x.2) →
      ∀ x ∈ prev :: rest,
        ∃ t ∈ nremMergeAux rem rest prev, t.1 ≤ x.1 ∧ x.2 ≤ t.2 := by
  intro rest
  induction rest with
  | nil =>
      intro prev _ _ x hx
      have hx' : x = prev := by simpa using hx
      exact ⟨prev, by simp [nremMergeAux], by rw [hx'], by rw [hx']⟩
  | cons cur rest ih =>
      intro prev hpw hb x hx
      have hpc : prev.2 + 2 ≤ cur.1 :=
        (List.pairwise_cons.mp hpw).1 cur (List.mem_cons_self _ _)
      have hpw' := (List.pairwise_cons.mp hpw).2
      have hb' : ∀ x ∈ cur :: rest, x.1 ≤ x.2 :=
        fun x hx => hb x (List.mem_cons_of_mem _ hx)
      have hprev : prev.1 ≤ prev.2 := hb prev (List.mem_cons_self _ _)
      have hcur : cur.1 ≤ cur.2 := hb' cur (List.mem_cons_self _ _)
      by_cases hlen : cur.1 - 1 + 1 - (prev.2 + 1) < 40
      · by_cases h2 : hasRem rem (prev.2 + 1) (cur.1 - 1) = true
        · rw [nremMergeAux_cons_block rem rest prev cur hlen h2]
          rcases List.mem_cons.mp hx with he | hx'
          · exact ⟨prev, List.mem_cons_self _ _, by rw [he], by rw [he]⟩
          · obtain ⟨t, ht, h1, h2'⟩ := ih cur hpw' hb' x hx'
            exact ⟨t, List.mem_cons_of_mem _ ht, h1, h2'⟩
        · have h2' : hasRem rem (prev.2 + 1) (cur.1 - 1) = false := by
            cases hh : hasRem rem (prev.2 + 1) (cur.1 - 1)
            · rfl
            · exact absurd hh h2
          rw [nremMergeAux_cons_merge rem rest prev cur hlen h2']
          have hpw2 : List.Pairwise (fun x y => x.2 + 2 ≤ y.1)
              ((prev.1, cur.2) :: rest) := by
            refine List.pairwise_cons.mpr
              ⟨?_, (List.pairwise_cons.mp hpw').2⟩
            intro z hz
            have := (List.pairwise_cons.mp hpw').1 z hz
            simpa using by omega
          have hb2 : ∀ z ∈ (prev.1, cur.2) :: rest, z.1 ≤ z.2 := by
            intro z hz
            rcases List.mem_cons.mp hz with he | hm
            · rw [he]; simp only; omega
            · exact hb' z (List.mem_cons_of_mem _ hm)
          obtain ⟨t, ht, h1, h2''⟩ := ih (prev.1, cur.2) hpw2 hb2
            (prev.1, cur.2) (List.mem_cons_self _ _)
          simp only at h1 h2''
          rcases List.mem_cons.mp hx with he | hx'
          · exact ⟨t, ht, by rw [he]; omega, by rw [he]; omega⟩
          · rcases List.mem_cons.mp hx' with he | hx''
            · exact ⟨t, ht, by rw [he]; omega, by rw [he]; omega⟩
            · obtain ⟨t', ht', h1', h2'''⟩ := ih (prev.1, cur.2) hpw2 hb2 x
                (List.mem_cons_of_mem _ hx'')
              exact ⟨t', ht', h1', h2'''⟩
      · rw [nremMergeAux_cons_far rem rest prev cur hlen]
        rcases List.mem_cons.mp hx with he | hx'
        · exact ⟨prev, List.mem_cons_self _ _, by rw [he], by rw [he]⟩
        · obtain ⟨t, ht, h1, h2'⟩ := ih cur hpw' hb' x hx'
          exact ⟨t, List.mem_cons_of_mem _ ht, h1, h2'⟩

theorem nremMerge_headstart (rem : List Nat) :
    ∀ (rest : List (Nat × Nat)) (prev : Nat × Nat),
      ∃ hd tl, nremMergeAux rem rest prev = hd :: tl ∧ hd.1 = prev.1 := by
  intro rest
  induction rest with
  | nil => intro prev; exact ⟨prev, [], rfl, rfl⟩
  | cons cur rest ih =>
      intro prev
      by_cases hlen : cur.1 - 1 + 1 - (prev.2 + 1) < 40
      · by_cases h2 : hasRem rem (prev.2 + 1) (cur.1 - 1) = true
        · rw [nremMergeAux_cons_block rem rest prev cur hlen h2]
          exact ⟨prev, _, rfl, rfl⟩
        · have h2' : hasRem rem (prev.2 + 1) (cur.1 - 1) = false := by
            cases hh : hasRem rem (prev.2 + 1) (cur.1 - 1)
            · rfl
            · exact absurd hh h2
          rw [nremMergeAux_cons_merge rem rest prev cur hlen h2']
          obtain ⟨hd, tl, he, h1⟩ := ih (prev.1, cur.2)
          exact ⟨hd, tl, he, h1⟩
      · rw [nremMergeAux_cons_far rem rest prev cur hlen]
        exact ⟨prev, _, rfl, rfl⟩

/-- Adjacent merged NREM runs correspond to an incoming adjacent pair with
the same boundary whose gap blocked merging. -/
theorem nremMerge_adj (rem : List Nat) :
    ∀ (rest : List (Nat × Nat)) (prev : Nat × Nat) (k' : Nat)
      (u' v' : Nat × Nat),
      pairAt (nremMergeAux rem rest prev) k' = some (u', v') →
      ∃ k u v, pairAt (prev :: rest) k = some (u, v) ∧ u'.2 = u.2 ∧
        v'.1 = v.1 ∧
        ¬(v.1 - 1 + 1 - (u.2 + 1) < 40 ∧
          hasRem rem (u.2 + 1) (v.1 - 1) = false) := by
  intro rest
  induction rest with
  | nil =>
      intro prev k' u' v' hp
      have he : nremMergeAux rem [] prev = [prev] := rfl
      rw [he, pairAt_singleton] at hp
      cases hp
  | cons cur rest ih =>
      intro prev k' u' v' hp
      by_cases hlen : cur.1 - 1 + 1 - (prev.2 + 1) < 40
      · by_cases h2 : hasRem rem (prev.2 + 1) (cur.1 - 1) = true
        · rw [nremMergeAux_cons_block rem rest prev cur hlen h2] at hp
          cases k' with
          | zero =>
              obtain ⟨hd, tl, hdeq, hd1⟩ := nremMerge_headstart rem rest cur
              rw [hdeq, pairAt_zero] at hp
              simp only [Option.some.injEq, Prod.mk.injEq] at hp
              obtain ⟨hu, hv⟩ := hp
              refine ⟨0, prev, cur, rfl, by rw [← hu], ?_, ?_⟩
              · rw [← hv, hd1]
              · rintro ⟨_, hc⟩
                rw [h2] at hc
                cases hc
          | succ k' =>
              rw [pairAt_succ] at hp
              obtain ⟨k, u, v, hpk, he1, he2, hbad⟩ := ih cur k' u' v' hp
              exact ⟨k + 1, u, v, by rw [pairAt_succ]; exact hpk, he1, he2,
                hbad⟩
        · have h2' : hasRem rem (prev.2 + 1) (cur.1 - 1) = false := by
            cases hh : hasRem rem (prev.2 + 1) (cur.1 - 1)
            · rfl
            · exact absurd hh h2
          rw [nremMergeAux_cons_merge rem rest prev cur hlen h2'] at hp
          obtain ⟨k, u, v, hpk, he1, he2, hbad⟩ := ih (prev.1, cur.2) k'
            u' v' hp
          cases k with
          | zero =>
              cases rest with
              | nil => rw [pairAt_singleton] at hpk; cases hpk
              | cons w t =>
                  rw [pairAt_zero] at hpk
                  simp only [Option.some.injEq, Prod.mk.injEq] at hpk
                  obtain ⟨hu, hv⟩ := hpk
                  refine ⟨1, cur, w, by rw [pairAt_succ, pairAt_zero],
                    ?_, ?_, ?_⟩
                  · rw [he1, ← hu]
                  · rw [he2, ← hv]
                  · rw [← hu, ← hv] at hbad
                    exact hbad
          | succ k =>
              rw [pairAt_succ] at hpk
              exact ⟨k + 2, u, v,
                by rw [pairAt_succ, pairAt_succ]; exact hpk, he1, he2, hbad⟩
      · rw [nremMergeAux_cons_far rem rest prev cur hlen] at hp
        cases k' with
        | zero =>
            obtain ⟨hd, tl, hdeq, hd1⟩ := nremMerge_headstart rem rest cur
            rw [hdeq, pairAt_zero] at hp
            simp only [Option.some.injEq, Prod.mk.injEq] at hp
            obtain ⟨hu, hv⟩ := hp
            refine ⟨0, prev, cur, rfl, by rw [← hu], ?_, ?_⟩
            · rw [← hv, hd1]
            · rintro ⟨hc, _⟩
              omega
        | succ k' =>
            rw [pairAt_succ] at hp
            obtain ⟨k, u, v, hpk, he1, he2, hbad⟩ := ih cur k' u' v' hp
            exact ⟨k + 1, u, v, by rw [pairAt_succ]; exact hpk, he1, he2,
              hbad⟩

/-- If every adjacent pair of the incoming run list blocks merging, the NREM
merge loop is the identity on runs. -/
theorem nremMerge_ident (rem : List Nat) :
    ∀ (rest : List (Nat × Nat)) (prev : Nat × Nat),
      (∀ k u v, pairAt (prev :: rest) k = some (u, v) →
        ¬(v.1 - 1 + 1 - (u.2 + 1) < 40 ∧
          hasRem rem (u.2 + 1) (v.1 - 1) = false)) →
      nremMergeAux rem rest prev = prev :: rest := by
  intro rest
  induction rest with
  | nil => intro prev _; rfl
  | cons cur rest ih =>
      intro prev hbad
      have hbad0 := hbad 0 prev cur (pairAt_zero _ _ _)
      by_cases hlen : cur.1 - 1 + 1 - (prev.2 + 1) < 40
      · have h2 : hasRem rem (prev.2 + 1) (cur.1 - 1) = true := by
          cases hh : hasRem rem (prev.2 + 1) (cur.1 - 1)
          · exact absurd ⟨hlen, hh⟩ hbad0
          · rfl
        rw [nremMergeAux_cons_block rem rest prev cur hlen h2]
        rw [ih cur (fun k u v hp =>
          hbad (k + 1) u v (by rw [pairAt_succ]; exact hp))]
      · rw [nremMergeAux_cons_far rem rest prev cur hlen]
        rw [ih cur (fun k u v hp =>
          hbad (k + 1) u v (by rw [pairAt_succ]; exact hp))]

/-! ### Pointwise characterizations -/

theorem list_eq_of_at0 {xs ys : List Nat} (hlen : xs.length = ys.length)
    (h : ∀ j, j < xs.length → at0 xs j = at0 ys j) : xs = ys := by
  apply List.ext_getElem?
  intro i
  by_cases hi : i < xs.length
  · have hi' : i < ys.length := by omega
    rw [List.getElem?_eq_getElem hi, List.getElem?_eq_getElem hi']
    have hv := h i hi
    rw [at0_eq_getElem?, at0_eq_getElem?, List.getElem?_eq_getElem hi,
      List.getElem?_eq_getElem hi'] at hv
    have h2 : xs[i] = ys[i] := by simpa using hv
    rw [h2]
  · rw [List.getElem?_eq_none_iff.mpr (by omega),
      List.getElem?_eq_none_iff.mpr (by omega)]

theorem at0_markRuns_one_iff (runs : List (Nat × Nat)) (xs : List Nat)
    (j : Nat) :
    at0 (markRuns runs xs) j = 1 ↔
      at0 xs j = 1 ∨ (j < xs.length ∧ ∃ r ∈ runs, r.1 ≤ j ∧ j ≤ r.2) := by
  constructor
  · intro h
    by_cases hj : j < xs.length
    · rcases at0_markRuns_inv runs xs j h with h0 | hex
      · exact Or.inl h0
      · exact Or.inr ⟨hj, hex⟩
    · exfalso
      have hz := @at0_eq_zero_of_le (markRuns runs xs) j
        (by rw [markRuns_length]; omega)
      rw [hz] at h
      cases h
  · intro h
    rcases h with h0 | ⟨hj, r, hr, h1, h2⟩
    · rcases at0_markRuns_or runs xs j with h' | h'
      · exact h'
      · rw [h', h0]
    · exact at0_markRuns_of_mem runs xs r j hr h1 h2 hj

theorem at0_markRuns_replicate_iff (runs : List (Nat × Nat)) (n j : Nat) :
    at0 (markRuns runs (List.replicate n 0)) j = 1 ↔
      j < n ∧ ∃ r ∈ runs, r.1 ≤ j ∧ j ≤ r.2 := by
  rw [at0_markRuns_one_iff, at0_replicate]
  simp

theorem length_eligibleNrem (packet rem : List Nat) :
    (eligibleNrem packet rem).length = min packet.length rem.length := by
  simp [eligibleNrem]

/-- With a REM column that avoids every stage-2 sample, the eligible-packet
runs are exactly the long maximal stage-2 runs. -/
theorem eligible_runs (t rem : List Nat)
    (hlr : rem.length = t.length)
    (hfree : ∀ j, j < t.length → at0 t j = 2 → at0 rem j ≠ 1)
    (hval : ∀ j, at0 rem j = 0 ∨ at0 rem j = 1) :
    bruns (eligibleNrem (calculate_nrem_packets t) rem) =
      (bruns (boolStage 2 t)).filter
        (fun r => decide (20 ≤ r.2 + 1 - r.1)) := by
  have hlen_el : (eligibleNrem (calculate_nrem_packets t) rem).length
      = t.length := by
    rw [length_eligibleNrem, length_calculate_nrem_packets, hlr,
      Nat.min_self]
  have hpwF : List.Pairwise (fun x y => x.2 + 2 ≤ y.1)
      ((bruns (boolStage 2 t)).filter
        (fun r => decide (20 ≤ r.2 + 1 - r.1))) :=
    List.Pairwise.sublist (List.filter_sublist _) (bruns_pairwise _)
  have hbndF : ∀ r ∈ (bruns (boolStage 2 t)).filter
      (fun r => decide (20 ≤ r.2 + 1 - r.1)), r.1 ≤ r.2 ∧ r.2 < t.length := by
    intro r hr
    have := bruns_bounds (boolStage 2 t) r (List.mem_filter.mp hr).1
    rw [length_boolStage] at this
    exact this
  have hchar : ∀ j,
      (eligibleNrem (calculate_nrem_packets t) rem).getD j false = true ↔
        ∃ r ∈ (bruns (boolStage 2 t)).filter
          (fun r => decide (20 ≤ r.2 + 1 - r.1)), r.1 ≤ j ∧ j ≤ r.2 := by
    intro j
    rw [getD_eligibleNrem]
    constructor
    · rintro ⟨h1, h2, h3, h4⟩
      rw [calculate_nrem_packets_eq] at h3
      exact ((at0_markRuns_replicate_iff _ _ _).mp h3).2
    · rintro ⟨r, hr, h1, h2⟩
      have hb := hbndF r hr
      refine ⟨by rw [length_calculate_nrem_packets]; omega, by omega, ?_, ?_⟩
      · rw [calculate_nrem_packets_eq]
        exact (at0_markRuns_replicate_iff _ _ _).mpr
          ⟨by omega, r, hr, h1, h2⟩
      · have hmax := bruns_maxRun _ r (List.mem_filter.mp hr).1
        have hget := hmax.2.2.1 j h1 h2
        rw [getD_boolStage 2 t j (by omega)] at hget
        have ht2 : at0 t j = 2 := by simpa using hget
        rcases hval j with h0 | h1'
        · exact h0
        · exact absurd h1' (hfree j (by omega) ht2)
  apply runs_unique hpwF
  · intro r hr
    have hb := hbndF r hr
    refine ⟨hb.1, by omega, ?_, ?_, ?_⟩
    · intro j h1 h2
      exact (hchar j).mpr ⟨r, hr, h1, h2⟩
    · by_cases h0 : r.1 = 0
      · exact Or.inl h0
      · right
        cases hgd : (eligibleNrem (calculate_nrem_packets t) rem).getD
            (r.1 - 1) false
        · rfl
        · exfalso
          obtain ⟨r', hr', hj1, hj2⟩ := (hchar (r.1 - 1)).mp hgd
          rcases pairwise_mem_rel hpwF hr' hr with he | hsep | hsep
          · rw [he] at hj1
            omega
          · omega
          · omega
    · by_cases h0 : r.2 + 1 =
          (eligibleNrem (calculate_nrem_packets t) rem).length
      · exact Or.inl h0
      · right
        cases hgd : (eligibleNrem (calculate_nrem_packets t) rem).getD
            (r.2 + 1) false
        · rfl
        · exfalso
          obtain ⟨r', hr', hj1, hj2⟩ := (hchar (r.2 + 1)).mp hgd
          rcases pairwise_mem_rel hpwF hr' hr with he | hsep | hsep
          · rw [he] at hj2
            omega
          · have := (hbndF r' hr').1
            omega
          · omega
  · intro j hj hget
    obtain ⟨r, hr, h1, h2⟩ := (hchar j).mp hget
    exact ⟨r, hr, h1, h2⟩

theorem pairAt_rel {r : Nat × Nat → Nat × Nat → Prop} :
    ∀ (L : List (Nat × Nat)) (k : Nat) (u v : Nat × Nat),
      List.Pairwise r L → pairAt L k = some (u, v) → r u v := by
  intro L
  induction L with
  | nil => intro k u v _ hp; rw [pairAt_nil] at hp; cases hp
  | cons a t ih =>
      intro k u v hpw hp
      cases k with
      | zero =>
          cases t with
          | nil => rw [pairAt_singleton] at hp; cases hp
          | cons b t' =>
              rw [pairAt_zero] at hp
              simp only [Option.some.injEq, Prod.mk.injEq] at hp
              obtain ⟨hu, hv⟩ := hp
              rw [← hu, ← hv]
              exact (List.pairwise_cons.mp hpw).1 b (List.mem_cons_self _ _)
      | succ k =>
          rw [pairAt_succ] at hp
          exact ih k u v (List.pairwise_cons.mp hpw).2 hp

theorem at0_markRuns_preserve (runs : List (Nat × Nat)) (xs : List Nat)
    (j : Nat) (h : at0 xs j = 1) : at0 (markRuns runs xs) j = 1 := by
  rcases at0_markRuns_or runs xs j with h' | h'
  · exact h'
  · rw [h', h]

/-- An in-range consolidated sample is 3 exactly on the REM flag. -/
theorem out3_iff {rem nrem wake : List Nat}
    (hwk : wake = calculate_wake_episodes rem nrem)
    (hlr : rem.length = nrem.length)
    (hvr : ∀ j, at0 rem j = 0 ∨ at0 rem j = 1)
    (j : Nat) (hj : j < rem.length) :
    (at0 (consolidate_sleep_stages rem nrem wake) j = 3 ↔ at0 rem j = 1) := by
  have hlw : wake.length = rem.length := by
    rw [hwk, length_calculate_wake_episodes]
    omega
  rw [at0_consolidate rem nrem wake j (by omega) (by omega) (by omega)]
  rcases hvr j with h0 | h1
  · rw [if_neg (by omega)]
    constructor
    · intro hc
      split_ifs at hc <;> omega
    · intro hc
      omega
  · rw [if_pos h1]
    exact iff_of_true rfl h1

/-- An in-range consolidated sample is 2 exactly on the NREM flag, given
that NREM flags avoid REM flags. -/
theorem out2_iff {rem nrem wake : List Nat}
    (hwk : wake = calculate_wake_episodes rem nrem)
    (hlr : rem.length = nrem.length)
    (hex : ∀ j, at0 nrem j = 1 → at0 rem j ≠ 1)
    (j : Nat) (hj : j < rem.length) :
    (at0 (consolidate_sleep_stages rem nrem wake) j = 2 ↔ at0 nrem j = 1) := by
  have hlw : wake.length = rem.length := by
    rw [hwk, length_calculate_wake_episodes]
    omega
  rw [at0_consolidate rem nrem wake j (by omega) (by omega) (by omega)]
  by_cases h1 : at0 rem j = 1
  · rw [if_pos h1]
    constructor
    · intro hc; omega
    · intro hc; exact absurd h1 (hex j hc)
  · rw [if_neg h1]
    by_cases h2 : at0 nrem j = 1
    · rw [if_pos h2]
      exact iff_of_true rfl h2
    · rw [if_neg h2]
      constructor
      · intro hc
        split_ifs at hc
        all_goals omega
      · intro hc
        exact absurd hc h2

/-- Every adjacent pair of the long maximal stage-2 runs of a consolidated
output blocks the NREM merge: the gap is at least 40 samples or contains a
REM-flagged sample.  The hypotheses record how the output was consolidated
from the first run's episode columns. -/
theorem second_nrem_bad
    (out rem nrem0 nremfin : List Nat) (n : Nat)
    (TT GG : List (Nat × Nat))
    (hlo : out.length = n)
    (hlr : rem.length = n)
    (hln0 : nrem0.length = n)
    (hnf : nremfin = markRuns TT nrem0)
    (hn0 : nrem0 = markRuns GG (List.replicate n 0))
    (hpwT : List.Pairwise (fun x y => x.2 + 2 ≤ y.1) TT)
    (hbndT : ∀ t ∈ TT, t.1 ≤ t.2 ∧ t.2 < n)
    (hTadj : ∀ k t t', pairAt TT k = some (t, t') →
      ¬(t'.1 - 1 + 1 - (t.2 + 1) < 40 ∧
        hasRem rem (t.2 + 1) (t'.1 - 1) = false))
    (hTlong : ∀ t ∈ TT, 20 ≤ t.2 + 1 - t.1)
    (hGf : ∀ g ∈ GG, g.1 ≤ g.2 ∧ 1 ≤ g.1 ∧ g.2 + 1 < n ∧
      at0 rem (g.1 - 1) = 1 ∧ at0 rem (g.2 + 1) = 1)
    (hout2 : ∀ j, j < n → (at0 out j = 2 ↔ at0 nremfin j = 1)) :
    ∀ k p q, pairAt ((bruns (boolStage 2 out)).filter
        (fun r => decide (20 ≤ r.2 + 1 - r.1))) k = some (p, q) →
      ¬(q.1 - 1 + 1 - (p.2 + 1) < 40 ∧
        hasRem rem (p.2 + 1) (q.1 - 1) = false) := by
  intro k p q hpq hcontra
  obtain ⟨hshort, hnorem⟩ := hcontra
  have hpF := (pairAt_mem hpq).1
  have hqF := (pairAt_mem hpq).2
  have hpB : p ∈ bruns (boolStage 2 out) := (List.mem_filter.mp hpF).1
  have hqB : q ∈ bruns (boolStage 2 out) := (List.mem_filter.mp hqF).1
  have hpM := bruns_maxRun _ p hpB
  have hqM := bruns_maxRun _ q hqB
  have hpbnd := bruns_bounds _ p hpB
  have hqbnd := bruns_bounds _ q hqB
  rw [length_boolStage, hlo] at hpbnd hqbnd
  have hpwF : List.Pairwise (fun x y => x.2 + 2 ≤ y.1)
      ((bruns (boolStage 2 out)).filter
        (fun r => decide (20 ≤ r.2 + 1 - r.1))) :=
    List.Pairwise.sublist (List.filter_sublist _) (bruns_pairwise _)
  have hsep : p.2 + 2 ≤ q.1 := pairAt_rel _ k p q hpwF hpq
  have hremfree := hasRem_false hnorem
  have hT1 : ∀ t ∈ TT, ∀ i, t.1 ≤ i → i ≤ t.2 → at0 nremfin i = 1 := by
    intro t ht i h1 h2
    rw [hnf]
    exact at0_markRuns_of_mem _ _ t i ht h1 h2
      (by have := hbndT t ht; omega)
  have hG1 : ∀ g ∈ GG, ∀ i, g.1 ≤ i → i ≤ g.2 → at0 nremfin i = 1 := by
    intro g hg i h1 h2
    rw [hnf]
    apply at0_markRuns_preserve
    rw [hn0]
    exact at0_markRuns_of_mem _ _ g i hg h1 h2
      (by rw [List.length_replicate]; have := hGf g hg; omega)
  have hT2 : ∀ t ∈ TT, ∀ i, t.1 ≤ i → i ≤ t.2 → at0 out i = 2 := by
    intro t ht i h1 h2
    exact (hout2 i (by have := hbndT t ht; omega)).mpr (hT1 t ht i h1 h2)
  have hG2 : ∀ g ∈ GG, ∀ i, g.1 ≤ i → i ≤ g.2 → at0 out i = 2 := by
    intro g hg i h1 h2
    exact (hout2 i (by have := hGf g hg; omega)).mpr (hG1 g hg i h1 h2)
  have hno2 : ∀ i, p.2 + 1 ≤ i → i ≤ q.1 - 1 → at0 out i ≠ 2 := by
    intro i h1 h2 hc
    have hi : i < n := by omega
    obtain ⟨z, hz, hz1, hz2⟩ := bruns_cover (boolStage 2 out) i
      (by rw [length_boolStage]; omega)
      (by rw [getD_boolStage 2 out i (by omega)]; simpa using hc)
    have hzM := bruns_maxRun _ z hz
    have hzbnd := bruns_bounds _ z hz
    rw [length_boolStage, hlo] at hzbnd
    have hzp : p.2 + 2 ≤ z.1 := by
      rcases pairwise_mem_rel (bruns_pairwise _) hz hpB with he | hs | hs
      · rw [he] at hz2; omega
      · omega
      · omega
    have hzq : z.2 + 2 ≤ q.1 := by
      rcases pairwise_mem_rel (bruns_pairwise _) hz hqB with he | hs | hs
      · rw [he] at hz1; omega
      · omega
      · omega
    have hzshort : ¬ 20 ≤ z.2 + 1 - z.1 := by
      intro hlong
      have hzF : z ∈ (bruns (boolStage 2 out)).filter
          (fun r => decide (20 ≤ r.2 + 1 - r.1)) :=
        List.mem_filter.mpr ⟨hz, by simpa using hlong⟩
      have hpwlt : List.Pairwise (fun a b => a.1 < b.1)
          ((bruns (boolStage 2 out)).filter
            (fun r => decide (20 ≤ r.2 + 1 - r.1))) :=
        pairwise_lt_of_sep hpwF
          (fun x hx => (bruns_bounds _ x (List.mem_filter.mp hx).1).1)
      exact pairAt_nobetween _ k p q hpwlt hpq z hzF ⟨by omega, by omega⟩
    have hz11 : at0 nremfin z.1 = 1 := by
      refine (hout2 z.1 (by omega)).mp ?_
      have hint := hzM.2.2.1 z.1 (Nat.le_refl _) hzM.1
      rw [getD_boolStage 2 out z.1 (by omega)] at hint
      simpa using hint
    rw [hnf] at hz11
    rcases (at0_markRuns_one_iff TT nrem0 z.1).mp hz11 with
      h01 | ⟨-, t, ht, ht1, ht2⟩
    · rw [hn0] at h01
      obtain ⟨-, g, hg, hg1, hg2⟩ :=
        (at0_markRuns_replicate_iff GG n z.1).mp h01
      obtain ⟨hgb, hgpos, hglt, hgl, hgr⟩ := hGf g hg
      have hcover : z.1 ≤ g.1 ∧ g.2 ≤ z.2 :=
        maxrun_sup hzM (fun i2 hi1 hi2 => by
          rw [getD_boolStage 2 out i2 (by omega)]
          simpa using hG2 g hg i2 hi1 hi2) hgb (Nat.le_refl _) hzM.1 hg1 hg2
      exact hremfree (g.2 + 1) (by omega) (by omega) hgr
    · have hcover : z.1 ≤ t.1 ∧ t.2 ≤ z.2 :=
        maxrun_sup hzM (fun i2 hi1 hi2 => by
          rw [getD_boolStage 2 out i2 (by have := hbndT t ht; omega)]
          simpa using hT2 t ht i2 hi1 hi2) (hbndT t ht).1
          (Nat.le_refl _) hzM.1 ht1 ht2
      have := hTlong t ht
      omega
  have hp2 : at0 out p.2 = 2 := by
    have hint := hpM.2.2.1 p.2 hpM.1 (Nat.le_refl _)
    rw [getD_boolStage 2 out p.2 (by omega)] at hint
    simpa using hint
  have hp2f : at0 nremfin p.2 = 1 := (hout2 p.2 (by omega)).mp hp2
  rw [hnf] at hp2f
  rcases (at0_markRuns_one_iff TT nrem0 p.2).mp hp2f with
    h01 | ⟨-, t, ht, ht1, ht2⟩
  · rw [hn0] at h01
    obtain ⟨-, g, hg, hg1, hg2⟩ :=
      (at0_markRuns_replicate_iff GG n p.2).mp h01
    obtain ⟨hgb, hgpos, hglt, hgl, hgr⟩ := hGf g hg
    have hcover : p.1 ≤ g.1 ∧ g.2 ≤ p.2 :=
      maxrun_sup hpM (fun i2 hi1 hi2 => by
        rw [getD_boolStage 2 out i2 (by omega)]
        simpa using hG2 g hg i2 hi1 hi2) hgb hpM.1 (Nat.le_refl _) hg1 hg2
    exact hremfree (g.2 + 1) (by omega) (by omega) hgr
  · have htp : t.2 = p.2 := by
      have hcover : p.1 ≤ t.1 ∧ t.2 ≤ p.2 :=
        maxrun_sup hpM (fun i2 hi1 hi2 => by
          rw [getD_boolStage 2 out i2 (by have := hbndT t ht; omega)]
          simpa using hT2 t ht i2 hi1 hi2) (hbndT t ht).1
          hpM.1 (Nat.le_refl _) ht1 ht2
      omega
    have hq1v : at0 out q.1 = 2 := by
      have hint := hqM.2.2.1 q.1 (Nat.le_refl _) hqM.1
      rw [getD_boolStage 2 out q.1 (by omega)] at hint
      simpa using hint
    have hq1f : at0 nremfin q.1 = 1 := (hout2 q.1 (by omega)).mp hq1v
    rw [hnf] at hq1f
    rcases (at0_markRuns_one_iff TT nrem0 q.1).mp hq1f with
      h01 | ⟨-, t', ht', ht1', ht2'⟩
    · rw [hn0] at h01
      obtain ⟨-, g, hg, hg1, hg2⟩ :=
        (at0_markRuns_replicate_iff GG n q.1).mp h01
      obtain ⟨hgb, hgpos, hglt, hgl, hgr⟩ := hGf g hg
      have hcover : q.1 ≤ g.1 ∧ g.2 ≤ q.2 :=
        maxrun_sup hqM (fun i2 hi1 hi2 => by
          rw [getD_boolStage 2 out i2 (by omega)]
          simpa using hG2 g hg i2 hi1 hi2) hgb (Nat.le_refl _)
          hqM.1 hg1 hg2
      exact hremfree (g.1 - 1) (by omega) (by omega) hgl
    · have htq : t'.1 = q.1 := by
        have hcover : q.1 ≤ t'.1 ∧ t'.2 ≤ q.2 :=
          maxrun_sup hqM (fun i2 hi1 hi2 => by
            rw [getD_boolStage 2 out i2
              (by have := hbndT t' ht'; omega)]
            simpa using hT2 t' ht' i2 hi1 hi2) (hbndT t' ht').1
            (Nat.le_refl _) hqM.1 ht1' ht2'
        omega
      have htt : t.1 < t'.1 := by
        have := (hbndT t ht).1
        omega
      have hpwTlt : List.Pairwise (fun a b => a.1 < b.1) TT :=
        pairwise_lt_of_sep hpwT (fun x hx => (hbndT x hx).1)
      have hnob : ∀ z ∈ TT, ¬(t.1 < z.1 ∧ z.1 < t'.1) := by
        rintro z hzT ⟨hz1, hz2⟩
        have hzz := hbndT z hzT
        have hzsep1 : t.2 + 2 ≤ z.1 := by
          rcases pairwise_mem_rel hpwT hzT ht with he | hs | hs
          · rw [he] at hz1; omega
          · have := (hbndT t ht).1; omega
          · omega
        have hzsep2 : z.2 + 2 ≤ t'.1 := by
          rcases pairwise_mem_rel hpwT hzT ht' with he | hs | hs
          · rw [he] at hz2; omega
          · omega
          · have := (hbndT t' ht').1; omega
        exact hno2 z.1 (by omega) (by omega)
          (hT2 z hzT z.1 (Nat.le_refl _) hzz.1)
      obtain ⟨kk, hkk⟩ := adjacent_of_sorted TT t t' hpwTlt ht ht' htt hnob
      have hbadtt := hTadj kk t t' hkk
      rw [htp, htq] at hbadtt
      exact hbadtt ⟨hshort, hnorem⟩

theorem calculate_nrem_episodes_preserve (packet rem nrem0 : List Nat)
    (j : Nat) (h : at0 nrem0 j = 1) :
    at0 (calculate_nrem_episodes packet rem nrem0) j = 1 := by
  rcases calculate_nrem_episodes_cases packet rem nrem0 with
    ⟨he, -⟩ | ⟨t0, trest, -, he⟩
  · rw [he]; exact h
  · rw [he]; exact at0_markRuns_preserve _ _ _ h

theorem pipeline_shape {s out : List Nat} (h : pipeline s = some out) :
    ∃ packet rem nrem wake,
      pipelineFlags s = some (packet, rem, nrem, wake) ∧
      out = consolidate_sleep_stages rem nrem wake := by
  unfold pipeline at h
  cases hpf : pipelineFlags s with
  | none => rw [hpf] at h; cases h
  | some pf =>
      rw [hpf] at h
      simp only [Option.some.injEq] at h
      exact ⟨pf.1, pf.2.1, pf.2.2.1, pf.2.2.2, rfl, h.symm⟩

/-- Summary of the first run's phase-3 output: the final NREM column marks a
pairwise-separated family of runs, each at least 20 long, onto the gap
column, and every adjacent pair of those runs blocks the NREM merge. -/
theorem first_nrem_package {s rem nrem0 : List Nat}
    (hre : calculate_rem_episodes s = some (rem, nrem0)) :
    ∃ TT : List (Nat × Nat),
      calculate_nrem_episodes (calculate_nrem_packets s) rem nrem0 =
        markRuns TT nrem0 ∧
      List.Pairwise (fun x y => x.2 + 2 ≤ y.1) TT ∧
      (∀ t ∈ TT, t.1 ≤ t.2 ∧ t.2 < s.length) ∧
      (∀ t ∈ TT, 20 ≤ t.2 + 1 - t.1) ∧
      (∀ k t t', pairAt TT k = some (t, t') →
        ¬(t'.1 - 1 + 1 - (t.2 + 1) < 40 ∧
          hasRem rem (t.2 + 1) (t'.1 - 1) = false)) := by
  have hlr : rem.length = s.length := (length_rem_of_episodes hre).1
  have hvr : ∀ j, at0 rem j = 0 ∨ at0 rem j = 1 :=
    fun j => (rem_episode_values hre j).1
  have hs2free : ∀ j, j < s.length → at0 s j = 2 → at0 rem j ≠ 1 := by
    obtain ⟨r0, rest, hb, hrem, -⟩ := calculate_rem_episodes_eq hre
    intro j hj h2 hr1
    have hpwRaw : List.Pairwise (fun x y => x.2 + 2 ≤ y.1) (r0 :: rest) := by
      rw [← hb]; exact bruns_pairwise _
    have habRaw : ∀ x ∈ r0 :: rest, x.1 ≤ x.2 :=
      fun x hx => (bruns_bounds _ x (by rw [hb]; exact hx)).1
    have hfree3 : ∀ x ∈ r0 :: rest, ∀ i, x.1 ≤ i → i ≤ x.2 →
        at0 s i ≠ 2 := by
      intro x hx i h1 h2' hc
      have hmax := bruns_maxRun (boolStage 3 s) x (by rw [hb]; exact hx)
      have hblen := hmax.2.1
      rw [length_boolStage] at hblen
      have hget := hmax.2.2.1 i h1 h2'
      rw [getD_boolStage 3 s i (by omega)] at hget
      have h3 : at0 s i = 3 := by simpa using hget
      omega
    rw [hrem] at hr1
    obtain ⟨-, m, hm, hm1, hm2⟩ := (at0_markRuns_replicate_iff _ _ _).mp hr1
    exact remMerge_not2 s rest r0 hpwRaw habRaw hfree3 m hm j hm1 hm2 h2
  have hE := eligible_runs s rem hlr hs2free hvr
  rcases calculate_nrem_episodes_cases (calculate_nrem_packets s) rem nrem0
    with ⟨he, hE0⟩ | ⟨t0, trest, hbe, he⟩
  · refine ⟨[], by rw [markRuns_nil]; exact he, List.Pairwise.nil, ?_, ?_, ?_⟩
    · intro t ht; cases ht
    · intro t ht; cases ht
    · intro k t t' hp
      rw [pairAt_nil] at hp
      cases hp
  · have hpwE : List.Pairwise (fun x y => x.2 + 2 ≤ y.1) (t0 :: trest) := by
      rw [← hbe]; exact bruns_pairwise _
    have hbndE : ∀ x ∈ t0 :: trest, x.1 ≤ x.2 ∧ x.2 < s.length := by
      intro x hx
      have := bruns_bounds _ x (by rw [hbe]; exact hx)
      rw [length_eligibleNrem, length_calculate_nrem_packets, hlr,
        Nat.min_self] at this
      exact this
    have habE : ∀ x ∈ t0 :: trest, x.1 ≤ x.2 :=
      fun x hx => (hbndE x hx).1
    have hpwT := nremMerge_pairwise rem trest t0 hpwE habE
    have hbndT : ∀ t ∈ nremMergeAux rem trest t0,
        t.1 ≤ t.2 ∧ t.2 < s.length := by
      intro t ht
      refine ⟨(nremMerge_inv rem trest t0 hpwE habE t ht).1, ?_⟩
      obtain ⟨-, x, hx, he2⟩ := nremMerge_ends rem trest t0 t ht
      rw [he2]
      exact (hbndE x hx).2
    refine ⟨nremMergeAux rem trest t0, he, hpwT, hbndT, ?_, ?_⟩
    · intro t ht
      obtain ⟨⟨x, hx, he1⟩, -⟩ := nremMerge_ends rem trest t0 t ht
      have hxF : x ∈ (bruns (boolStage 2 s)).filter
          (fun r => decide (20 ≤ r.2 + 1 - r.1)) := by
        rw [← hE, hbe]; exact hx
      have hxlong : 20 ≤ x.2 + 1 - x.1 := by
        have := (List.mem_filter.mp hxF).2
        simpa using this
      obtain ⟨t'', ht'', h1'', h2''⟩ :=
        nremMerge_runcover rem trest t0 hpwE habE x hx
      have hte : t = t'' := by
        have hbt := hbndT t ht
        have hbt'' := hbndT t'' ht''
        have hxb := hbndE x hx
        rcases pairwise_mem_rel hpwT ht ht'' with heq | hs | hs
        · exact heq
        · omega
        · omega
      have ht2 : x.2 ≤ t.2 := by rw [hte]; exact h2''
      omega
    · intro k t t' hp
      obtain ⟨k0, u, v, -, he1, he2, hbad⟩ :=
        nremMerge_adj rem trest t0 k t t' hp
      rw [he1, he2]
      exact hbad

/-- Summary of the first run's gap marks: every recorded gap is non-empty,
interior, and immediately flanked on both sides by REM-flagged samples. -/
theorem first_G_package {s rem : List Nat} {r0 : Nat × Nat}
    {rest : List (Nat × Nat)}
    (hb : bruns (boolStage 3 s) = r0 :: rest)
    (hrem : rem =
      markRuns (remMergeAux s rest r0).1 (List.replicate s.length 0)) :
    ∀ g ∈ (remMergeAux s rest r0).2, g.1 ≤ g.2 ∧ 1 ≤ g.1 ∧
      g.2 + 1 < s.length ∧ at0 rem (g.1 - 1) = 1 ∧ at0 rem (g.2 + 1) = 1 := by
  intro g hg
  have hpwRaw : List.Pairwise (fun x y => x.2 + 2 ≤ y.1) (r0 :: rest) := by
    rw [← hb]; exact bruns_pairwise _
  have habRaw : ∀ x ∈ r0 :: rest, x.1 ≤ x.2 :=
    fun x hx => (bruns_bounds _ x (by rw [hb]; exact hx)).1
  obtain ⟨k, u, v, hp, hl, h2, he⟩ := remMerge_gaps_inv s rest r0 g hg
  have hum := (pairAt_mem hp).1
  have hvm := (pairAt_mem hp).2
  have husep : u.2 + 2 ≤ v.1 := pairAt_rel _ k u v hpwRaw hp
  have hubnd := bruns_bounds (boolStage 3 s) u (by rw [hb]; exact hum)
  have hvbnd := bruns_bounds (boolStage 3 s) v (by rw [hb]; exact hvm)
  rw [length_boolStage] at hubnd hvbnd
  obtain ⟨mu, hmu, hmu1, hmu2⟩ :=
    remMerge_runcover s rest r0 hpwRaw habRaw u hum
  obtain ⟨mv, hmv, hmv1, hmv2⟩ :=
    remMerge_runcover s rest r0 hpwRaw habRaw v hvm
  have hru : at0 rem u.2 = 1 := by
    rw [hrem]
    exact (at0_markRuns_replicate_iff _ _ _).mpr
      ⟨by omega, mu, hmu, by omega, by omega⟩
  have hrv : at0 rem v.1 = 1 := by
    rw [hrem]
    exact (at0_markRuns_replicate_iff _ _ _).mpr
      ⟨by omega, mv, hmv, by omega, by omega⟩
  have hg1 : g.1 = u.2 + 1 := by rw [he]
  have hg2 : g.2 = v.1 - 1 := by rw [he]
  refine ⟨by omega, by omega, by omega, ?_, ?_⟩
  · rw [hg1, show u.2 + 1 - 1 = u.2 from by omega]
    exact hru
  · rw [hg2, show v.1 - 1 + 1 = v.1 from by omega]
    exact hrv

/-- C8: the pipeline's consolidated output is a fixed point — feeding the
first run's `sleepStageConsolidated` column back in as the raw `sleepStage`
input reproduces exactly the same consolidated column (and in particular the
second run does not fail). -/
theorem C8_idempotent (s out : List Nat) (h : pipeline s = some out) :
    pipeline out = some out := by
  obtain ⟨packet, rem, nrem, wake, hpf, hout⟩ := pipeline_shape h
  obtain ⟨nrem0, hre, hpk, hnr, hwk⟩ := pipelineFlags_eq hpf
  obtain ⟨r0, rest, hb, hrem, hnrem0⟩ := calculate_rem_episodes_eq hre
  have hlr : rem.length = s.length := (length_rem_of_episodes hre).1
  have hln0 : nrem0.length = s.length := (length_rem_of_episodes hre).2
  have hln : nrem.length = s.length := by
    rw [hnr, length_calculate_nrem_episodes, hln0]
  have hlw : wake.length = s.length := by
    rw [hwk, length_calculate_wake_episodes]
    omega
  have hlo : out.length = s.length := by
    rw [hout, length_consolidate rem nrem wake (by omega) (by omega)]
    exact hlw
  have hvr : ∀ j, at0 rem j = 0 ∨ at0 rem j = 1 :=
    fun j => (rem_episode_values hre j).1
  have hvn0 : ∀ j, at0 nrem0 j = 0 ∨ at0 nrem0 j = 1 :=
    fun j => (rem_episode_values hre j).2
  have hvn : ∀ j, at0 nrem j = 0 ∨ at0 nrem j = 1 := fun j => by
    rw [hnr]
    exact nrem_episode_values _ _ _ j (hvn0 j)
  have hex : ∀ j, at0 nrem j = 1 → at0 rem j ≠ 1 := fun j hj => by
    refine nrem_rem_exclusive hre j ?_
    rw [← hnr]
    exact hj
  have hout3 : ∀ j, j < s.length → (at0 out j = 3 ↔ at0 rem j = 1) :=
    fun j hj => by
      rw [hout]
      exact out3_iff hwk (by omega) hvr j (by omega)
  have hout2 : ∀ j, j < s.length → (at0 out j = 2 ↔ at0 nrem j = 1) :=
    fun j hj => by
      rw [hout]
      exact out2_iff hwk (by omega) hex j (by omega)
  have hpwRaw : List.Pairwise (fun x y => x.2 + 2 ≤ y.1) (r0 :: rest) := by
    rw [← hb]; exact bruns_pairwise _
  have habRaw : ∀ x ∈ r0 :: rest, x.1 ≤ x.2 :=
    fun x hx => (bruns_bounds _ x (by rw [hb]; exact hx)).1
  have hbndRaw : ∀ x ∈ r0 :: rest, x.1 ≤ x.2 ∧ x.2 < s.length := by
    intro x hx
    have := bruns_bounds _ x (by rw [hb]; exact hx)
    rw [length_boolStage] at this
    exact this
  have hpwM : List.Pairwise (fun x y => x.2 + 2 ≤ y.1)
      (remMergeAux s rest r0).1 :=
    remMerge_pairwise s rest r0 hpwRaw habRaw
  have hbndM : ∀ m ∈ (remMergeAux s rest r0).1,
      m.1 ≤ m.2 ∧ m.2 < s.length := by
    intro m hm
    refine ⟨((remMerge_inv s rest r0 hpwRaw habRaw).1 m hm).1, ?_⟩
    obtain ⟨-, x, hx, he2⟩ := remMerge_ends s rest r0 m hm
    rw [he2]
    exact (hbndRaw x hx).2
  have hrem1 : ∀ j, at0 rem j = 1 ↔
      j < s.length ∧ ∃ m ∈ (remMergeAux s rest r0).1,
        m.1 ≤ j ∧ j ≤ m.2 := by
    intro j
    rw [hrem]
    exact at0_markRuns_replicate_iff _ _ _
  have hM3 : bruns (boolStage 3 out) = (remMergeAux s rest r0).1 := by
    apply runs_unique hpwM
    · intro m hm
      have hmb := hbndM m hm
      refine ⟨hmb.1, by rw [length_boolStage]; omega, ?_, ?_, ?_⟩
      · intro j h1 h2
        rw [getD_boolStage 3 out j (by omega)]
        have h3 : at0 out j = 3 := (hout3 j (by omega)).mpr
          ((hrem1 j).mpr ⟨by omega, m, hm, h1, h2⟩)
        simpa using h3
      · by_cases h0 : m.1 = 0
        · exact Or.inl h0
        · right
          cases hgd : (boolStage 3 out).getD (m.1 - 1) false with
          | false => rfl
          | true =>
              exfalso
              rw [getD_boolStage 3 out (m.1 - 1) (by omega)] at hgd
              have h3 : at0 out (m.1 - 1) = 3 := by simpa using hgd
              obtain ⟨-, m', hm', hm'1, hm'2⟩ :=
                (hrem1 _).mp ((hout3 (m.1 - 1) (by omega)).mp h3)
              rcases pairwise_mem_rel hpwM hm' hm with heq | hs | hs
              · rw [heq] at hm'1; omega
              · omega
              · have := (hbndM m' hm').1; omega
      · by_cases h0 : m.2 + 1 = (boolStage 3 out).length
        · exact Or.inl h0
        · right
          have hlt : m.2 + 1 < s.length := by
            rw [length_boolStage, hlo] at h0
            omega
          cases hgd : (boolStage 3 out).getD (m.2 + 1) false with
          | false => rfl
          | true =>
              exfalso
              rw [getD_boolStage 3 out (m.2 + 1) (by omega)] at hgd
              have h3 : at0 out (m.2 + 1) = 3 := by simpa using hgd
              obtain ⟨-, m', hm', hm'1, hm'2⟩ :=
                (hrem1 _).mp ((hout3 (m.2 + 1) (by omega)).mp h3)
              rcases pairwise_mem_rel hpwM hm' hm with heq | hs | hs
              · rw [heq] at hm'2; omega
              · have := (hbndM m' hm').1; omega
              · omega
    · intro j hj hget
      rw [length_boolStage] at hj
      rw [getD_boolStage 3 out j (by omega)] at hget
      have h3 : at0 out j = 3 := by simpa using hget
      obtain ⟨-, m, hm, h1, h2⟩ :=
        (hrem1 j).mp ((hout3 j (by omega)).mp h3)
      exact ⟨m, hm, h1, h2⟩
  obtain ⟨m0, mtl, hM0, -⟩ := remMerge_headstart s rest r0
  have hbOut : bruns (boolStage 3 out) = m0 :: mtl := by rw [hM3, hM0]
  have hMbad : ∀ k u' v', pairAt (m0 :: mtl) k = some (u', v') →
      ¬(v'.1 - 1 + 1 - (u'.2 + 1) < 40 ∧
        hasStage2 out (u'.2 + 1) (v'.1 - 1) = false) := by
    rintro k u' v' hp ⟨hshort, hs2⟩
    have hp' : pairAt (remMergeAux s rest r0).1 k = some (u', v') := by
      rw [hM0]; exact hp
    obtain ⟨k0, u, v, hpk0, he1, he2, hbad⟩ :=
      remMerge_adj s rest r0 k u' v' hpwRaw habRaw hp'
    rw [he1, he2] at hshort hs2
    have h2s : hasStage2 s (u.2 + 1) (v.1 - 1) = true := by
      cases hh : hasStage2 s (u.2 + 1) (v.1 - 1) with
      | false => exact absurd ⟨hshort, hh⟩ hbad
      | true => rfl
    have hgmem : (u.2 + 1, v.1 - 1) ∈ (remMergeAux s rest r0).2 :=
      remMerge_gap_mem s rest r0 k0 u v hpwRaw habRaw hpk0 hshort h2s
    obtain ⟨hga, hgb1, hgc1, -, -⟩ := first_G_package hb hrem _ hgmem
    have hga' : u.2 + 1 ≤ v.1 - 1 := hga
    have hgc' : v.1 - 1 + 1 < s.length := hgc1
    have hn0g : at0 nrem0 (u.2 + 1) = 1 := by
      rw [hnrem0]
      exact at0_markRuns_of_mem _ _ (u.2 + 1, v.1 - 1) (u.2 + 1) hgmem
        (Nat.le_refl _) hga' (by rw [List.length_replicate]; omega)
    have hnf1 : at0 nrem (u.2 + 1) = 1 := by
      rw [hnr]
      exact calculate_nrem_episodes_preserve _ _ _ _ hn0g
    have hout2g : at0 out (u.2 + 1) = 2 := (hout2 (u.2 + 1) (by omega)).mpr hnf1
    have hs2t : hasStage2 out (u.2 + 1) (v.1 - 1) = true :=
      (hasStage2_iff _ _ _).mpr
        ⟨u.2 + 1, Nat.le_refl _, hga', by omega, hout2g⟩
    rw [hs2] at hs2t
    cases hs2t
  have hident2 := remMerge_ident out mtl m0 hMbad
  have hre2 : calculate_rem_episodes out =
      some (markRuns (remMergeAux out mtl m0).1 (List.replicate out.length 0),
            markRuns (remMergeAux out mtl m0).2
              (List.replicate out.length 0)) := by
    unfold calculate_rem_episodes
    rw [hbOut]
  have hrem2 : markRuns (remMergeAux out mtl m0).1
      (List.replicate out.length 0) = rem := by
    rw [hident2]
    show markRuns (m0 :: mtl) (List.replicate out.length 0) = rem
    rw [← hM0, hlo, ← hrem]
  have hgset : ∀ j,
      (∃ g ∈ (remMergeAux out mtl m0).2, g.1 ≤ j ∧ j ≤ g.2) ↔
      (∃ g ∈ (remMergeAux s rest r0).2, g.1 ≤ j ∧ j ≤ g.2) := by
    intro j
    constructor
    · rintro ⟨g, hg, hj1, hj2⟩
      rw [hident2] at hg
      have hg' : g ∈ gapsOf out (m0 :: mtl) := hg
      obtain ⟨k, u', v', hp, hl, -, he⟩ := (gapsOf_mem out _ g).mp hg'
      have hp' : pairAt (remMergeAux s rest r0).1 k = some (u', v') := by
        rw [hM0]; exact hp
      obtain ⟨k0, u, v, hpk0, he1, he2, hbad⟩ :=
        remMerge_adj s rest r0 k u' v' hpwRaw habRaw hp'
      rw [he1, he2] at hl he
      have h2s : hasStage2 s (u.2 + 1) (v.1 - 1) = true := by
        cases hh : hasStage2 s (u.2 + 1) (v.1 - 1) with
        | false => exact absurd ⟨hl, hh⟩ hbad
        | true => rfl
      refine ⟨(u.2 + 1, v.1 - 1),
        remMerge_gap_mem s rest r0 k0 u v hpwRaw habRaw hpk0 hl h2s,
        ?_, ?_⟩
      · rw [he] at hj1; exact hj1
      · rw [he] at hj2; exact hj2
    · rintro ⟨g, hg, hj1, hj2⟩
      obtain ⟨k0, u, v, hpk0, hl, h2s, he⟩ :=
        remMerge_gaps_inv s rest r0 g hg
      have hbad' : ¬(v.1 - 1 + 1 - (u.2 + 1) < 40 ∧
          hasStage2 s (u.2 + 1) (v.1 - 1) = false) := by
        rintro ⟨-, hc⟩
        rw [h2s] at hc
        cases hc
      obtain ⟨k', u', v', hp', he1, he2⟩ :=
        remMerge_adj_conv s rest r0 k0 u v hpwRaw habRaw hpk0 hbad'
      have hga' : u.2 + 1 ≤ v.1 - 1 := by
        have := pairAt_rel _ k0 u v hpwRaw hpk0
        omega
      have hvbnd := hbndRaw v (pairAt_mem hpk0).2
      have hn0g : at0 nrem0 (u.2 + 1) = 1 := by
        rw [hnrem0]
        exact at0_markRuns_of_mem _ _ g (u.2 + 1) hg
          (by rw [he])
          (by rw [he]; exact hga')
          (by rw [List.length_replicate]; omega)
      have hnf1 : at0 nrem (u.2 + 1) = 1 := by
        rw [hnr]
        exact calculate_nrem_episodes_preserve _ _ _ _ hn0g
      have hout2g : at0 out (u.2 + 1) = 2 :=
        (hout2 (u.2 + 1) (by omega)).mpr hnf1
      have h2out : hasStage2 out (u.2 + 1) (v.1 - 1) = true :=
        (hasStage2_iff _ _ _).mpr
          ⟨u.2 + 1, Nat.le_refl _, hga', by omega, hout2g⟩
      refine ⟨(u'.2 + 1, v'.1 - 1), ?_, ?_, ?_⟩
      · rw [hident2]
        show (u'.2 + 1, v'.1 - 1) ∈ gapsOf out (m0 :: mtl)
        apply (gapsOf_mem out _ _).mpr
        refine ⟨k', u', v', by rw [← hM0]; exact hp', ?_, ?_, rfl⟩
        · rw [he1, he2]; exact hl
        · rw [he1, he2]; exact h2out
      · rw [he] at hj1
        rw [he1]
        exact hj1
      · rw [he] at hj2
        rw [he2]
        exact hj2
  have hnrem02 : markRuns (remMergeAux out mtl m0).2
      (List.replicate out.length 0) = nrem0 := by
    apply list_eq_of_at0
    · rw [markRuns_length, List.length_replicate, hlo, hln0]
    · intro j hj
      rw [markRuns_length, List.length_replicate] at hj
      have hLiff := at0_markRuns_replicate_iff
        (remMergeAux out mtl m0).2 out.length j
      have hRiff : at0 nrem0 j = 1 ↔ j < s.length ∧
          ∃ g ∈ (remMergeAux s rest r0).2, g.1 ≤ j ∧ j ≤ g.2 := by
        rw [hnrem0]
        exact at0_markRuns_replicate_iff _ _ _
      have hvL : at0 (markRuns (remMergeAux out mtl m0).2
          (List.replicate out.length 0)) j = 0 ∨
          at0 (markRuns (remMergeAux out mtl m0).2
          (List.replicate out.length 0)) j = 1 := by
        rcases at0_markRuns_or _ (List.replicate out.length 0) j with h' | h'
        · exact Or.inr h'
        · rw [h', at0_replicate]
          exact Or.inl rfl
      rcases hvL with h0 | h1
      · rcases hvn0 j with h0' | h1'
        · rw [h0, h0']
        · exfalso
          obtain ⟨hjn, hgex⟩ := hRiff.mp h1'
          have hc := hLiff.mpr ⟨by omega, (hgset j).mpr hgex⟩
          rw [h0] at hc
          cases hc
      · rw [h1]
        obtain ⟨hjn, hex1⟩ := hLiff.mp h1
        exact (hRiff.mpr ⟨by omega, (hgset j).mp hex1⟩).symm
  have hre2' : calculate_rem_episodes out = some (rem, nrem0) := by
    rw [hre2, hrem2, hnrem02]
  have hs2free2 : ∀ j, j < out.length → at0 out j = 2 → at0 rem j ≠ 1 := by
    intro j hj h2
    exact hex j ((hout2 j (by omega)).mp h2)
  have hE2 : bruns (eligibleNrem (calculate_nrem_packets out) rem) =
      (bruns (boolStage 2 out)).filter
        (fun r => decide (20 ≤ r.2 + 1 - r.1)) :=
    eligible_runs out rem (by omega) hs2free2 hvr
  obtain ⟨TT, hnfT, hpwT, hbndT, hTlong, hTadj⟩ := first_nrem_package hre
  have hnrTT : nrem = markRuns TT nrem0 := by rw [hnr, hnfT]
  have hFbad := second_nrem_bad out rem nrem0 nrem s.length TT
    (remMergeAux s rest r0).2 hlo hlr hln0 hnrTT hnrem0 hpwT hbndT hTadj
    hTlong (first_G_package hb hrem) hout2
  have hnremfin2 :
      calculate_nrem_episodes (calculate_nrem_packets out) rem nrem0 =
      markRuns ((bruns (boolStage 2 out)).filter
        (fun r => decide (20 ≤ r.2 + 1 - r.1))) nrem0 := by
    rcases calculate_nrem_episodes_cases (calculate_nrem_packets out) rem
      nrem0 with ⟨he, hE0⟩ | ⟨e0, erest, hbe, he⟩
    · rw [hE2] at hE0
      rw [he, hE0, markRuns_nil]
    · rw [hE2] at hbe
      rw [he]
      have hid : nremMergeAux rem erest e0 = e0 :: erest := by
        apply nremMerge_ident
        intro k t t' hp
        apply hFbad k t t'
        rw [hbe]
        exact hp
      rw [hid, hbe]
  have hfin : markRuns ((bruns (boolStage 2 out)).filter
      (fun r => decide (20 ≤ r.2 + 1 - r.1))) nrem0 = nrem := by
    apply list_eq_of_at0
    · rw [markRuns_length, hln0, hln]
    · intro j hj
      rw [markRuns_length] at hj
      have hdir1 : at0 (markRuns ((bruns (boolStage 2 out)).filter
          (fun r => decide (20 ≤ r.2 + 1 - r.1))) nrem0) j = 1 →
          at0 nrem j = 1 := by
        intro h1
        rcases (at0_markRuns_one_iff _ _ _).mp h1 with
          h0 | ⟨-, p, hp, hp1, hp2⟩
        · rw [hnr]
          exact calculate_nrem_episodes_preserve _ _ _ _ h0
        · have hpB := (List.mem_filter.mp hp).1
          have hpMx := bruns_maxRun _ p hpB
          have hpbnd := bruns_bounds _ p hpB
          rw [length_boolStage, hlo] at hpbnd
          have h2 : at0 out j = 2 := by
            have hint := hpMx.2.2.1 j hp1 hp2
            rw [getD_boolStage 2 out j (by omega)] at hint
            simpa using hint
          exact (hout2 j (by omega)).mp h2
      have hdir2 : at0 nrem j = 1 →
          at0 (markRuns ((bruns (boolStage 2 out)).filter
            (fun r => decide (20 ≤ r.2 + 1 - r.1))) nrem0) j = 1 := by
        intro h1
        have hjn : j < s.length := by omega
        have h2 : at0 out j = 2 := (hout2 j hjn).mpr h1
        obtain ⟨z, hz, hz1, hz2⟩ := bruns_cover (boolStage 2 out) j
          (by rw [length_boolStage]; omega)
          (by rw [getD_boolStage 2 out j (by omega)]; simpa using h2)
        by_cases hlong : 20 ≤ z.2 + 1 - z.1
        · have hzF : z ∈ (bruns (boolStage 2 out)).filter
              (fun r => decide (20 ≤ r.2 + 1 - r.1)) :=
            List.mem_filter.mpr ⟨hz, by simpa using hlong⟩
          exact (at0_markRuns_one_iff _ _ _).mpr
            (Or.inr ⟨by omega, z, hzF, hz1, hz2⟩)
        · rw [hnrTT] at h1
          rcases (at0_markRuns_one_iff _ _ _).mp h1 with
            h0 | ⟨-, t, ht, ht1, ht2⟩
          · exact (at0_markRuns_one_iff _ _ _).mpr (Or.inl h0)
          · exfalso
            have hzM := bruns_maxRun _ z hz
            have hcover : z.1 ≤ t.1 ∧ t.2 ≤ z.2 :=
              maxrun_sup hzM (fun i2 hi1 hi2 => by
                rw [getD_boolStage 2 out i2
                  (by have := hbndT t ht; omega)]
                have h2i : at0 out i2 = 2 :=
                  (hout2 i2 (by have := hbndT t ht; omega)).mpr (by
                    rw [hnrTT]
                    exact at0_markRuns_of_mem _ _ t i2 ht hi1 hi2
                      (by have := hbndT t ht; omega))
                simpa using h2i) (hbndT t ht).1 hz1 hz2 ht1 ht2
            have := hTlong t ht
            omega
      have hvL : at0 (markRuns ((bruns (boolStage 2 out)).filter
          (fun r => decide (20 ≤ r.2 + 1 - r.1))) nrem0) j = 0 ∨
          at0 (markRuns ((bruns (boolStage 2 out)).filter
          (fun r => decide (20 ≤ r.2 + 1 - r.1))) nrem0) j = 1 := by
        rcases at0_markRuns_or _ nrem0 j with h' | h'
        · exact Or.inr h'
        · rw [h']
          exact hvn0 j
      rcases hvL with hL0 | hL1
      · rcases hvn j with hR0 | hR1
        · rw [hL0, hR0]
        · exfalso
          have hc := hdir2 hR1
          rw [hL0] at hc
          cases hc
      · rw [hL1]
        exact (hdir1 hL1).symm
  have hstep := pipeline_eq hre2'
  rw [hnremfin2, hfin] at hstep
  rw [hstep, ← hwk, hout]

/-- C8 witness: on the concrete input `[3, 1, 3]` the pipeline produces
`[3, 3, 3]`, and the theorem applied to it confirms the re-run reproduces
`[3, 3, 3]`. -/
theorem C8_idempotent_witness :
    pipeline [3, 1, 3] = some [3, 3, 3] ∧
    pipeline [3, 3, 3] = some [3, 3, 3] :=
  ⟨by decide, C8_idempotent [3, 1, 3] [3, 3, 3] (by decide)⟩

end SleepProfile
